import Mathlib

/-!
# FastFAM (GCTA fastGWA engine): a shallow embedding of `src/FastFAM.cpp`

Conventions of the embedding.

* Finite `double` values are carried exactly, as elements of an ordered field `K`
  (instantiated at `ℚ` for evaluation and at `ℝ` where `sqrt` is needed).  The special values
  of a `double` (`+inf`, `-inf`, `NaN`) are kept, because the marker kernels and the result
  sink rely on them.  Rounding, overflow to infinity and the sign of zero are not represented;
  the `float` result arrays hold the same values as the doubles assigned to them.
* `VectorXd` and `vector<double>` are lists; `v.getD i 0` is the coefficient `v[i]`.
* `SpMat` (Eigen column-major sparse matrix) is its dimensions and its list of stored
  `(row, col, value)` entries, in storage order.
* Functions of other translation units (`StatLib::pchisqd1`, `Geno::makeMarkerX`, Eigen's
  `ldlt().solve`) are parameters of the definitions that call them.
-/

namespace FastFAM

/-! ## Doubles with their special values -/

/-- Value of a C++ `double`: a finite number carried exactly, or one of the IEEE special
values. -/
inductive Dbl (K : Type) where
  | fin (x : K)
  | pinf
  | ninf
  | nan
deriving DecidableEq

namespace Dbl

variable {K : Type} [LinearOrderedField K]

/-- IEEE multiplication (`*` on doubles). -/
def mul : Dbl K → Dbl K → Dbl K
  | nan, _ => nan
  | _, nan => nan
  | fin a, fin b => fin (a * b)
  | fin a, pinf => if 0 < a then pinf else if a < 0 then ninf else nan
  | fin a, ninf => if 0 < a then ninf else if a < 0 then pinf else nan
  | pinf, fin b => if 0 < b then pinf else if b < 0 then ninf else nan
  | ninf, fin b => if 0 < b then ninf else if b < 0 then pinf else nan
  | pinf, pinf => pinf
  | pinf, ninf => ninf
  | ninf, pinf => ninf
  | ninf, ninf => pinf

/-- IEEE division (`/` on doubles); a zero divisor is taken as `+0`. -/
def div : Dbl K → Dbl K → Dbl K
  | nan, _ => nan
  | _, nan => nan
  | fin a, fin b =>
      if b = 0 then (if 0 < a then pinf else if a < 0 then ninf else nan) else fin (a / b)
  | fin _, pinf => fin 0
  | fin _, ninf => fin 0
  | pinf, fin b => if b < 0 then ninf else pinf
  | ninf, fin b => if b < 0 then pinf else ninf
  | pinf, pinf => nan
  | pinf, ninf => nan
  | ninf, pinf => nan
  | ninf, ninf => nan

/-- The function `sqrt` of `<cmath>`, given the square root `sqrtK` of the nonnegative finite
values. -/
def sqrt (sqrtK : K → K) : Dbl K → Dbl K
  | fin a => if a < 0 then nan else fin (sqrtK a)
  | pinf => pinf
  | ninf => nan
  | nan => nan

/-- Comparison `a < b` on doubles: false as soon as one side is `NaN`. -/
def lt : Dbl K → Dbl K → Bool
  | fin a, fin b => decide (a < b)
  | fin _, pinf => true
  | ninf, fin _ => true
  | ninf, pinf => true
  | _, _ => false

/-- Comparison `a > b` on doubles. -/
def gt (a b : Dbl K) : Bool := lt b a

/-- Test `x != x`, true exactly for `NaN`. -/
def isNaN : Dbl K → Bool
  | nan => true
  | _ => false

end Dbl

/-! ## Vectors and sparse matrices -/

section LinearAlgebra

variable {K : Type} [LinearOrderedField K]

/-- Inner product `a.dot(b)` (also the `1 x 1` product `a.transpose() * b`). -/
def dot (a b : List K) : K := (List.zipWith (fun x y => x * y) a b).sum

/-- Eigen `SparseMatrix<double>` in column-major order: dimensions and stored entries
`(row, col, value)`. -/
structure SpMat (K : Type) where
  rows : Nat
  cols : Nat
  entries : List (Nat × Nat × K)

/-- Dense coefficient `A.coeff(i, j)`: what is stored at `(i, j)`, zero where nothing is. -/
def SpMat.coeff (A : SpMat K) (i j : Nat) : K :=
  ((A.entries.filter (fun e => e.1 = i ∧ e.2.1 = j)).map (fun e => e.2.2)).sum

/-- Invariant of a compressed Eigen sparse matrix: at most one stored entry per position. -/
def SpMat.UniqueEntries (A : SpMat K) : Prop :=
  (A.entries.map (fun e => (e.1, e.2.1))).Nodup

/-- The matrix is symmetric: `A(i, j) = A(j, i)` for all `i`, `j`. -/
def SpMat.Symmetric (A : SpMat K) : Prop :=
  ∀ i j, A.coeff i j = A.coeff j i

/-- Result of `eye.setIdentity()` on an `n x n` sparse matrix. -/
def SpMat.identity (n : Nat) : SpMat K :=
  { rows := n, cols := n, entries := (List.range n).map (fun i => (i, i, (1 : K))) }

/-- Product `x.transpose() * V` of a dense row vector and a sparse matrix: entry `c` sums
`x[row] * value` over the stored entries of column `c`. -/
def vecMulSp (x : List K) (V : SpMat K) : List K :=
  (List.range V.cols).map (fun c =>
    ((V.entries.filter (fun e => e.2.1 = c)).map (fun e => x.getD e.1 0 * e.2.2)).sum)

end LinearAlgebra

/-! ## Marker engine -/

section Engine

variable {K : Type} [LinearOrderedField K]

/-- The members of class `FastFAM` read or written by the marker loop and the result sink. -/
structure State (K : Type) where
  num_indi : Nat
  phenoVec : List K
  V_inverse : SpMat K
  fam_flag : Bool
  num_marker : Nat
  num_finished_marker : Nat
  beta : List (Dbl K)
  se : List (Dbl K)
  p : List (Dbl K)

/-- Body of the loop of `FastFAM::calculate_gwa` for one `cur_marker`; `buf cur_marker` is the
vector written by `geno->makeMarkerX(buf, cur_marker, w_buf, true, false)`. -/
def calculate_gwa_marker (sqrtK : K → K) (pchisqd1 : Dbl K → Dbl K) (buf : Nat → List K)
    (st : State K) (cur_marker : Nat) : State K :=
  let xMat := buf cur_marker
  let tMat_V := xMat
  let xMat_V_x := Dbl.div (Dbl.fin 1) (Dbl.fin (dot tMat_V xMat))
  let xMat_V_p : Dbl K := Dbl.fin (dot tMat_V st.phenoVec)
  let temp_beta := Dbl.mul xMat_V_x xMat_V_p
  let temp_se := Dbl.sqrt sqrtK xMat_V_x
  let temp_z := Dbl.div temp_beta temp_se
  let cur_raw_marker := (st.num_finished_marker + cur_marker) % 2 ^ 32
  { st with
    beta := st.beta.set cur_raw_marker temp_beta
    se := st.se.set cur_raw_marker temp_se
    p := st.p.set cur_raw_marker (pchisqd1 (Dbl.mul temp_z temp_z)) }

/-- Function `FastFAM::calculate_gwa(buf, num_marker)`: the loop over the batch, then the
advance of `num_finished_marker`.  The iterations of the OpenMP loop share no variable and
write at distinct indices; they are taken here in index order. -/
def calculate_gwa (sqrtK : K → K) (pchisqd1 : Dbl K → Dbl K) (st : State K)
    (buf : Nat → List K) (num_marker : Nat) : State K :=
  let st1 := (List.range num_marker).foldl (calculate_gwa_marker sqrtK pchisqd1 buf) st
  { st1 with num_finished_marker := st1.num_finished_marker + num_marker }

/-- Body of the loop of `FastFAM::calculate_fam` for one `cur_marker`. -/
def calculate_fam_marker (sqrtK : K → K) (pchisqd1 : Dbl K → Dbl K) (buf : Nat → List K)
    (st : State K) (cur_marker : Nat) : State K :=
  let xMat := buf cur_marker
  let xMat_V := vecMulSp xMat st.V_inverse
  let xMat_V_x := Dbl.div (Dbl.fin 1) (Dbl.fin (dot xMat_V xMat))
  let xMat_V_p : Dbl K := Dbl.fin (dot xMat_V st.phenoVec)
  let temp_beta := Dbl.mul xMat_V_x xMat_V_p
  let temp_se := Dbl.sqrt sqrtK xMat_V_x
  let temp_z := Dbl.div temp_beta temp_se
  let cur_raw_marker := (st.num_finished_marker + cur_marker) % 2 ^ 32
  { st with
    beta := st.beta.set cur_raw_marker temp_beta
    se := st.se.set cur_raw_marker temp_se
    p := st.p.set cur_raw_marker (pchisqd1 (Dbl.mul temp_z temp_z)) }

/-- Function `FastFAM::calculate_fam(buf, num_marker)`: the loop over the batch (iterations
taken in index order), then the advance of `num_finished_marker`. -/
def calculate_fam (sqrtK : K → K) (pchisqd1 : Dbl K → Dbl K) (st : State K)
    (buf : Nat → List K) (num_marker : Nat) : State K :=
  let st1 := (List.range num_marker).foldl (calculate_fam_marker sqrtK pchisqd1 buf) st
  { st1 with num_finished_marker := st1.num_finished_marker + num_marker }

/-- The three values the loop body of `calculate_fam` / `calculate_gwa` stores for one marker,
as a function of the row vector `xMat_V` (`x^T V_inverse`, or `x^T` itself on the OLS path). -/
def markerStats (sqrtK : K → K) (pchisqd1 : Dbl K → Dbl K) (xMat_V xMat phenoVec : List K) :
    Dbl K × Dbl K × Dbl K :=
  let xMat_V_x := Dbl.div (Dbl.fin 1) (Dbl.fin (dot xMat_V xMat))
  let xMat_V_p : Dbl K := Dbl.fin (dot xMat_V phenoVec)
  let temp_beta := Dbl.mul xMat_V_x xMat_V_p
  let temp_se := Dbl.sqrt sqrtK xMat_V_x
  let temp_z := Dbl.div temp_beta temp_se
  (temp_beta, temp_se, pchisqd1 (Dbl.mul temp_z temp_z))

/-- State after the three stores of one loop body. -/
def storeStats (st : State K) (cur_marker : Nat) (s : Dbl K × Dbl K × Dbl K) : State K :=
  { st with
    beta := st.beta.set ((st.num_finished_marker + cur_marker) % 2 ^ 32) s.1
    se := st.se.set ((st.num_finished_marker + cur_marker) % 2 ^ 32) s.2.1
    p := st.p.set ((st.num_finished_marker + cur_marker) % 2 ^ 32) s.2.2 }

end Engine

/-! ## Phenotype conditioner -/

section Conditioner

variable {K : Type} [LinearOrderedField K]

/-- View `Map<Matrix<double, Dynamic, Dynamic, ColMajor>>(data, rows, cols)` of a flat
buffer. -/
def mapColMajor (data : List K) (rows cols : Nat) : Matrix (Fin rows) (Fin cols) K :=
  fun i j => data.getD (j.val * rows + i.val) 0

/-- Function `FastFAM::conditionCovarReg(pheno, covar)`: the new value of `pheno`.
`ldltSolve M b` is Eigen's `M.ldlt().solve(b)`. -/
def conditionCovarReg {n k : Nat}
    (ldltSolve : Matrix (Fin k) (Fin k) K → (Fin k → K) → (Fin k → K))
    (pheno : Fin n → K) (covar : Matrix (Fin n) (Fin k) K) : Fin n → K :=
  let t_covar := covar.transpose
  let beta := ldltSolve (t_covar * covar) (t_covar.mulVec pheno)
  pheno - covar.mulVec beta

/-- The covariate buffer of the constructor after `getCovarX`, `resize` and `fill(1.0)`:
the covariate columns followed by one column of ones. -/
def remain_covar_with_intercept (covarX : List K) (n_remain_index_fam : Nat) : List K :=
  covarX ++ List.replicate n_remain_index_fam 1

/-- The matrix `concovar` the constructor maps over the covariate buffer. -/
def concovar (covarX : List K) (n : Nat) :
    Matrix (Fin n) (Fin ((remain_covar_with_intercept covarX n).length / n)) K :=
  mapColMajor (remain_covar_with_intercept covarX n) n
    ((remain_covar_with_intercept covarX n).length / n)

/-- The lines under `// Center` of the constructor: `phenoVec` minus its mean. -/
def centerPheno {n : Nat} (phenoVec : Fin n → K) : List K :=
  let phenoVec_mean := (∑ i, phenoVec i) / (n : K)
  List.ofFn (fun i => phenoVec i - phenoVec_mean)

/-- Constructor `FastFAM::FastFAM`, from "standerdize the phenotype, and condition the covar"
to "Center": the value of `phenoVec` after centering.  `covarX` is the buffer filled by
`covar.getCovarX`, `save_pheno` the option of that name and `cphen_opened` whether the
`.cphen` stream could be opened; `LOGGER.e` ends the run with its message. -/
def conditionPheno (ldltSolve : (k : Nat) → Matrix (Fin k) (Fin k) K → (Fin k → K) → (Fin k → K))
    (has_covar : Bool) (covarX : List K) (save_pheno cphen_opened : Bool)
    (remain_phenos : List K) : Except String (List K) :=
  let n := remain_phenos.length
  let phenoVec0 : Fin n → K := fun i => remain_phenos.get i
  if has_covar then
    let phenoVec1 := conditionCovarReg (ldltSolve _) phenoVec0 (concovar covarX n)
    if save_pheno && !cphen_opened then
      Except.error "failed to write .cphen"
    else
      Except.ok (centerPheno phenoVec1)
  else
    Except.ok (centerPheno phenoVec0)

/-- Exact solution of `M x = b` by Cramer's rule: what `M.ldlt().solve(b)` computes in exact
arithmetic when `M` is invertible. -/
def cramerSolve (k : Nat) (M : Matrix (Fin k) (Fin k) K) (b : Fin k → K) : Fin k → K :=
  (M.det)⁻¹ • (M.adjugate.mulVec b)

/-- Contract of Eigen's `ldlt().solve` in exact arithmetic on the matrices it is given here:
for an invertible Gram matrix `C^T C` it returns the solution of `C^T C x = b`. -/
def SolvesGram (ldltSolve : (k : Nat) → Matrix (Fin k) (Fin k) K → (Fin k → K) → (Fin k → K)) :
    Prop :=
  ∀ (n k : Nat) (C : Matrix (Fin n) (Fin k) K) (b : Fin k → K),
    (C.transpose * C).det ≠ 0 →
      (C.transpose * C).mulVec (ldltSolve k (C.transpose * C) b) = b

end Conditioner

/-! ## Haseman-Elston regression, Mode A -/

section HE

variable {K : Type} [LinearOrderedField K]

/-- The accumulators of `FastFAM::HEreg(fam, pheno, isSig)`: the entries of `XtX`, of `XtY`,
and `SSy`. -/
structure HEacc (K : Type) where
  XtX00 : K
  XtX01 : K
  XtX10 : K
  XtX11 : K
  XtY0 : K
  XtY1 : K
  SSy : K
deriving DecidableEq

/-- One pass of the loop `for(int i = 1; i < fam.cols(); i++)` of Mode-A `HEreg`.
`fam_block = fam.block(0, i, i, 1)` holds the stored entries of column `i` in rows `0..i-1`;
`pheno_block = pheno.head(i) * temp_pheno` is dense. -/
def HEreg_step (fam : SpMat K) (pheno : List K) (acc : HEacc K) (i : Nat) : HEacc K :=
  let temp_pheno := pheno.getD i 0
  let fam_block := fam.entries.filter (fun e => e.2.1 = i ∧ e.1 < i)
  let pheno_block := (pheno.take i).map (fun v => v * temp_pheno)
  { acc with
    SSy := acc.SSy + dot pheno_block pheno_block
    XtY0 := acc.XtY0 + pheno_block.sum
    XtY1 := acc.XtY1 + (fam_block.map (fun e => pheno_block.getD e.1 0 * e.2.2)).sum
    XtX01 := acc.XtX01 + (fam_block.map (fun e => e.2.2)).sum
    XtX11 := acc.XtX11 + (fam_block.map (fun e => e.2.2 * e.2.2)).sum }

/-- Value of `uint64_t size = fam.cols() * fam.rows()`. -/
def HEreg_size (fam : SpMat K) : Nat := (fam.cols * fam.rows) % 2 ^ 64

/-- Mode-A `HEreg` up to and including `XtX(1,0) = XtX(0,1)`: the accumulated normal
equations. -/
def HEreg_accumulate (fam : SpMat K) (pheno : List K) : HEacc K :=
  let size := HEreg_size fam
  let init : HEacc K :=
    { XtX00 := (size : K), XtX01 := 0, XtX10 := 0, XtX11 := 0, XtY0 := 0, XtY1 := 0, SSy := 0 }
  let acc := (List.range' 1 (fam.cols - 1)).foldl (HEreg_step fam pheno) init
  { acc with XtX10 := acc.XtX01 }

/-- Mode-A `HEreg` from `lu.inverse()` to `Zsq`, on a nonsingular `XtX`: the estimate `hsq`
and the statistic `Zsq = hsq * hsq / SD`.  `lu.inverse()` is the exact inverse of the `2 x 2`
matrix, and `size - col_X` is computed in `uint64_t`. -/
def HEreg_solve (fam : SpMat K) (acc : HEacc K) : K × Dbl K :=
  let det := acc.XtX00 * acc.XtX11 - acc.XtX01 * acc.XtX10
  let XtXi00 := acc.XtX11 / det
  let XtXi01 := -acc.XtX01 / det
  let XtXi10 := -acc.XtX10 / det
  let XtXi11 := acc.XtX00 / det
  let betas0 := XtXi00 * acc.XtY0 + XtXi01 * acc.XtY1
  let betas1 := XtXi10 * acc.XtY0 + XtXi11 * acc.XtY1
  let sse := (acc.SSy - (betas0 * acc.XtY0 + betas1 * acc.XtY1)) /
    (((HEreg_size fam + 2 ^ 64 - 2) % 2 ^ 64 : Nat) : K)
  let hsq := betas1
  let SD := sse * XtXi11
  (hsq, Dbl.div (Dbl.fin (hsq * hsq)) (Dbl.fin SD))

/-- Function `FastFAM::HEreg(fam, pheno, isSig)`: the returned `hsq` and the value left in
`isSig`.  `lu.rank() < XtX.rows()` holds in exact arithmetic when the determinant of `XtX` is
zero. -/
def HEreg (pchisqd1 : Dbl K → Dbl K) (fam : SpMat K) (pheno : List K) : Dbl K × Bool :=
  let acc := HEreg_accumulate fam pheno
  if acc.XtX00 * acc.XtX11 - acc.XtX01 * acc.XtX10 = 0 then
    (Dbl.nan, false)
  else
    let r := HEreg_solve fam acc
    let p := pchisqd1 r.2
    if Dbl.gt p (Dbl.fin (5 / 100)) then (Dbl.fin r.1, false) else (Dbl.fin r.1, true)

/-- Matrix `P A P^T` for the relabelling `sigma` of the samples: the entry stored at
`(r, c)` moves to `(sigma r, sigma c)`. -/
def SpMat.permute (sigma : Nat → Nat) (A : SpMat K) : SpMat K :=
  { rows := A.rows, cols := A.cols
    entries := A.entries.map (fun e => (sigma e.1, sigma e.2.1, e.2.2)) }

/-- Vector `P y` for the relabelling `sigma`: sample `i` moves to position `sigma i`;
`tau` is the inverse relabelling. -/
def permuteVec (tau : Nat → Nat) (y : List K) : List K :=
  (List.range y.length).map (fun k => y.getD (tau k) 0)

end HE

/-! ## Result sink -/

section Sink

variable {K : Type} [LinearOrderedField K]

/-- Constant `MAF_L_THRESH = 0.00001` of `FastFAM::output`. -/
def MAF_L_THRESH : K := 1 / 100000

/-- Constant `MAF_U_THRESH = 0.99999` of `FastFAM::output`. -/
def MAF_U_THRESH : K := 99999 / 100000

/-- One line of the text result file: the marker description (absent under `no_marker`), then
`AF1`, `beta`, `se`, `p`. -/
structure TextRow (K : Type) where
  marker : Option String
  af : Dbl K
  beta : Dbl K
  se : Dbl K
  p : Dbl K
deriving DecidableEq

/-- The text result file: header fields and one row per line. -/
structure TextFile (K : Type) where
  header : List String
  rows : List (TextRow K)
deriving DecidableEq

/-- The binary result file `<out>.bin`: four arrays written one after the other. -/
structure BinFile (K : Type) where
  afa1 : List (Dbl K)
  beta : List (Dbl K)
  se : List (Dbl K)
  p : List (Dbl K)
deriving DecidableEq

/-- Text branch of `FastFAM::output` (option `save_bin` absent).  `AFA1` is `geno->AFA1`,
`get_marker index` is `geno->marker->get_marker(geno->marker->getExtractIndex(index))`. -/
def output_text (no_marker : Bool) (AFA1 : Nat → Dbl K) (get_marker : Nat → String)
    (st : State K) : TextFile K :=
  if !no_marker then
    { header := ["CHR", "SNP", "POS", "A1", "A2", "AF1", "beta", "se", "p"]
      rows := (List.range st.num_marker).map (fun index =>
        let af := AFA1 index
        if Dbl.gt af (Dbl.fin MAF_L_THRESH) && Dbl.lt af (Dbl.fin MAF_U_THRESH) then
          { marker := some (get_marker index), af := af, beta := st.beta.getD index Dbl.nan,
            se := st.se.getD index Dbl.nan, p := st.p.getD index Dbl.nan }
        else
          { marker := some (get_marker index), af := af, beta := Dbl.nan, se := Dbl.nan,
            p := Dbl.nan }) }
  else
    { header := ["AF1", "beta", "se", "p"]
      rows := (List.range st.num_marker).map (fun index =>
        let af := AFA1 index
        if Dbl.gt af (Dbl.fin MAF_L_THRESH) && Dbl.lt af (Dbl.fin MAF_U_THRESH) then
          { marker := none, af := af, beta := st.beta.getD index Dbl.nan,
            se := st.se.getD index Dbl.nan, p := st.p.getD index Dbl.nan }
        else
          { marker := none, af := af, beta := Dbl.nan, se := Dbl.nan, p := Dbl.nan }) }

/-- One pass of the masking loop of the binary branch of `FastFAM::output`. -/
def output_bin_mask (AFA1 : Nat → Dbl K) (st : State K) (index : Nat) : State K :=
  let af := AFA1 index
  if Dbl.lt af (Dbl.fin MAF_L_THRESH) || Dbl.gt af (Dbl.fin MAF_U_THRESH) then
    { st with
      beta := st.beta.set index Dbl.nan
      se := st.se.set index Dbl.nan
      p := st.p.set index Dbl.nan }
  else st

/-- Binary branch of `FastFAM::output` (option `save_bin` present): the masking loop over the
result arrays, then the four `fwrite` calls of `num_marker` items each. -/
def output_bin (AFA1 : Nat → Dbl K) (st : State K) : BinFile K :=
  let afa1 := (List.range st.num_marker).map AFA1
  let st1 := (List.range st.num_marker).foldl (output_bin_mask AFA1) st
  { afa1 := afa1
    beta := st1.beta.take st.num_marker
    se := st1.se.take st.num_marker
    p := st1.p.take st.num_marker }

end Sink

/-! ## Failing input of the binary result sink -/

/-- State with a single marker whose statistics are finite. -/
def oneMarkerState : State ℚ :=
  { num_indi := 0, phenoVec := [], V_inverse := { rows := 0, cols := 0, entries := [] },
    fam_flag := false, num_marker := 1, num_finished_marker := 1,
    beta := [Dbl.fin (1 / 2)], se := [Dbl.fin (1 / 4)], p := [Dbl.fin (1 / 8)] }

/-- Allele frequencies all equal to the lower threshold `0.00001`. -/
def afAtLowerThreshold : Nat → Dbl ℚ := fun _ => Dbl.fin (1 / 100000)


/-! ## Sample inputs of the marker engine -/

section Samples

variable (K : Type) [LinearOrderedField K]

/-- Two samples, one marker slot, `V_inverse` the identity. -/
def twoSampleState : State K :=
  { num_indi := 2, phenoVec := [3, 4], V_inverse := SpMat.identity 2, fam_flag := true,
    num_marker := 1, num_finished_marker := 0,
    beta := [Dbl.nan], se := [Dbl.nan], p := [Dbl.nan] }

/-- A batch whose markers all have genotype vector `(1, 2)`. -/
def twoSampleBatch : Nat → List K := fun _ => [1, 2]

/-- A batch whose markers all have the all-zero genotype vector. -/
def zeroBatch : Nat → List K := fun _ => [0, 0]

/-- Scenario S1: four samples, phenotype `(1,2,3,4)` after centering, no GRM. -/
def olsSanityState : State K :=
  { num_indi := 4, phenoVec := [-3 / 2, -1 / 2, 1 / 2, 3 / 2],
    V_inverse := { rows := 0, cols := 0, entries := [] }, fam_flag := false,
    num_marker := 1, num_finished_marker := 0,
    beta := [Dbl.nan], se := [Dbl.nan], p := [Dbl.nan] }

/-- Scenario S1: the single marker `x = (-1.5, -0.5, 0.5, 1.5)`. -/
def olsSanityBatch : Nat → List K := fun _ => [-3 / 2, -1 / 2, 1 / 2, 3 / 2]

/-- A symmetric `3 x 3` GRM with one related pair `(0, 1)`, stored column by column. -/
def sampleGRM : SpMat K :=
  { rows := 3, cols := 3
    entries := [(0, 0, 1), (1, 0, 1 / 2), (0, 1, 1 / 2), (1, 1, 1), (2, 2, 1)] }

/-- A phenotype vector for three samples. -/
def samplePheno : List K := [1, 2, -3]

end Samples

/-! ## Haseman-Elston regression, Mode B, and the variance stage of the constructor -/

namespace Dbl

variable {K : Type} [LinearOrderedField K]

/-- IEEE subtraction (`-` on doubles). -/
def sub : Dbl K → Dbl K → Dbl K
  | nan, _ => nan
  | _, nan => nan
  | fin a, fin b => fin (a - b)
  | fin _, pinf => ninf
  | fin _, ninf => pinf
  | pinf, fin _ => pinf
  | ninf, fin _ => ninf
  | pinf, pinf => nan
  | pinf, ninf => pinf
  | ninf, pinf => ninf
  | ninf, ninf => nan

/-- Comparison `a <= b` on doubles: false as soon as one side is `NaN`. -/
def le : Dbl K → Dbl K → Bool
  | fin a, fin b => decide (a ≤ b)
  | fin _, pinf => true
  | ninf, fin _ => true
  | ninf, pinf => true
  | pinf, pinf => true
  | ninf, ninf => true
  | _, _ => false

end Dbl

/-- How a run ends without a result: `LOGGER.e` (the message is printed and the run ends), or
an access past the end of a vector or outside a matrix, whose behaviour C++ leaves
undefined. -/
inductive Failure where
  | error (msg : String)
  | outOfBounds (what : String)
deriving DecidableEq

section Variance

variable {K : Type} [LinearOrderedField K]

/-- Body of the Mode-B collection loop of the constructor for one stored entry `it` of `fam`:
`Aij` and `Zij` get one more element when `it.row() < it.col()`. -/
def collect_pair (phenoVec : List K) (acc : List K × List K) (it : Nat × Nat × K) :
    List K × List K :=
  if it.1 < it.2.1 then
    (acc.1 ++ [it.2.2], acc.2 ++ [phenoVec.getD it.1 0 * phenoVec.getD it.2.1 0])
  else acc

/-- The Mode-B collection loop of the constructor over all stored entries of `fam`, column by
column: the vectors `(Aij, Zij)`. -/
def collect_pairs (fam : SpMat K) (phenoVec : List K) : List K × List K :=
  fam.entries.foldl (collect_pair phenoVec) ([], [])

/-- Function `FastFAM::HEreg(Zij, Aij, isSig)`: the returned `hsq` and the value left in
`isSig`, or the `LOGGER.e` of a regression that cannot be solved. -/
def HEreg_pairs (sqrtK : K → K) (pchisqd1 : Dbl K → Dbl K) (Zij Aij : List K) :
    Except Failure (Dbl K × Bool) :=
  let Zmean := Zij.sum / (Zij.length : K)
  let Amean := Aij.sum / (Aij.length : K)
  let ZVec := Zij.map (fun v => v - Zmean)
  let AVec := Aij.map (fun v => v - Amean)
  let A2v := dot AVec AVec
  if A2v < 1 / 1000000 then
    Except.error (Failure.error "cannot solve the regression")
  else
    let AZ := dot AVec ZVec
    let hsq := (1 / A2v) * AZ
    let RZVec := List.zipWith (fun z a => z - a * hsq) ZVec AVec
    let delta := Dbl.div (Dbl.fin (RZVec.map (fun v => v * v)).sum)
      (Dbl.fin ((((RZVec.length : Int) - 2 : Int)) : K))
    let se := Dbl.sqrt sqrtK (Dbl.div delta (Dbl.fin A2v))
    let z := Dbl.div (Dbl.fin hsq) se
    let p := pchisqd1 (Dbl.mul z z)
    if Dbl.gt p (Dbl.fin (5 / 100)) then Except.ok (Dbl.fin hsq, false)
    else Except.ok (Dbl.fin hsq, true)

/-- The keys of the process-wide `options` map that the constructor and `processMain` test. -/
structure Options (K : Type) where
  grmsparse_file : Bool
  ge : Option (K × K)
  inv_file : Bool
  save_inv : Bool
  rel_only : Bool

/-- Record `InvItem` of the `.grm.inv` file. -/
structure InvItem (K : Type) where
  row : Nat
  col : Nat
  val : K
deriving DecidableEq

/-- What the run finds on disk and whether its own files can be written: the lines of
`<inv_file>.grm.id` and the records of `<inv_file>.grm.inv` (`none` when the file cannot be
opened), whether the stream `<out>.grm.id` opens, whether `fwrite` to `<out>.grm.inv`
succeeds. -/
structure Files (K : Type) where
  grm_id_in : Option (List String)
  grm_inv_in : Option (List (InvItem K))
  grm_id_out_opened : Bool
  grm_inv_out_written : Bool

/-- The members the constructor leaves and the files it has written. -/
structure Constructed (K : Type) where
  fam_flag : Bool
  fam : SpMat K
  V_inverse : SpMat K
  grm_id_out : Option (List String)
  grm_inv_out : Option (List (InvItem K))

/-- A default-constructed or `resize(0, 0)` sparse matrix. -/
def SpMat.empty : SpMat K := { rows := 0, cols := 0, entries := [] }

/-- The HE call of the constructor when `flag_est_GE` holds: `VG` and the new `fam_flag`. -/
def estimate_VG (sqrtK : K → K) (pchisqd1 : Dbl K → Dbl K) (opts : Options K) (fam : SpMat K)
    (phenoVec : List K) : Except Failure (Dbl K × Bool) :=
  if opts.rel_only then
    HEreg_pairs sqrtK pchisqd1 (collect_pairs fam phenoVec).2 (collect_pairs fam phenoVec).1
  else
    Except.ok (HEreg pchisqd1 fam phenoVec)

/-- The block `if(!fam_flag){ ... return; }` of the constructor: both matrices are emptied and,
under `save_inv`, the id file holding the single line `--fastGWA` is written. -/
def fallback_to_gwa (opts : Options K) (files : Files K) : Except Failure (Constructed K) :=
  if opts.save_inv then
    if !files.grm_id_out_opened then
      Except.error (Failure.error "failed to write .grm.id")
    else
      Except.ok { fam_flag := false, fam := SpMat.empty, V_inverse := SpMat.empty,
                  grm_id_out := some ["--fastGWA"], grm_inv_out := none }
  else
    Except.ok { fam_flag := false, fam := SpMat.empty, V_inverse := SpMat.empty,
                grm_id_out := none, grm_inv_out := none }

/-- The block under `if(options.find("save_inv") != options.end())` after `inverseFAM`: the id
lines and one record per stored entry of `V_inverse`, in storage order. -/
def save_inverse (opts : Options K) (files : Files K) (fam V_inverse : SpMat K)
    (remain_ids_fam : List String) : Except Failure (Constructed K) :=
  if opts.save_inv then
    if !files.grm_id_out_opened then
      Except.error (Failure.error "failed to write .grm.id")
    else if !files.grm_inv_out_written && !V_inverse.entries.isEmpty then
      Except.error (Failure.error "cannot write to .grm.inv")
    else
      Except.ok { fam_flag := true, fam := fam, V_inverse := V_inverse,
                  grm_id_out := some remain_ids_fam,
                  grm_inv_out := some (V_inverse.entries.map
                    (fun it => { row := it.1, col := it.2.1, val := it.2.2 })) }
  else
    Except.ok { fam_flag := true, fam := fam, V_inverse := V_inverse,
                grm_id_out := none, grm_inv_out := none }

/-- The loop `while(getline(h_id, line))` of the load branch, from the line list still to be
read and the current `cur_index`: the final `cur_index`.  The read `remain_ids_fam[cur_index]`
is not guarded. -/
def check_ids (remain_ids_fam : List String) : List String → Nat → Except Failure Nat
  | [], cur_index => Except.ok cur_index
  | line :: rest, cur_index =>
    if h : cur_index < remain_ids_fam.length then
      if line ≠ remain_ids_fam[cur_index] then
        Except.error (Failure.error "samples are not same")
      else check_ids remain_ids_fam rest (cur_index + 1)
    else
      Except.error (Failure.outOfBounds "remain_ids_fam[cur_index]")

/-- Position of a new element in the storage of a column-major sparse matrix
(`insertUncompressed`): after the stored entries of smaller columns and of the same column
with a row that is not larger. -/
def insertSorted (e : Nat × Nat × K) : List (Nat × Nat × K) → List (Nat × Nat × K)
  | [] => [e]
  | b :: l =>
    if e.2.1 < b.2.1 ∨ (e.2.1 = b.2.1 ∧ e.1 < b.1) then e :: b :: l
    else b :: insertSorted e l

/-- The statement `V_inverse.insert(item.row, item.col) = item.val` of the load loop. -/
def insert_item (V : SpMat K) (item : InvItem K) : Except Failure (SpMat K) :=
  if item.row < V.rows ∧ item.col < V.cols then
    Except.ok { V with entries := insertSorted (item.row, item.col, item.val) V.entries }
  else
    Except.error (Failure.outOfBounds "V_inverse.insert(item.row, item.col)")

/-- The load branch from `V_inverse.resize(phenoVec.size(), phenoVec.size())` on: the records
of `.grm.inv` are inserted one by one into the empty matrix. -/
def load_records (files : Files K) (fam : SpMat K) (phenoVec : List K) :
    Except Failure (Constructed K) :=
  match files.grm_inv_in with
  | none => Except.error (Failure.error "cannot open the file.")
  | some items =>
    match items.foldlM insert_item
        { rows := phenoVec.length, cols := phenoVec.length, entries := [] } with
    | Except.error f => Except.error f
    | Except.ok V_inverse =>
      Except.ok { fam_flag := true, fam := fam, V_inverse := V_inverse,
                  grm_id_out := none, grm_inv_out := none }

/-- The `else` branch of `if(options.find("inv_file") == options.end())`: the id check and
the load of the records.  A line of the id file is one element of `grm_id_in`; the first
`getline` leaves the empty string when the file has no line. -/
def load_inverse (files : Files K) (fam : SpMat K) (phenoVec : List K)
    (remain_ids_fam : List String) : Except Failure (Constructed K) :=
  match files.grm_id_in with
  | none => Except.error (Failure.error "cannot read file .grm.id")
  | some lines =>
    let line := lines.headD ""
    if line = "--fastGWA" then
      Except.ok { fam_flag := false, fam := SpMat.empty, V_inverse := SpMat.empty,
                  grm_id_out := none, grm_inv_out := none }
    else
      match check_ids remain_ids_fam lines 0 with
      | Except.error f => Except.error f
      | Except.ok cur_index =>
        if cur_index = remain_ids_fam.length then
          load_records files fam phenoVec
        else
          Except.error (Failure.error "Empty file or lines not consistent in inverse V")

/-- Constructor `FastFAM::FastFAM` from `if(fam_flag){` to its end.  `inverseFAM fam VG VR` is
the pair of values `FastFAM::inverseFAM` leaves in `fam` (overwritten by `V`) and in
`V_inverse`, or its `LOGGER.e`. -/
def constructor_variance (sqrtK : K → K) (pchisqd1 : Dbl K → Dbl K)
    (inverseFAM : SpMat K → Dbl K → Dbl K → Except Failure (SpMat K × SpMat K))
    (opts : Options K) (files : Files K) (fam : SpMat K) (phenoVec : List K)
    (remain_ids_fam : List String) : Except Failure (Constructed K) :=
  if opts.grmsparse_file then
    let Vpheno := Dbl.div (Dbl.fin (phenoVec.map (fun v => v * v)).sum)
      (Dbl.fin ((((phenoVec.length : Int) - 1 : Int)) : K))
    if !opts.inv_file then
      match opts.ge with
      | some (G, E) =>
        match inverseFAM fam (Dbl.fin G) (Dbl.fin E) with
        | Except.error f => Except.error f
        | Except.ok (V, V_inverse) => save_inverse opts files V V_inverse remain_ids_fam
      | none =>
        match estimate_VG sqrtK pchisqd1 opts fam phenoVec with
        | Except.error f => Except.error f
        | Except.ok (VG, fam_flag) =>
          if !fam_flag then fallback_to_gwa opts files
          else
            match inverseFAM fam VG (Dbl.sub Vpheno VG) with
            | Except.error f => Except.error f
            | Except.ok (V, V_inverse) => save_inverse opts files V V_inverse remain_ids_fam
    else
      load_inverse files fam phenoVec remain_ids_fam
  else
    Except.ok { fam_flag := false, fam := SpMat.empty, V_inverse := SpMat.empty,
                grm_id_out := none, grm_inv_out := none }

/-- The two marker engines `processMain` can register. -/
inductive Engine where
  | calculate_fam
  | calculate_gwa
deriving DecidableEq

/-- Function `FastFAM::processMain` after the constructor: nothing is registered under
`save_inv`, otherwise `calculate_fam` when the sparse GRM is given and `fam_flag` holds,
`calculate_gwa` if not. -/
def processMain_dispatch (opts : Options K) (fam_flag : Bool) : Option Engine :=
  if opts.save_inv then none
  else if opts.grmsparse_file && fam_flag then some Engine.calculate_fam
  else some Engine.calculate_gwa

end Variance

section RelatedSamples

variable (K : Type) [LinearOrderedField K]

/-- A symmetric `3 x 3` GRM in which all three pairs are related, stored column by column. -/
def relatedGRM : SpMat K :=
  { rows := 3, cols := 3
    entries := [(0, 0, 1), (1, 0, 1 / 2), (2, 0, 1 / 4), (0, 1, 1 / 2), (1, 1, 1), (2, 1, 1 / 8),
      (0, 2, 1 / 4), (1, 2, 1 / 8), (2, 2, 1)] }

/-- Options of a run with a sparse GRM and `--rel-only`. -/
def relOnlyOptions : Options K :=
  { grmsparse_file := true, ge := none, inv_file := false, save_inv := false, rel_only := true }

end RelatedSamples

section VarianceSamples

variable {K : Type} [LinearOrderedField K]

/-- The local `p` of `FastFAM::HEreg(Zij, Aij, isSig)` on the path that reaches it. -/
def HEreg_pairs_p (sqrtK : K → K) (pchisqd1 : Dbl K → Dbl K) (Zij Aij : List K) : Dbl K :=
  let Zmean := Zij.sum / (Zij.length : K)
  let Amean := Aij.sum / (Aij.length : K)
  let ZVec := Zij.map (fun v => v - Zmean)
  let AVec := Aij.map (fun v => v - Amean)
  let A2v := dot AVec AVec
  let AZ := dot AVec ZVec
  let hsq := (1 / A2v) * AZ
  let RZVec := List.zipWith (fun z a => z - a * hsq) ZVec AVec
  let delta := Dbl.div (Dbl.fin (RZVec.map (fun v => v * v)).sum)
    (Dbl.fin ((((RZVec.length : Int) - 2 : Int)) : K))
  let se := Dbl.sqrt sqrtK (Dbl.div delta (Dbl.fin A2v))
  let z := Dbl.div (Dbl.fin hsq) se
  pchisqd1 (Dbl.mul z z)

/-- The local `Vpheno` of the constructor: `phenoVec.array().square().sum() / (n - 1)`. -/
def Vpheno (phenoVec : List K) : Dbl K :=
  Dbl.div (Dbl.fin (phenoVec.map (fun v => v * v)).sum)
    (Dbl.fin ((((phenoVec.length : Int) - 1 : Int)) : K))

variable (K)

/-- Options of a run with a sparse GRM and `--save-inv`. -/
def saveInvOptions : Options K :=
  { grmsparse_file := true, ge := none, inv_file := false, save_inv := true, rel_only := false }

/-- Options of a run with a sparse GRM only. -/
def grmOptions : Options K :=
  { grmsparse_file := true, ge := none, inv_file := false, save_inv := false, rel_only := false }

/-- A disk on which both output files can be written and no inverse is stored. -/
def writableFiles : Files K :=
  { grm_id_in := none, grm_inv_in := none, grm_id_out_opened := true,
    grm_inv_out_written := true }

end VarianceSamples

section PersistenceSamples

variable {K : Type} [LinearOrderedField K]

/-- Invariant of a compressed column-major Eigen sparse matrix: the stored entries are ordered
by column and, inside a column, by row. -/
def SpMat.StorageSorted (A : SpMat K) : Prop :=
  A.entries.Pairwise (fun a b => ¬ (b.2.1 < a.2.1 ∨ (b.2.1 = a.2.1 ∧ b.1 < a.1)))

/-- Every stored entry lies inside the `rows x cols` shape. -/
def SpMat.InRange (A : SpMat K) : Prop :=
  ∀ e ∈ A.entries, e.1 < A.rows ∧ e.2.1 < A.cols

/-- The files a later run finds when it loads what an earlier run has written. -/
def writtenFiles (R : Constructed K) : Files K :=
  { grm_id_in := R.grm_id_out, grm_inv_in := R.grm_inv_out, grm_id_out_opened := false,
    grm_inv_out_written := false }

variable (K)

/-- A disk whose id file has the two lines `a`, `b` and whose inverse file has no record. -/
def longerIdFile : Files K :=
  { grm_id_in := some ["a", "b"], grm_inv_in := some [], grm_id_out_opened := false,
    grm_inv_out_written := false }

/-- A `1 x 1` inverse with the single entry `2`. -/
def sampleInverse : SpMat K := { rows := 1, cols := 1, entries := [(0, 0, 2)] }

end PersistenceSamples

/-! ## Batches of markers -/

section Batches

variable {K : Type} [LinearOrderedField K]

/-- One call of a marker engine by the genotype reader: the engine registered by
`processMain`, the buffer, the number of markers, and the order in which the iterations of
the `#pragma omp parallel for schedule(dynamic)` loop are carried out.  An iteration reads
only members the loop does not write and stores at its own `cur_raw_marker`, so a run of the
loop is taken as its iterations one after the other in some order. -/
structure Batch (K : Type) where
  engine : Engine
  buf : Nat → List K
  num_marker : Nat
  order : List Nat

/-- Function `FastFAM::calculate_fam(buf, num_marker)` with the iterations of its loop carried
out in the order `order`. -/
def calculate_fam_scheduled (sqrtK : K → K) (pchisqd1 : Dbl K → Dbl K) (st : State K)
    (buf : Nat → List K) (num_marker : Nat) (order : List Nat) : State K :=
  let st1 := order.foldl (calculate_fam_marker sqrtK pchisqd1 buf) st
  { st1 with num_finished_marker := st1.num_finished_marker + num_marker }

/-- Function `FastFAM::calculate_gwa(buf, num_marker)` with the iterations of its loop carried
out in the order `order`. -/
def calculate_gwa_scheduled (sqrtK : K → K) (pchisqd1 : Dbl K → Dbl K) (st : State K)
    (buf : Nat → List K) (num_marker : Nat) (order : List Nat) : State K :=
  let st1 := order.foldl (calculate_gwa_marker sqrtK pchisqd1 buf) st
  { st1 with num_finished_marker := st1.num_finished_marker + num_marker }

/-- One batch handed to the registered engine. -/
def run_batch (sqrtK : K → K) (pchisqd1 : Dbl K → Dbl K) (st : State K) (b : Batch K) :
    State K :=
  match b.engine with
  | Engine.calculate_fam =>
    calculate_fam_scheduled sqrtK pchisqd1 st b.buf b.num_marker b.order
  | Engine.calculate_gwa =>
    calculate_gwa_scheduled sqrtK pchisqd1 st b.buf b.num_marker b.order

/-- The batches of a run, one after the other. -/
def run_batches (sqrtK : K → K) (pchisqd1 : Dbl K → Dbl K) (st : State K)
    (bs : List (Batch K)) : State K :=
  bs.foldl (run_batch sqrtK pchisqd1) st

/-- The values of `cur_raw_marker` of the iterations of one batch, in the order of the
iterations: the indices at which `beta`, `se` and `p` are stored. -/
def batch_writes (st : State K) (b : Batch K) : List Nat :=
  b.order.map (fun cur_marker => (st.num_finished_marker + cur_marker) % 2 ^ 32)

/-- The indices stored at by all batches of a run, in the order of the stores. -/
def all_writes (sqrtK : K → K) (pchisqd1 : Dbl K → Dbl K) :
    State K → List (Batch K) → List Nat
  | _, [] => []
  | st, b :: bs => batch_writes st b ++ all_writes sqrtK pchisqd1 (run_batch sqrtK pchisqd1 st b) bs

/-- The three values an iteration of the batch stores for its marker `cur_marker`. -/
def batch_stats (sqrtK : K → K) (pchisqd1 : Dbl K → Dbl K) (st : State K) (b : Batch K)
    (cur_marker : Nat) : Dbl K × Dbl K × Dbl K :=
  match b.engine with
  | Engine.calculate_fam =>
    markerStats sqrtK pchisqd1 (vecMulSp (b.buf cur_marker) st.V_inverse) (b.buf cur_marker)
      st.phenoVec
  | Engine.calculate_gwa =>
    markerStats sqrtK pchisqd1 (b.buf cur_marker) (b.buf cur_marker) st.phenoVec

/-- The same batch with the iterations in the order of the loop counter. -/
def Batch.sequential (b : Batch K) : Batch K :=
  { b with order := List.range b.num_marker }

/-- A run of two batches, three markers under `calculate_fam` in the order `2, 0, 1` and two
markers under `calculate_gwa` in the order `1, 0`. -/
def sampleBatches : List (Batch K) :=
  [{ engine := Engine.calculate_fam, buf := fun j => [(j : K), 1], num_marker := 3,
     order := [2, 0, 1] },
   { engine := Engine.calculate_gwa, buf := fun j => [1, (j : K)], num_marker := 2,
     order := [1, 0] }]

/-- A state of two samples with room for five markers and nothing finished. -/
def sampleBatchState : State K :=
  { num_indi := 2, phenoVec := [1, -1], V_inverse := SpMat.identity 2, fam_flag := true,
    num_marker := 5, num_finished_marker := 0,
    beta := List.replicate 5 Dbl.nan, se := List.replicate 5 Dbl.nan,
    p := List.replicate 5 Dbl.nan }

end Batches

section BatchTotals

variable {K : Type}

/-- The number of markers in a list of batches. -/
def total_markers (bs : List (Batch K)) : Nat :=
  (bs.map (fun b => b.num_marker)).sum

end BatchTotals

/-! ## Sparse GRM reader and the sample order -/

section Reader

variable {K : Type} [LinearOrderedField K]

/-- The two vectors `ordered_fam_index`, `ordered_remain_index` of `FastFAM::readFAM`:
`fam_index` and `remain_index` read at the positions `index_list_order =
sort_indexes(remain_index)`.  The function `sort_indexes` is not in this file and is a
parameter; it returns as many positions as its argument has elements. -/
def readFAM_order (sort_indexes : List Nat → List Nat) (fam_index remain_index : List Nat) :
    List Nat × List Nat :=
  let index_list_order := sort_indexes remain_index
  (index_list_order.map (fun pos => fam_index.getD pos 0),
   index_list_order.map (fun pos => remain_index.getD pos 0))

/-- The `map<uint32_t, uint32_t> map_index` after the loop
`map_index[ordered_fam_index[index]] = index`: `none` is `find(...) == end()`. -/
def map_index (ordered_fam_index : List Nat) : Nat → Option Nat :=
  (List.range ordered_fam_index.length).foldl
    (fun m index => fun key => if key = ordered_fam_index.getD index 0 then some index else m key)
    (fun _ => none)

/-- Body of the loop `while(std::getline(pair_list, line))` for one line `i j value`: what is
appended to the parallel vectors `id1`, `id2`, `grm`, kept here as one list of
`(id1, id2, grm)`. -/
def readFAM_step (map_index : Nat → Option Nat) (acc : List (Nat × Nat × K))
    (line : Nat × Nat × K) : List (Nat × Nat × K) :=
  match map_index line.1, map_index line.2.1 with
  | some tmp_id1, some tmp_id2 =>
    if tmp_id1 ≠ tmp_id2 then
      acc ++ [(tmp_id1, tmp_id2, line.2.2), (tmp_id2, tmp_id1, line.2.2)]
    else
      acc ++ [(tmp_id1, tmp_id2, line.2.2)]
  | _, _ => acc

/-- The vectors `id1`, `id2`, `grm` after all lines of `.grm.sp`. -/
def readFAM_pushes (map_index : Nat → Option Nat) (lines : List (Nat × Nat × K)) :
    List (Nat × Nat × K) :=
  lines.foldl (readFAM_step map_index) []

/-- The storage of an `n`-column matrix after `insertBackUncompressed(row, col) = value` for
each element of `inserted` in turn: column by column, each column in the order of the
insertions. -/
def insertBackUncompressed (n : Nat) (inserted : List (Nat × Nat × K)) :
    List (Nat × Nat × K) :=
  (List.range n).flatMap (fun c => inserted.filter (fun e => e.2.1 = c))

/-- Function `FastFAM::readFAM` from the opening of `.grm.sp` on: the matrix `fam` built from
the lines of a readable `.grm.sp`.  The two-key `sort_indexes(id2, id1)` is a parameter. -/
def readFAM_fam (sort_indexes2 : List Nat → List Nat → List Nat) (ordered_fam_index : List Nat)
    (lines : List (Nat × Nat × K)) : SpMat K :=
  let pushes := readFAM_pushes (map_index ordered_fam_index) lines
  let sorted_index := sort_indexes2 (pushes.map (fun e => e.2.1)) (pushes.map (fun e => e.1))
  { rows := ordered_fam_index.length, cols := ordered_fam_index.length
    entries := insertBackUncompressed ordered_fam_index.length
      (sorted_index.map (fun index => pushes.getD index (0, 0, 0))) }

/-- Function `FastFAM::readFAM(filename, fam, ids, remain_index)`: the matrix left in `fam`
and the vector left in `remain_index`.  `sublist` is the result of `Pheno::read_sublist` on
`.grm.id`, `lines` the parsed lines of `.grm.sp`; `vector_commonIndex` (its two output
vectors `fam_index`, `remain_index`) and both `sort_indexes` are parameters. -/
def readFAM (sort_indexes : List Nat → List Nat)
    (sort_indexes2 : List Nat → List Nat → List Nat)
    (vector_commonIndex : List String → List String → List Nat × List Nat)
    (sublist : List String) (lines : List (Nat × Nat × K)) (ids : List String) :
    SpMat K × List Nat :=
  let common := vector_commonIndex sublist ids
  let ordered := readFAM_order sort_indexes common.1 common.2
  (readFAM_fam sort_indexes2 ordered.1 lines, ordered.2)

/-- The vector `remain_ids` of the constructor: `ids` read at the positions `remain_index`. -/
def remain_ids (remain_index : List Nat) (ids : List String) : List String :=
  remain_index.map (fun pos => ids.getD pos "")

/-- The loop `//reorder phenotype, covar` of the constructor: `remain_phenos`,
`remain_ids_fam` and `total_remain_index`. -/
def reorder_phenotype (remain_index remain_index_fam : List Nat) (ids : List String)
    (phenos : List K) : List K × List String × List Nat :=
  let total_remain_index := remain_index_fam.map (fun i => remain_index.getD i 0)
  (total_remain_index.map (fun temp_index => phenos.getD temp_index 0),
   total_remain_index.map (fun temp_index => ids.getD temp_index ""),
   total_remain_index)

/-- Constructor `FastFAM::FastFAM` from `vector<string> remain_ids` to the end of the reorder
loop, when the key `grmsparse_file` is present: `fam`, `remain_phenos`, `remain_ids_fam`,
`total_remain_index`.  `remain_index` is what the covariate stage has left. -/
def constructor_align (sort_indexes : List Nat → List Nat)
    (sort_indexes2 : List Nat → List Nat → List Nat)
    (vector_commonIndex : List String → List String → List Nat × List Nat)
    (sublist : List String) (lines : List (Nat × Nat × K)) (remain_index : List Nat)
    (ids : List String) (phenos : List K) : SpMat K × List K × List String × List Nat :=
  let r := readFAM sort_indexes sort_indexes2 vector_commonIndex sublist lines
    (remain_ids remain_index ids)
  (r.1, reorder_phenotype remain_index r.2 ids phenos)

/-- A `.grm.sp` file of four lines over the GRM rows `0..3`; row `1` is not a common
sample. -/
def sampleLines : List (Nat × Nat × K) :=
  [(0, 0, 1), (2, 0, 1 / 2), (1, 0, 1 / 4), (3, 3, 1)]

/-- The GRM rows of the common samples in canonical order: row `2`, row `0`, row `3`. -/
def sampleOrderedFamIndex : List Nat := [2, 0, 3]

/-- A two-key `sort_indexes` by insertion sort on the positions. -/
def sampleSortIndexes2 (id2 id1 : List Nat) : List Nat :=
  (List.range id2.length).insertionSort
    (fun a b => id2.getD a 0 < id2.getD b 0 ∨
      (id2.getD a 0 = id2.getD b 0 ∧ id1.getD a 0 ≤ id1.getD b 0))

/-- A one-key `sort_indexes` by insertion sort on the positions. -/
def sampleSortIndexes (v : List Nat) : List Nat :=
  (List.range v.length).insertionSort (fun a b => v.getD a 0 ≤ v.getD b 0)

/-- A `vector_commonIndex` for the sample run: the GRM ids `g0 g1 g2 g3` are matched with the
ids `g2 g0 x g3` at the pairs `(0, 1)`, `(2, 0)`, `(3, 3)`. -/
def sampleCommonIndex (_sublist _ids : List String) : List Nat × List Nat :=
  ([0, 2, 3], [1, 0, 3])

end Reader

section ReaderSamples

variable (K : Type) [LinearOrderedField K]

/-- The phenotype ids of the sample run: the covariate stage keeps the positions `1..4`, so the
ids handed to `readFAM` are `g2 g0 x g3`. -/
def sampleIds : List String := ["x0", "g2", "g0", "x", "g3"]

/-- The positions the covariate stage keeps in the sample run. -/
def sampleRemainIndexCov : List Nat := [1, 2, 3, 4]

/-- The phenotypes of the sample run. -/
def samplePhenos : List K := [10, 20, 30, 40, 50]

end ReaderSamples

section GlsSample

variable (K : Type) [LinearOrderedField K]

/-- Two samples, one marker slot, `V_inverse` the matrix with rows `(2, -1)` and `(-1, 2)`,
stored column by column. -/
def glsSampleState : State K :=
  { num_indi := 2, phenoVec := [3, 4],
    V_inverse := { rows := 2, cols := 2
                   entries := [(0, 0, 2), (1, 0, -1), (0, 1, -1), (1, 1, 2)] },
    fam_flag := true, num_marker := 1, num_finished_marker := 0,
    beta := [Dbl.nan], se := [Dbl.nan], p := [Dbl.nan] }

end GlsSample

/-! # Theorems -/

/-! ## Stores of the marker loops -/

section EngineLemmas

variable {K : Type} [LinearOrderedField K]

theorem getElem?_foldl_set_range {α : Type} (f : Nat → α) (base : Nat) (m : Nat) (l : List α)
    (i : Nat) :
    ((List.range m).foldl (fun a j => a.set (base + j) (f j)) l)[i]? =
      if base ≤ i ∧ i < base + m ∧ i < l.length then some (f (i - base)) else l[i]? := by
  induction m with
  | zero =>
    have : ¬ (base ≤ i ∧ i < base + 0 ∧ i < l.length) := by omega
    rw [if_neg this]
    simp
  | succ m ih =>
    have hlen : ∀ k, ((List.range k).foldl (fun a j => a.set (base + j) (f j)) l).length
        = l.length := by
      intro k
      induction k with
      | zero => simp
      | succ k ihk => simp [List.range_succ, List.foldl_append, ihk]
    rw [List.range_succ, List.foldl_append]
    simp only [List.foldl_cons, List.foldl_nil]
    rw [List.getElem?_set, hlen, ih]
    by_cases h1 : base + m = i
    · subst h1
      by_cases h2 : base + m < l.length
      · simp [h2]
      · have : ¬ (base ≤ base + m ∧ base + m < base + (m + 1) ∧ base + m < l.length) := by omega
        have h3 : ¬ (base ≤ base + m ∧ base + m < base + m ∧ base + m < l.length) := by omega
        simp only [h2, this, h3, if_true, if_false]
        simp
        omega
    · simp only [h1, if_false]
      by_cases h2 : base ≤ i ∧ i < base + m ∧ i < l.length
      · have : base ≤ i ∧ i < base + (m + 1) ∧ i < l.length := by omega
        simp [h2, this]
      · have : ¬ (base ≤ i ∧ i < base + (m + 1) ∧ i < l.length) := by omega
        simp [h2, this]

theorem foldl_set_mod_range {α : Type} (f : Nat → α) (base m : Nat) (h32 : base + m ≤ 2 ^ 32)
    (l : List α) :
    (List.range m).foldl (fun a j => a.set ((base + j) % 2 ^ 32) (f j)) l =
      (List.range m).foldl (fun a j => a.set (base + j) (f j)) l := by
  induction m with
  | zero => rfl
  | succ m ih =>
    rw [List.range_succ, List.foldl_append, List.foldl_append, ih (by omega)]
    simp only [List.foldl_cons, List.foldl_nil]
    rw [Nat.mod_eq_of_lt (by omega)]

omit [LinearOrderedField K] in
/-- A loop of stores leaves every member but the three result arrays unchanged, and each array
is the fold of its own stores. -/
theorem foldl_storeStats (g : State K → Nat → Dbl K × Dbl K × Dbl K)
    (hg : ∀ s j x k, g (storeStats s j x) k = g s k) (l : List Nat) (st : State K) :
    l.foldl (fun s j => storeStats s j (g s j)) st =
      { st with
        beta := l.foldl (fun a j => a.set ((st.num_finished_marker + j) % 2 ^ 32) (g st j).1)
          st.beta
        se := l.foldl (fun a j => a.set ((st.num_finished_marker + j) % 2 ^ 32) (g st j).2.1)
          st.se
        p := l.foldl (fun a j => a.set ((st.num_finished_marker + j) % 2 ^ 32) (g st j).2.2)
          st.p } := by
  induction l generalizing st with
  | nil => rfl
  | cons a l ih =>
    simp only [List.foldl_cons]
    rw [ih]
    simp only [hg]
    rfl

omit [LinearOrderedField K] in
/-- What a loop of stores over a batch of `m` markers leaves in each result array. -/
theorem getElem?_storeLoop (g : State K → Nat → Dbl K × Dbl K × Dbl K)
    (hg : ∀ s j x k, g (storeStats s j x) k = g s k) (st : State K) (m : Nat)
    (h32 : st.num_finished_marker + m ≤ 2 ^ 32) (i : Nat) :
    let st1 := (List.range m).foldl (fun s j => storeStats s j (g s j)) st
    (st1.beta[i]? = if st.num_finished_marker ≤ i ∧ i < st.num_finished_marker + m ∧
          i < st.beta.length then some (g st (i - st.num_finished_marker)).1 else st.beta[i]?) ∧
    (st1.se[i]? = if st.num_finished_marker ≤ i ∧ i < st.num_finished_marker + m ∧
          i < st.se.length then some (g st (i - st.num_finished_marker)).2.1 else st.se[i]?) ∧
    (st1.p[i]? = if st.num_finished_marker ≤ i ∧ i < st.num_finished_marker + m ∧
          i < st.p.length then some (g st (i - st.num_finished_marker)).2.2 else st.p[i]?) := by
  intro st1
  have h := foldl_storeStats g hg (List.range m) st
  simp only [st1, h]
  rw [foldl_set_mod_range _ _ _ h32, foldl_set_mod_range _ _ _ h32,
    foldl_set_mod_range _ _ _ h32]
  exact ⟨getElem?_foldl_set_range _ _ _ _ _, getElem?_foldl_set_range _ _ _ _ _,
    getElem?_foldl_set_range _ _ _ _ _⟩

/-- Entries of the result arrays written by `calculate_fam` for marker `j` of the batch. -/
theorem calculate_fam_getElem? (sqrtK : K → K) (pchisqd1 : Dbl K → Dbl K) (st : State K)
    (buf : Nat → List K) (m : Nat) (h32 : st.num_finished_marker + m ≤ 2 ^ 32) (j : Nat)
    (hj : j < m) :
    let s := markerStats sqrtK pchisqd1 (vecMulSp (buf j) st.V_inverse) (buf j) st.phenoVec
    let st1 := calculate_fam sqrtK pchisqd1 st buf m
    (st.num_finished_marker + j < st.beta.length →
      st1.beta[st.num_finished_marker + j]? = some s.1) ∧
    (st.num_finished_marker + j < st.se.length →
      st1.se[st.num_finished_marker + j]? = some s.2.1) ∧
    (st.num_finished_marker + j < st.p.length →
      st1.p[st.num_finished_marker + j]? = some s.2.2) := by
  intro s st1
  have h := getElem?_storeLoop
    (fun s j => markerStats sqrtK pchisqd1 (vecMulSp (buf j) s.V_inverse) (buf j) s.phenoVec)
    (fun _ _ _ _ => rfl) st m h32 (st.num_finished_marker + j)
  simp only [Nat.add_sub_cancel_left] at h
  refine ⟨fun hb => ?_, fun hb => ?_, fun hb => ?_⟩
  · have := h.1
    rw [if_pos ⟨by omega, by omega, hb⟩] at this
    exact this
  · have := h.2.1
    rw [if_pos ⟨by omega, by omega, hb⟩] at this
    exact this
  · have := h.2.2
    rw [if_pos ⟨by omega, by omega, hb⟩] at this
    exact this

/-- Entries of the result arrays written by `calculate_gwa` for marker `j` of the batch. -/
theorem calculate_gwa_getElem? (sqrtK : K → K) (pchisqd1 : Dbl K → Dbl K) (st : State K)
    (buf : Nat → List K) (m : Nat) (h32 : st.num_finished_marker + m ≤ 2 ^ 32) (j : Nat)
    (hj : j < m) :
    let s := markerStats sqrtK pchisqd1 (buf j) (buf j) st.phenoVec
    let st1 := calculate_gwa sqrtK pchisqd1 st buf m
    (st.num_finished_marker + j < st.beta.length →
      st1.beta[st.num_finished_marker + j]? = some s.1) ∧
    (st.num_finished_marker + j < st.se.length →
      st1.se[st.num_finished_marker + j]? = some s.2.1) ∧
    (st.num_finished_marker + j < st.p.length →
      st1.p[st.num_finished_marker + j]? = some s.2.2) := by
  intro s st1
  have h := getElem?_storeLoop
    (fun s j => markerStats sqrtK pchisqd1 (buf j) (buf j) s.phenoVec)
    (fun _ _ _ _ => rfl) st m h32 (st.num_finished_marker + j)
  simp only [Nat.add_sub_cancel_left] at h
  refine ⟨fun hb => ?_, fun hb => ?_, fun hb => ?_⟩
  · have := h.1
    rw [if_pos ⟨by omega, by omega, hb⟩] at this
    exact this
  · have := h.2.1
    rw [if_pos ⟨by omega, by omega, hb⟩] at this
    exact this
  · have := h.2.2
    rw [if_pos ⟨by omega, by omega, hb⟩] at this
    exact this

end EngineLemmas

/-! ## Result sink at the allele-frequency thresholds -/

section SinkLemmas

variable {K : Type} [LinearOrderedField K]

theorem getElem?_foldl_mask_range {α : Type} (c : Nat → Bool) (v : α) (m : Nat) (l : List α)
    (i : Nat) :
    ((List.range m).foldl (fun a j => if c j then a.set j v else a) l)[i]? =
      if i < m ∧ c i = true ∧ i < l.length then some v else l[i]? := by
  induction m with
  | zero => simp
  | succ m ih =>
    have hlen : ∀ k, ((List.range k).foldl (fun a j => if c j then a.set j v else a) l).length
        = l.length := by
      intro k
      induction k with
      | zero => simp
      | succ k ihk =>
        rw [List.range_succ, List.foldl_append]
        simp only [List.foldl_cons, List.foldl_nil]
        split <;> simp [ihk]
    rw [List.range_succ, List.foldl_append]
    simp only [List.foldl_cons, List.foldl_nil]
    by_cases hc : c m = true
    · rw [if_pos hc, List.getElem?_set, hlen, ih]
      by_cases h1 : m = i
      · subst h1
        by_cases h2 : m < l.length
        · simp [h2, hc]
        · simp [h2]
          omega
      · simp only [h1, if_false]
        by_cases h2 : i < m ∧ c i = true ∧ i < l.length
        · rw [if_pos h2, if_pos ⟨by omega, h2.2.1, h2.2.2⟩]
        · rw [if_neg h2, if_neg (by intro h3; apply h2; exact ⟨by omega, h3.2.1, h3.2.2⟩)]
    · rw [if_neg hc, ih]
      by_cases h2 : i < m ∧ c i = true ∧ i < l.length
      · rw [if_pos h2, if_pos ⟨by omega, h2.2.1, h2.2.2⟩]
      · rw [if_neg h2, if_neg]
        intro h3
        apply h2
        refine ⟨?_, h3.2.1, h3.2.2⟩
        rcases Nat.lt_succ_iff_lt_or_eq.mp h3.1 with h4 | h4
        · exact h4
        · subst h4
          exact absurd h3.2.1 hc

omit [LinearOrderedField K] in
theorem foldl_mask_state (c : Nat → Bool) (l : List Nat) (st : State K) :
    l.foldl (fun s index => if c index then
        { s with beta := s.beta.set index Dbl.nan, se := s.se.set index Dbl.nan,
                 p := s.p.set index Dbl.nan } else s) st =
      { st with
        beta := l.foldl (fun a j => if c j then a.set j Dbl.nan else a) st.beta
        se := l.foldl (fun a j => if c j then a.set j Dbl.nan else a) st.se
        p := l.foldl (fun a j => if c j then a.set j Dbl.nan else a) st.p } := by
  induction l generalizing st with
  | nil => rfl
  | cons a l ih =>
    simp only [List.foldl_cons]
    rw [ih]
    by_cases h : c a = true
    · simp [h]
    · simp [h]

/-- What the binary branch of `output` writes for marker `index`: `NaN` when the allele
frequency is below the lower or above the upper threshold, the stored value otherwise, the
two thresholds themselves included. -/
theorem output_bin_getElem? (AFA1 : Nat → Dbl K) (st : State K) (index : Nat)
    (h : index < st.num_marker) (hb : st.num_marker ≤ st.beta.length)
    (hs : st.num_marker ≤ st.se.length) (hp : st.num_marker ≤ st.p.length) :
    let masked := Dbl.lt (AFA1 index) (Dbl.fin MAF_L_THRESH) ||
      Dbl.gt (AFA1 index) (Dbl.fin MAF_U_THRESH)
    (output_bin AFA1 st).afa1[index]? = some (AFA1 index) ∧
    (output_bin AFA1 st).beta[index]? =
      some (if masked then Dbl.nan else st.beta.getD index Dbl.nan) ∧
    (output_bin AFA1 st).se[index]? =
      some (if masked then Dbl.nan else st.se.getD index Dbl.nan) ∧
    (output_bin AFA1 st).p[index]? =
      some (if masked then Dbl.nan else st.p.getD index Dbl.nan) := by
  intro masked
  have hfold : (List.range st.num_marker).foldl (output_bin_mask AFA1) st =
      (List.range st.num_marker).foldl (fun s index =>
        if (Dbl.lt (AFA1 index) (Dbl.fin MAF_L_THRESH) ||
            Dbl.gt (AFA1 index) (Dbl.fin MAF_U_THRESH)) then
          { s with beta := s.beta.set index Dbl.nan, se := s.se.set index Dbl.nan,
                   p := s.p.set index Dbl.nan } else s) st := rfl
  simp only [output_bin, hfold, foldl_mask_state, List.getElem?_take_of_lt h,
    getElem?_foldl_mask_range]
  refine ⟨by simp [List.getElem?_range h], ?_, ?_, ?_⟩
  · by_cases hm : masked = true
    · rw [if_pos ⟨h, hm, by omega⟩, if_pos hm]
    · rw [if_neg (fun hh => hm hh.2.1), if_neg hm, List.getD_eq_getElem?_getD,
        List.getElem?_eq_getElem (by omega)]
      rfl
  · by_cases hm : masked = true
    · rw [if_pos ⟨h, hm, by omega⟩, if_pos hm]
    · rw [if_neg (fun hh => hm hh.2.1), if_neg hm, List.getD_eq_getElem?_getD,
        List.getElem?_eq_getElem (by omega)]
      rfl
  · by_cases hm : masked = true
    · rw [if_pos ⟨h, hm, by omega⟩, if_pos hm]
    · rw [if_neg (fun hh => hm hh.2.1), if_neg hm, List.getD_eq_getElem?_getD,
        List.getElem?_eq_getElem (by omega)]
      rfl

/-- What the text branches of `output` write for marker `index`: the stored values when the
allele frequency is strictly between the thresholds, `NaN` otherwise. -/
theorem output_text_getElem? (no_marker : Bool) (AFA1 : Nat → Dbl K)
    (get_marker : Nat → String) (st : State K) (index : Nat) (h : index < st.num_marker) :
    let inside := Dbl.gt (AFA1 index) (Dbl.fin MAF_L_THRESH) &&
      Dbl.lt (AFA1 index) (Dbl.fin MAF_U_THRESH)
    (output_text no_marker AFA1 get_marker st).rows.length = st.num_marker ∧
    (output_text no_marker AFA1 get_marker st).rows[index]? =
      some { marker := if no_marker then none else some (get_marker index)
             af := AFA1 index
             beta := if inside then st.beta.getD index Dbl.nan else Dbl.nan
             se := if inside then st.se.getD index Dbl.nan else Dbl.nan
             p := if inside then st.p.getD index Dbl.nan else Dbl.nan } := by
  intro inside
  cases no_marker <;>
    simp [output_text, List.getElem?_range h, inside] <;>
    split_ifs <;> rfl

end SinkLemmas

/-- C1 (failing input): for one marker whose allele frequency equals the lower threshold
`0.00001`, which is not strictly inside `(1e-5, 1 - 1e-5)`, the binary branch of `output`
writes the stored `beta`, `se`, `p` unchanged, while both text branches write `NaN` for the
three of them. -/
theorem output_bin_at_threshold_keeps_stats :
    output_bin afAtLowerThreshold oneMarkerState =
        { afa1 := [Dbl.fin (1 / 100000)], beta := [Dbl.fin (1 / 2)], se := [Dbl.fin (1 / 4)],
          p := [Dbl.fin (1 / 8)] } ∧
      (output_text true afAtLowerThreshold (fun _ => "rs1") oneMarkerState).rows =
        [{ marker := none, af := Dbl.fin (1 / 100000), beta := Dbl.nan, se := Dbl.nan,
           p := Dbl.nan }] ∧
      (output_text false afAtLowerThreshold (fun _ => "rs1") oneMarkerState).rows =
        [{ marker := some "rs1", af := Dbl.fin (1 / 100000), beta := Dbl.nan, se := Dbl.nan,
           p := Dbl.nan }] := by
  refine ⟨?_, ?_, ?_⟩
  · simp [output_bin, output_bin_mask, afAtLowerThreshold, oneMarkerState, Dbl.lt, Dbl.gt,
      MAF_L_THRESH, MAF_U_THRESH, List.range_succ]
    norm_num
  · simp [output_text, afAtLowerThreshold, oneMarkerState, Dbl.lt, Dbl.gt, MAF_L_THRESH,
      MAF_U_THRESH]
  · simp [output_text, afAtLowerThreshold, oneMarkerState, Dbl.lt, Dbl.gt, MAF_L_THRESH,
      MAF_U_THRESH]

/-! ## Marker statistics -/

section MarkerStats

variable {K : Type} [LinearOrderedField K]

theorem getElem_cons_cons_one {α : Type} (a b : α) (l : List α)
    (h : 1 < (a :: b :: l).length) : (a :: b :: l)[1] = b := rfl

theorem dot_cons (a : K) (x : List K) (b : K) (y : List K) :
    dot (a :: x) (b :: y) = a * b + dot x y := by simp [dot]

theorem dot_self_nonneg (x : List K) : 0 ≤ dot x x := by
  induction x with
  | nil => simp [dot]
  | cons a x ih =>
    rw [dot_cons]
    have := mul_self_nonneg a
    linarith

theorem dot_eq_zero_of_dot_self (x : List K) (h : dot x x = 0) (y : List K) : dot x y = 0 := by
  induction x generalizing y with
  | nil => simp [dot]
  | cons a x ih =>
    rw [dot_cons] at h
    have h1 := mul_self_nonneg a
    have h2 := dot_self_nonneg x
    have ha : a * a = 0 := by linarith
    have hx : dot x x = 0 := by linarith
    have ha0 : a = 0 := mul_self_eq_zero.mp ha
    cases y with
    | nil => simp [dot]
    | cons b y =>
      rw [dot_cons, ha0, ih hx]
      simp

theorem filter_identity_col (n c : Nat) :
    ((List.range n).map (fun i => (i, i, (1 : K)))).filter (fun e => e.2.1 = c) =
      if c < n then [(c, c, 1)] else [] := by
  induction n with
  | zero => simp
  | succ n ih =>
    rw [List.range_succ, List.map_append, List.filter_append, ih]
    by_cases h1 : c < n
    · have h2 : c < n + 1 := by omega
      have h3 : ¬ (n = c) := by omega
      simp [h1, h2, h3]
    · by_cases h4 : n = c
      · subst h4
        simp
      · have h5 : ¬ (c < n + 1) := by omega
        simp [h1, h4, h5]

/-- The product of a row vector of length `n` with the sparse `n x n` identity is the vector
itself. -/
theorem vecMulSp_identity (x : List K) (n : Nat) (hx : x.length = n) :
    vecMulSp x (SpMat.identity n) = x := by
  apply List.ext_getElem?
  intro c
  simp only [vecMulSp, SpMat.identity, filter_identity_col]
  by_cases hc : c < n
  · rw [List.getElem?_map, List.getElem?_range hc]
    simp only [Option.map_some', if_pos hc, List.map_cons, List.map_nil, List.sum_cons,
      List.sum_nil, add_zero, mul_one]
    rw [List.getD_eq_getElem?_getD]
    have : c < x.length := by omega
    rw [List.getElem?_eq_getElem this]
    rfl
  · have h1 : x.length ≤ c := by omega
    rw [List.getElem?_eq_none (by simpa using (by omega : n ≤ c)), List.getElem?_eq_none h1]

/-- The stored statistics when `d > 0`, over the reals. -/
theorem markerStats_of_pos (pchisqd1 : Dbl ℝ → Dbl ℝ) (xMat_V xMat phenoVec : List ℝ)
    (hd : 0 < dot xMat_V xMat) :
    markerStats Real.sqrt pchisqd1 xMat_V xMat phenoVec =
      (Dbl.fin (dot xMat_V phenoVec / dot xMat_V xMat),
       Dbl.fin (1 / Real.sqrt (dot xMat_V xMat)),
       pchisqd1 (Dbl.fin ((dot xMat_V phenoVec / dot xMat_V xMat /
          (1 / Real.sqrt (dot xMat_V xMat))) ^ 2))) := by
  have hd0 : dot xMat_V xMat ≠ 0 := ne_of_gt hd
  have hinv : ¬ (1 / dot xMat_V xMat < 0) := not_lt.mpr (by positivity)
  have hs : 0 < Real.sqrt (dot xMat_V xMat) := Real.sqrt_pos.mpr hd
  have hsq : Real.sqrt (1 / dot xMat_V xMat) = 1 / Real.sqrt (dot xMat_V xMat) := by
    rw [one_div, Real.sqrt_inv, one_div]
  have hs0 : ¬ (1 / Real.sqrt (dot xMat_V xMat) = 0) := by positivity
  simp only [markerStats, Dbl.div, Dbl.mul, Dbl.sqrt, if_neg hd0, if_neg hinv, hsq, if_neg hs0]
  refine Prod.ext ?_ (Prod.ext rfl ?_)
  · simp only [Dbl.fin.injEq]
    field_simp
  · simp only
    congr 2
    ring

theorem sq_ratio (a d : ℝ) (hd : 0 < d) : (a / d / (1 / Real.sqrt d)) ^ 2 = a ^ 2 / d := by
  have hs : 0 < Real.sqrt d := Real.sqrt_pos.mpr hd
  have h2 : Real.sqrt d ^ 2 = d := Real.sq_sqrt hd.le
  field_simp
  rw [mul_pow, h2]
  ring

/-- The stored statistics when `d ≤ 0`: no square root of a finite value is taken. -/
theorem markerStats_nonpos (sqrtK : K → K) (pchisqd1 : Dbl K → Dbl K)
    (xMat_V xMat phenoVec : List K) (hd : dot xMat_V xMat ≤ 0) :
    markerStats sqrtK pchisqd1 xMat_V xMat phenoVec =
      (if dot xMat_V xMat < 0 then Dbl.fin (dot xMat_V phenoVec / dot xMat_V xMat)
        else if 0 < dot xMat_V phenoVec then Dbl.pinf
        else if dot xMat_V phenoVec < 0 then Dbl.ninf else Dbl.nan,
       if dot xMat_V xMat < 0 then Dbl.nan else Dbl.pinf,
       pchisqd1 Dbl.nan) := by
  rcases lt_or_eq_of_le hd with hlt | heq
  · have hd0 : dot xMat_V xMat ≠ 0 := ne_of_lt hlt
    have hinv : 1 / dot xMat_V xMat < 0 := one_div_neg.mpr hlt
    simp only [markerStats, Dbl.div, Dbl.mul, Dbl.sqrt, if_neg hd0, if_pos hinv, if_pos hlt]
    refine Prod.ext ?_ rfl
    simp only [Dbl.fin.injEq]
    field_simp
  · have h0 : ¬ (dot xMat_V xMat < 0) := by rw [heq]; exact lt_irrefl 0
    simp only [markerStats, heq, Dbl.div, Dbl.mul, Dbl.sqrt, if_true, zero_lt_one, lt_irrefl,
      if_false]
    by_cases h1 : 0 < dot xMat_V phenoVec
    · simp [h1, Dbl.div, Dbl.mul]
    · by_cases h2 : dot xMat_V phenoVec < 0
      · simp [h1, h2, Dbl.div, Dbl.mul]
      · simp [h1, h2, Dbl.div, Dbl.mul]

omit [LinearOrderedField K] in
theorem foldl_set_congr {α : Type} (idx : Nat → Nat) (f g : Nat → α) (l : List Nat)
    (h : ∀ j, j ∈ l → f j = g j) (init : List α) :
    l.foldl (fun a j => a.set (idx j) (f j)) init =
      l.foldl (fun a j => a.set (idx j) (g j)) init := by
  induction l generalizing init with
  | nil => rfl
  | cons a l ih =>
    simp only [List.foldl_cons]
    rw [h a (List.mem_cons_self _ _)]
    exact ih (fun j hj => h j (List.mem_cons_of_mem _ hj)) _

/-- On genotype vectors of length `num_indi`, `calculate_gwa` leaves the state that
`calculate_fam` leaves when `V_inverse` is the identity. -/
theorem calculate_gwa_eq_fam_identity (sqrtK : K → K) (pchisqd1 : Dbl K → Dbl K) (st : State K)
    (buf : Nat → List K) (m : Nat) (hx : ∀ j, j < m → (buf j).length = st.num_indi) :
    calculate_gwa sqrtK pchisqd1 st buf m =
      { calculate_fam sqrtK pchisqd1 { st with V_inverse := SpMat.identity st.num_indi } buf m
        with V_inverse := st.V_inverse } := by
  have h1 := foldl_storeStats
    (fun s j => markerStats sqrtK pchisqd1 (buf j) (buf j) s.phenoVec)
    (fun _ _ _ _ => rfl) (List.range m) st
  have h2 := foldl_storeStats
    (fun s j => markerStats sqrtK pchisqd1 (vecMulSp (buf j) s.V_inverse) (buf j) s.phenoVec)
    (fun _ _ _ _ => rfl) (List.range m) { st with V_inverse := SpMat.identity st.num_indi }
  have hstat : ∀ j, j ∈ List.range m →
      markerStats sqrtK pchisqd1 (vecMulSp (buf j) (SpMat.identity st.num_indi)) (buf j)
        st.phenoVec = markerStats sqrtK pchisqd1 (buf j) (buf j) st.phenoVec := by
    intro j hj
    rw [vecMulSp_identity _ _ (hx j (List.mem_range.mp hj))]
  unfold calculate_gwa calculate_fam
  have e1 : (List.range m).foldl (calculate_gwa_marker sqrtK pchisqd1 buf) st =
      (List.range m).foldl (fun s j => storeStats s j
        (markerStats sqrtK pchisqd1 (buf j) (buf j) s.phenoVec)) st := rfl
  have e2 : (List.range m).foldl (calculate_fam_marker sqrtK pchisqd1 buf)
        { st with V_inverse := SpMat.identity st.num_indi } =
      (List.range m).foldl (fun s j => storeStats s j
        (markerStats sqrtK pchisqd1 (vecMulSp (buf j) s.V_inverse) (buf j) s.phenoVec))
        { st with V_inverse := SpMat.identity st.num_indi } := rfl
  simp only [e1, e2, h1, h2]
  rw [foldl_set_congr _ _ _ _ (fun j hj => congrArg (fun t => t.1) (hstat j hj)),
    foldl_set_congr _ _ _ _ (fun j hj => congrArg (fun t => t.2.1) (hstat j hj)),
    foldl_set_congr _ _ _ _ (fun j hj => congrArg (fun t => t.2.2) (hstat j hj))]

/-- The statistics of the OLS path over the reals, for every genotype vector: the quotients
`x^T y / x^T x` and `1 / sqrt(x^T x)` taken as doubles. -/
theorem markerStats_ols (pchisqd1 : Dbl ℝ → Dbl ℝ) (x y : List ℝ) :
    (markerStats Real.sqrt pchisqd1 x x y).1 = Dbl.div (Dbl.fin (dot x y)) (Dbl.fin (dot x x)) ∧
    (markerStats Real.sqrt pchisqd1 x x y).2.1 =
      Dbl.div (Dbl.fin 1) (Dbl.sqrt Real.sqrt (Dbl.fin (dot x x))) := by
  rcases lt_or_eq_of_le (dot_self_nonneg x) with hpos | hzero
  · have hs : ¬ (Real.sqrt (dot x x) = 0) := ne_of_gt (Real.sqrt_pos.mpr hpos)
    rw [markerStats_of_pos pchisqd1 x x y hpos]
    simp [Dbl.div, Dbl.sqrt, ne_of_gt hpos, not_lt.mpr hpos.le, hs]
  · have h0 : dot x x = 0 := hzero.symm
    have hy : dot x y = 0 := dot_eq_zero_of_dot_self x h0 y
    rw [markerStats_nonpos Real.sqrt pchisqd1 x x y (le_of_eq h0)]
    simp [Dbl.div, Dbl.sqrt, h0, hy]

end MarkerStats

/-- C3 (counterexample): for the all-zero genotype vector, where `d = 0`, both
`calculate_gwa` and `calculate_fam` store `+inf`, not `NaN`, as `se` (only `beta` is `NaN`),
whatever `sqrt` does on finite values and whatever `pchisqd1` returns. -/
theorem calculate_zero_genotype_se_is_inf :
    dot (zeroBatch ℚ 0) (zeroBatch ℚ 0) = 0 ∧
    dot (vecMulSp (zeroBatch ℚ 0) (twoSampleState ℚ).V_inverse) (zeroBatch ℚ 0) = 0 ∧
    (∀ (sqrtK : ℚ → ℚ) (pchisqd1 : Dbl ℚ → Dbl ℚ),
      (calculate_gwa sqrtK pchisqd1 (twoSampleState ℚ) (zeroBatch ℚ) 1).se = [Dbl.pinf] ∧
      (calculate_gwa sqrtK pchisqd1 (twoSampleState ℚ) (zeroBatch ℚ) 1).beta = [Dbl.nan] ∧
      (calculate_fam sqrtK pchisqd1 (twoSampleState ℚ) (zeroBatch ℚ) 1).se = [Dbl.pinf] ∧
      (calculate_fam sqrtK pchisqd1 (twoSampleState ℚ) (zeroBatch ℚ) 1).beta = [Dbl.nan]) ∧
    Dbl.isNaN (Dbl.pinf : Dbl ℚ) = false := by
  refine ⟨?_, ?_, ?_, rfl⟩
  · simp [dot, zeroBatch]
  · simp [dot, vecMulSp, zeroBatch, twoSampleState, SpMat.identity, List.range_succ]
  · intro sqrtK pchisqd1
    refine ⟨?_, ?_, ?_, ?_⟩
    · simp [calculate_gwa, calculate_gwa_marker, dot, zeroBatch, twoSampleState,
        List.range_succ, Dbl.div, Dbl.sqrt]
    · simp [calculate_gwa, calculate_gwa_marker, dot, zeroBatch, twoSampleState,
        List.range_succ, Dbl.div, Dbl.sqrt, Dbl.mul]
    · simp [calculate_fam, calculate_fam_marker, dot, vecMulSp, zeroBatch, twoSampleState,
        List.range_succ, Dbl.div, Dbl.sqrt, SpMat.identity, getElem_cons_cons_one]
    · simp [calculate_fam, calculate_fam_marker, dot, vecMulSp, zeroBatch, twoSampleState,
        List.range_succ, Dbl.div, Dbl.sqrt, Dbl.mul, SpMat.identity, getElem_cons_cons_one]

/-- C3 (amended): for marker `j` of a batch, on the mixed-model path when
`d = x^T V_inverse x ≤ 0` and on the OLS path when `d = x^T x ≤ 0`, the statistic handed to
`pchisqd1` is `NaN`, so the stored `p` is `pchisqd1(NaN)`; the stored `se` is `NaN` when
`d < 0` and `+inf` when `d = 0`; the stored `beta` is the finite quotient when `d < 0`, and
when `d = 0` it is `+inf`, `-inf` or `NaN` as the numerator `x^T V_inverse y` (`x^T y`) is
positive, negative or zero. -/
theorem calculate_nonpositive_d_stats {K : Type} [LinearOrderedField K] (sqrtK : K → K)
    (pchisqd1 : Dbl K → Dbl K) (st : State K) (buf : Nat → List K) (m j : Nat) (hj : j < m)
    (h32 : st.num_finished_marker + m ≤ 2 ^ 32)
    (hbeta : st.num_finished_marker + m ≤ st.beta.length)
    (hse : st.num_finished_marker + m ≤ st.se.length)
    (hp : st.num_finished_marker + m ≤ st.p.length) :
    (dot (vecMulSp (buf j) st.V_inverse) (buf j) ≤ 0 →
      let d := dot (vecMulSp (buf j) st.V_inverse) (buf j)
      let xVy := dot (vecMulSp (buf j) st.V_inverse) st.phenoVec
      let st1 := calculate_fam sqrtK pchisqd1 st buf m
      st1.beta[st.num_finished_marker + j]? =
        some (if d < 0 then Dbl.fin (xVy / d) else if 0 < xVy then Dbl.pinf
          else if xVy < 0 then Dbl.ninf else Dbl.nan) ∧
      st1.se[st.num_finished_marker + j]? = some (if d < 0 then Dbl.nan else Dbl.pinf) ∧
      st1.p[st.num_finished_marker + j]? = some (pchisqd1 Dbl.nan)) ∧
    (dot (buf j) (buf j) ≤ 0 →
      let d := dot (buf j) (buf j)
      let xy := dot (buf j) st.phenoVec
      let st1 := calculate_gwa sqrtK pchisqd1 st buf m
      st1.beta[st.num_finished_marker + j]? =
        some (if d < 0 then Dbl.fin (xy / d) else if 0 < xy then Dbl.pinf
          else if xy < 0 then Dbl.ninf else Dbl.nan) ∧
      st1.se[st.num_finished_marker + j]? = some (if d < 0 then Dbl.nan else Dbl.pinf) ∧
      st1.p[st.num_finished_marker + j]? = some (pchisqd1 Dbl.nan)) := by
  refine ⟨fun hd => ?_, fun hd => ?_⟩
  · intro d xVy st1
    have h := calculate_fam_getElem? sqrtK pchisqd1 st buf m h32 j hj
    simp only [markerStats_nonpos sqrtK pchisqd1 _ _ st.phenoVec hd] at h
    exact ⟨h.1 (by omega), h.2.1 (by omega), h.2.2 (by omega)⟩
  · intro d xy st1
    have h := calculate_gwa_getElem? sqrtK pchisqd1 st buf m h32 j hj
    simp only [markerStats_nonpos sqrtK pchisqd1 _ _ st.phenoVec hd] at h
    exact ⟨h.1 (by omega), h.2.1 (by omega), h.2.2 (by omega)⟩

/-- Witness of C3 (amended): the all-zero genotype vector on the mixed-model path, where the
stored `p` is `pchisqd1(NaN)`. -/
theorem calculate_nonpositive_d_stats_witness :
    dot (vecMulSp (zeroBatch ℚ 0) (twoSampleState ℚ).V_inverse) (zeroBatch ℚ 0) ≤ 0 ∧
    dot (zeroBatch ℚ 0) (zeroBatch ℚ 0) ≤ 0 ∧
    (calculate_fam (fun a => a) (fun _ => Dbl.fin 1) (twoSampleState ℚ) (zeroBatch ℚ) 1).p[0]? =
      some (Dbl.fin 1) ∧
    (calculate_gwa (fun a => a) (fun _ => Dbl.fin 1) (twoSampleState ℚ) (zeroBatch ℚ) 1).p[0]? =
      some (Dbl.fin 1) := by
  have hd : dot (vecMulSp (zeroBatch ℚ 0) (twoSampleState ℚ).V_inverse) (zeroBatch ℚ 0) ≤ 0 := by
    simp [dot, vecMulSp, zeroBatch, twoSampleState, SpMat.identity, List.range_succ]
  have hd2 : dot (zeroBatch ℚ 0) (zeroBatch ℚ 0) ≤ 0 := by simp [dot, zeroBatch]
  have h := calculate_nonpositive_d_stats (fun a => a) (fun _ => Dbl.fin 1) (twoSampleState ℚ)
    (zeroBatch ℚ) 1 0 (by decide) (by simp [twoSampleState]) (by simp [twoSampleState])
    (by simp [twoSampleState]) (by simp [twoSampleState])
  exact ⟨hd, hd2, (h.1 hd).2.2, (h.2 hd2).2.2⟩

/-- C4: on genotype vectors of length `num_indi`, `calculate_gwa` leaves exactly the result
arrays (`beta`, `se`, and `p = pchisqd1(z^2)` for every `pchisqd1`, the identity included) that
`calculate_fam` leaves when `V_inverse` is the `n x n` identity; the stored values are the
double quotients `beta = x^T y / x^T x` and `se = 1 / sqrt(x^T x)`; and for `y = (1,2,3,4)`,
which the constructor centers to `(-1.5,-0.5,0.5,1.5)`, and `x = (-1.5,-0.5,0.5,1.5)` the
stored values are `beta = 1`, `se` with `se^2 = 1/5`, and `z^2 = 5`. -/
theorem calculate_gwa_refines_calculate_fam_identity (pchisqd1 : Dbl ℝ → Dbl ℝ)
    (st : State ℝ) (buf : Nat → List ℝ) (m : Nat)
    (hx : ∀ j, j < m → (buf j).length = st.num_indi)
    (h32 : st.num_finished_marker + m ≤ 2 ^ 32) :
    calculate_gwa Real.sqrt pchisqd1 st buf m =
      { calculate_fam Real.sqrt pchisqd1 { st with V_inverse := SpMat.identity st.num_indi }
          buf m with V_inverse := st.V_inverse } ∧
    (∀ j, j < m → st.num_finished_marker + j < st.beta.length →
      st.num_finished_marker + j < st.se.length →
      (calculate_gwa Real.sqrt pchisqd1 st buf m).beta[st.num_finished_marker + j]? =
        some (Dbl.div (Dbl.fin (dot (buf j) st.phenoVec)) (Dbl.fin (dot (buf j) (buf j)))) ∧
      (calculate_gwa Real.sqrt pchisqd1 st buf m).se[st.num_finished_marker + j]? =
        some (Dbl.div (Dbl.fin 1) (Dbl.sqrt Real.sqrt (Dbl.fin (dot (buf j) (buf j)))))) ∧
    (∀ ldltSolve, conditionPheno ldltSolve false [] false false [(1 : ℝ), 2, 3, 4] =
      Except.ok (olsSanityState ℝ).phenoVec) ∧
    (calculate_gwa Real.sqrt pchisqd1 (olsSanityState ℝ) (olsSanityBatch ℝ) 1).beta =
      [Dbl.fin 1] ∧
    (∃ s : ℝ, s ^ 2 = 1 / 5 ∧
      (calculate_gwa Real.sqrt pchisqd1 (olsSanityState ℝ) (olsSanityBatch ℝ) 1).se =
        [Dbl.fin s]) ∧
    (calculate_gwa Real.sqrt pchisqd1 (olsSanityState ℝ) (olsSanityBatch ℝ) 1).p =
      [pchisqd1 (Dbl.fin 5)] := by
  have hd : dot (olsSanityBatch ℝ 0) (olsSanityBatch ℝ 0) = 5 := by
    simp [dot, olsSanityBatch]
    norm_num
  have hy : dot (olsSanityBatch ℝ 0) (olsSanityState ℝ).phenoVec = 5 := by
    simp [dot, olsSanityBatch, olsSanityState]
    norm_num
  have hstats := markerStats_of_pos pchisqd1 (olsSanityBatch ℝ 0) (olsSanityBatch ℝ 0)
    (olsSanityState ℝ).phenoVec (by rw [hd]; norm_num)
  rw [sq_ratio _ _ (by rw [hd]; norm_num), hd, hy] at hstats
  have hrun : calculate_gwa Real.sqrt pchisqd1 (olsSanityState ℝ) (olsSanityBatch ℝ) 1 =
      { olsSanityState ℝ with
        beta := [Dbl.fin (5 / 5)], se := [Dbl.fin (1 / Real.sqrt 5)],
        p := [pchisqd1 (Dbl.fin (5 ^ 2 / 5))], num_finished_marker := 1 } := by
    have e : calculate_gwa Real.sqrt pchisqd1 (olsSanityState ℝ) (olsSanityBatch ℝ) 1 =
        { storeStats (olsSanityState ℝ) 0 (markerStats Real.sqrt pchisqd1 (olsSanityBatch ℝ 0)
            (olsSanityBatch ℝ 0) (olsSanityState ℝ).phenoVec) with
          num_finished_marker := 1 } := rfl
    rw [e, hstats]
    rfl
  refine ⟨calculate_gwa_eq_fam_identity Real.sqrt pchisqd1 st buf m hx, ?_, ?_, ?_, ?_, ?_⟩
  · intro j hj hb hs
    have h := calculate_gwa_getElem? Real.sqrt pchisqd1 st buf m h32 j hj
    have ho := markerStats_ols pchisqd1 (buf j) st.phenoVec
    exact ⟨by rw [← ho.1]; exact h.1 hb, by rw [← ho.2]; exact h.2.1 hs⟩
  · intro ldltSolve
    simp [conditionPheno, centerPheno, List.ofFn_succ, Fin.sum_univ_succ, olsSanityState]
    norm_num
  · rw [hrun]
    norm_num
  · refine ⟨1 / Real.sqrt 5, ?_, by rw [hrun]⟩
    rw [div_pow, Real.sq_sqrt (by norm_num)]
    norm_num
  · rw [hrun]
    norm_num

/-- Witness of C4: the batch of scenario S1, whose genotype vector has length
`num_indi = 4`. -/
theorem calculate_gwa_refines_calculate_fam_identity_witness :
    (calculate_gwa Real.sqrt (fun z => z) (olsSanityState ℝ) (olsSanityBatch ℝ) 1).beta =
      (calculate_fam Real.sqrt (fun z => z)
        { olsSanityState ℝ with V_inverse := SpMat.identity 4 } (olsSanityBatch ℝ) 1).beta := by
  have h := (calculate_gwa_refines_calculate_fam_identity (fun z => z) (olsSanityState ℝ)
    (olsSanityBatch ℝ) 1 (fun j _ => rfl) (by simp [olsSanityState])).1
  rw [h]
  rfl

/-! ## Phenotype conditioner -/

section ConditionerLemmas

variable {K : Type} [LinearOrderedField K]

theorem conditionCovarReg_orthogonal {n k : Nat}
    (ldltSolve : Matrix (Fin k) (Fin k) K → (Fin k → K) → (Fin k → K))
    (pheno : Fin n → K) (covar : Matrix (Fin n) (Fin k) K)
    (hsolve : (covar.transpose * covar).mulVec
        (ldltSolve (covar.transpose * covar) (covar.transpose.mulVec pheno)) =
      covar.transpose.mulVec pheno) :
    covar.transpose.mulVec (conditionCovarReg ldltSolve pheno covar) = 0 := by
  simp only [conditionCovarReg]
  rw [Matrix.mulVec_sub, Matrix.mulVec_mulVec, hsolve, sub_self]

theorem sum_centerPheno {n : Nat} (phenoVec : Fin n → K) : (centerPheno phenoVec).sum = 0 := by
  simp only [centerPheno, List.sum_ofFn, Finset.sum_sub_distrib, Finset.sum_const,
    Finset.card_univ, Fintype.card_fin, nsmul_eq_mul]
  rcases Nat.eq_zero_or_pos n with h | h
  · subst h
    simp
  · have : (n : K) ≠ 0 := by exact_mod_cast (Nat.pos_iff_ne_zero.mp h)
    field_simp

theorem centerPheno_of_sum_zero {n : Nat} (phenoVec : Fin n → K) (h : ∑ i, phenoVec i = 0) :
    centerPheno phenoVec = List.ofFn phenoVec := by
  simp [centerPheno, h]

theorem length_centerPheno {n : Nat} (phenoVec : Fin n → K) :
    (centerPheno phenoVec).length = n := by
  simp [centerPheno]

theorem getD_ofFn {n : Nat} (f : Fin n → K) (i : Fin n) : (List.ofFn f).getD i.val 0 = f i := by
  rw [List.getD_eq_getElem?_getD, List.getElem?_eq_getElem (by simp)]
  simp

/-- Without covariates the centered phenotype is `y_i - mean(y)`. -/
theorem centerPheno_get (l : List K) :
    centerPheno (fun i : Fin l.length => l.get i) = l.map (fun v => v - l.sum / (l.length : K)) := by
  simp only [centerPheno]
  have hs : ∑ i : Fin l.length, l.get i = l.sum := by
    rw [← List.sum_ofFn, List.ofFn_get]
  rw [hs]
  have := List.ofFn_getElem_eq_map l (fun v => v - l.sum / (l.length : K))
  simpa using this

/-- The last column of `concovar` is the intercept. -/
theorem concovar_intercept (covarX : List K) (n k0 : Nat) (hlen : covarX.length = k0 * n)
    (i : Fin n) (j : Fin ((remain_covar_with_intercept covarX n).length / n))
    (hj : j.val = k0) : concovar covarX n i j = 1 := by
  simp only [concovar, mapColMajor, remain_covar_with_intercept, hj]
  rw [List.getD_eq_getElem?_getD, List.getElem?_append_right (by omega)]
  rw [List.getElem?_replicate_of_lt (by omega)]
  rfl

theorem concovar_cols (covarX : List K) (n k0 : Nat) (hlen : covarX.length = k0 * n)
    (hn : 0 < n) : (remain_covar_with_intercept covarX n).length / n = k0 + 1 := by
  simp only [remain_covar_with_intercept, List.length_append, List.length_replicate, hlen]
  rw [show k0 * n + n = (k0 + 1) * n by ring]
  exact Nat.mul_div_cancel _ hn

/-- A phenotype in the column space of the covariates has zero residual. -/
theorem conditionCovarReg_of_mem_range {n k : Nat}
    (ldltSolve : Matrix (Fin k) (Fin k) K → (Fin k → K) → (Fin k → K))
    (covar : Matrix (Fin n) (Fin k) K) (b0 : Fin k → K)
    (hdet : (covar.transpose * covar).det ≠ 0)
    (hsolve : ∀ b, (covar.transpose * covar).mulVec (ldltSolve (covar.transpose * covar) b) = b) :
    conditionCovarReg ldltSolve (covar.mulVec b0) covar = 0 := by
  simp only [conditionCovarReg]
  have h1 := hsolve (covar.transpose.mulVec (covar.mulVec b0))
  have h2 : (covar.transpose * covar).mulVec
      (ldltSolve (covar.transpose * covar) (covar.transpose.mulVec (covar.mulVec b0)) - b0)
      = 0 := by
    rw [Matrix.mulVec_sub, h1, Matrix.mulVec_mulVec, sub_self]
  have h3 := Matrix.eq_zero_of_mulVec_eq_zero hdet h2
  rw [sub_eq_zero] at h3
  rw [h3, sub_self]

theorem conditionCovarReg_concovar_cast
    (ldltSolve : (k : Nat) → Matrix (Fin k) (Fin k) K → (Fin k → K) → (Fin k → K))
    (covarX : List K) (n k : Nat) (hk : (remain_covar_with_intercept covarX n).length / n = k)
    (y : Fin n → K) :
    conditionCovarReg (ldltSolve _) y (concovar covarX n) =
      conditionCovarReg (ldltSolve k) y (mapColMajor (remain_covar_with_intercept covarX n) n k) := by
  subst hk
  rfl

theorem s3_input_in_range :
    (fun i : Fin 4 => ([1, 2, 3, 4] : List K).get i) =
      (mapColMajor (remain_covar_with_intercept ([0, 1, 2, 3] : List K) 4) 4 2).mulVec
        (fun _ => 1) := by
  have e1 : (fun i : Fin 4 => ([1, 2, 3, 4] : List K).get i) = ![1, 2, 3, 4] := by
    funext i
    fin_cases i <;> rfl
  have e2 : (mapColMajor (remain_covar_with_intercept ([0, 1, 2, 3] : List K) 4) 4 2).mulVec
        (fun _ => 1) = ![1, 2, 3, 4] := by
    funext i
    fin_cases i <;>
      simp [mapColMajor, remain_covar_with_intercept, Matrix.mulVec, Matrix.dotProduct,
        Fin.sum_univ_succ] <;> norm_num
  rw [e1, e2]

theorem s3_gram_det :
    ((mapColMajor (remain_covar_with_intercept ([0, 1, 2, 3] : List K) 4) 4 2).transpose *
      mapColMajor (remain_covar_with_intercept ([0, 1, 2, 3] : List K) 4) 4 2).det ≠ 0 := by
  rw [Matrix.det_fin_two]
  simp [mapColMajor, remain_covar_with_intercept, Matrix.mul_apply, Fin.sum_univ_succ]
  norm_num

theorem conditionPheno_s3 (ls : (k : Nat) → Matrix (Fin k) (Fin k) K → (Fin k → K) → (Fin k → K))
    (hs : SolvesGram ls) :
    conditionPheno ls true [0, 1, 2, 3] false false [1, 2, 3, 4] = Except.ok [0, 0, 0, 0] := by
  simp only [conditionPheno, if_true, Bool.false_and, Bool.false_eq_true, if_false]
  rw [conditionCovarReg_concovar_cast ls _ _ 2 (by simp [remain_covar_with_intercept])]
  show Except.ok (centerPheno (conditionCovarReg (ls 2)
    (fun i : Fin 4 => ([1, 2, 3, 4] : List K).get i)
    (mapColMajor (remain_covar_with_intercept [0, 1, 2, 3] 4) 4 2))) = _
  rw [s3_input_in_range,
    conditionCovarReg_of_mem_range _ _ _ s3_gram_det (fun b => hs _ _ _ b s3_gram_det)]
  simp [centerPheno]

end ConditionerLemmas

/-- C5: when the conditioning stage of the constructor completes (no `.cphen` write failure),
the phenotype vector it leaves has the length of the input and sums to zero; without
covariates it is exactly `y_i - mean(y)`; with covariates, when `ldlt().solve` is exact on
invertible Gram matrices and `C^T C` is invertible for the matrix `C = concovar` (covariate
columns followed by the all-ones intercept column), it is orthogonal to every column of `C`,
`C^T y = 0`; `(10,20,30)` becomes `(-10,0,10)`; and `y = (1,2,3,4)` with
`C = [(0,1,2,3), ones]` becomes the zero vector. -/
theorem conditionPheno_mean_zero_orthogonal {K : Type} [LinearOrderedField K]
    (ldltSolve : (k : Nat) → Matrix (Fin k) (Fin k) K → (Fin k → K) → (Fin k → K))
    (has_covar : Bool) (covarX remain_phenos : List K) (save_pheno cphen_opened : Bool)
    (hio : (save_pheno && !cphen_opened) = false) :
    (∃ r, conditionPheno ldltSolve has_covar covarX save_pheno cphen_opened remain_phenos =
        Except.ok r ∧
      r.length = remain_phenos.length ∧ r.sum = 0 ∧
      (has_covar = false →
        r = remain_phenos.map (fun v => v - remain_phenos.sum / (remain_phenos.length : K))) ∧
      (has_covar = true → SolvesGram ldltSolve → 0 < remain_phenos.length →
        ∀ k0, covarX.length = k0 * remain_phenos.length →
        ((concovar covarX remain_phenos.length).transpose *
          concovar covarX remain_phenos.length).det ≠ 0 →
        (concovar covarX remain_phenos.length).transpose.mulVec
            (fun i => r.getD i.val 0) = 0 ∧
          ∀ i j, j.val = k0 → concovar covarX remain_phenos.length i j = 1)) ∧
    (∀ ls, conditionPheno ls false [] false false [(10 : K), 20, 30] = Except.ok [-10, 0, 10]) ∧
    (∀ ls, SolvesGram ls →
      conditionPheno ls true [(0 : K), 1, 2, 3] false false [1, 2, 3, 4] =
        Except.ok [0, 0, 0, 0]) := by
  refine ⟨?_, ?_, fun ls hs => conditionPheno_s3 ls hs⟩
  · cases has_covar with
    | false =>
      refine ⟨centerPheno (fun i => remain_phenos.get i), by simp [conditionPheno],
        length_centerPheno _, sum_centerPheno _, fun _ => centerPheno_get _, ?_⟩
      intro h
      exact absurd h (by decide)
    | true =>
      refine ⟨centerPheno (conditionCovarReg (ldltSolve _) (fun i => remain_phenos.get i)
          (concovar covarX remain_phenos.length)), ?_, length_centerPheno _, sum_centerPheno _,
          ?_, ?_⟩
      · simp only [conditionPheno, hio, if_true, Bool.false_eq_true, if_false]
      · intro h
        exact absurd h (by decide)
      intro _ hs hn k0 hlen hdet
      have horth := conditionCovarReg_orthogonal (ldltSolve _)
        (fun i => remain_phenos.get i) (concovar covarX remain_phenos.length)
        (hs _ _ _ _ hdet)
      have hcols := concovar_cols covarX _ k0 hlen hn
      have hone := concovar_intercept covarX remain_phenos.length k0 hlen
      have hsum : ∑ i, conditionCovarReg (ldltSolve _) (fun i => remain_phenos.get i)
          (concovar covarX remain_phenos.length) i = 0 := by
        have h1 := congrFun horth ⟨k0, by omega⟩
        simp only [Matrix.mulVec, Matrix.dotProduct, Matrix.transpose_apply, Pi.zero_apply] at h1
        rw [← h1]
        refine Finset.sum_congr rfl (fun i _ => ?_)
        rw [hone i ⟨k0, by omega⟩ rfl, one_mul]
      rw [centerPheno_of_sum_zero _ hsum]
      refine ⟨?_, fun i j hj => hone i j hj⟩
      simp only [getD_ofFn]
      exact horth
  · intro ls
    simp [conditionPheno, centerPheno, List.ofFn_succ, Fin.sum_univ_succ]
    norm_num

/-- Cramer's rule meets the contract asked of `ldlt().solve`. -/
theorem cramerSolve_solvesGram {K : Type} [LinearOrderedField K] :
    SolvesGram (cramerSolve (K := K)) := by
  intro n k C b hM
  simp only [cramerSolve]
  rw [Matrix.mulVec_smul, Matrix.mulVec_mulVec, Matrix.mul_adjugate, Matrix.smul_mulVec_assoc,
    Matrix.one_mulVec, smul_smul, inv_mul_cancel₀ hM, one_smul]

theorem gram_det_concovar_cast {K : Type} [LinearOrderedField K] (covarX : List K) (n k : Nat)
    (hk : (remain_covar_with_intercept covarX n).length / n = k) :
    ((concovar covarX n).transpose * concovar covarX n).det =
      ((mapColMajor (remain_covar_with_intercept covarX n) n k).transpose *
        mapColMajor (remain_covar_with_intercept covarX n) n k).det := by
  subst hk
  rfl

/-- Witness of C5: scenario S3 with the exact solver and no `.cphen` dump requested; the
Gram matrix of `C = [(0,1,2,3), ones]` is invertible and the conditioned phenotype is
orthogonal to both columns. -/
theorem conditionPheno_mean_zero_orthogonal_witness :
    SolvesGram (cramerSolve (K := ℚ)) ∧
    ((concovar [(0 : ℚ), 1, 2, 3] 4).transpose * concovar [(0 : ℚ), 1, 2, 3] 4).det ≠ 0 ∧
    ∃ r, conditionPheno cramerSolve true [(0 : ℚ), 1, 2, 3] false false [1, 2, 3, 4] =
      Except.ok r ∧ r.length = 4 ∧ r.sum = 0 ∧
      (concovar [(0 : ℚ), 1, 2, 3] 4).transpose.mulVec (fun i => r.getD i.val 0) = 0 := by
  have hdet : ((concovar [(0 : ℚ), 1, 2, 3] 4).transpose *
      concovar [(0 : ℚ), 1, 2, 3] 4).det ≠ 0 := by
    rw [gram_det_concovar_cast _ _ 2 (by simp [remain_covar_with_intercept])]
    exact s3_gram_det
  obtain ⟨r, h1, h2, h3, _, h5⟩ := (conditionPheno_mean_zero_orthogonal cramerSolve true
    [(0 : ℚ), 1, 2, 3] [1, 2, 3, 4] false false rfl).1
  exact ⟨cramerSolve_solvesGram, hdet, r, h1, h2, h3,
    (h5 rfl cramerSolve_solvesGram (by decide) 1 rfl hdet).1⟩

/-! ## Rank-deficient covariates -/

/-- C6 (counterexample): a constant covariate `(1, 1)` next to the intercept gives a singular
Gram matrix `C^T C`, and the conditioning stage still returns a phenotype vector, whatever
`ldlt().solve` returns; with the zero solution it returns `(-1, 1)` for `y = (1, 3)`. -/
theorem conditionPheno_singular_covar_returns :
    ((concovar [(1 : ℚ), 1] 2).transpose * concovar [(1 : ℚ), 1] 2).det = 0 ∧
    (∀ ldltSolve, ∃ r,
      conditionPheno ldltSolve true [(1 : ℚ), 1] false false [1, 3] = Except.ok r) ∧
    conditionPheno (fun _ _ _ => 0) true [(1 : ℚ), 1] false false [1, 3] =
      Except.ok [-1, 1] := by
  refine ⟨?_, fun ldltSolve => ⟨_, rfl⟩, ?_⟩
  · rw [gram_det_concovar_cast _ _ 2 (by simp [remain_covar_with_intercept]),
      Matrix.det_fin_two]
    simp [mapColMajor, remain_covar_with_intercept, Matrix.mul_apply, Fin.sum_univ_succ]
  · simp [conditionPheno, conditionCovarReg, centerPheno, List.ofFn_succ, Fin.sum_univ_succ]
    norm_num

/-- C6 (amended): the conditioning stage has no rank test.  For every covariate buffer,
whether `C^T C` is full rank or not, when no `.cphen` write fails the stage reports no error
and returns the mean-centered `pheno - C * beta`, where `beta` is whatever `ldlt().solve`
returned for `C^T C` and `C^T pheno`; its only error is a `.cphen` stream that cannot be
opened. -/
theorem conditionPheno_no_rank_check {K : Type} [LinearOrderedField K]
    (ldltSolve : (k : Nat) → Matrix (Fin k) (Fin k) K → (Fin k → K) → (Fin k → K))
    (covarX remain_phenos : List K) (save_pheno cphen_opened : Bool) :
    ((save_pheno && !cphen_opened) = false →
      conditionPheno ldltSolve true covarX save_pheno cphen_opened remain_phenos =
        Except.ok (centerPheno
          ((fun i => remain_phenos.get i) -
            (concovar covarX remain_phenos.length).mulVec
              (ldltSolve _
                ((concovar covarX remain_phenos.length).transpose *
                  concovar covarX remain_phenos.length)
                ((concovar covarX remain_phenos.length).transpose.mulVec
                  (fun i => remain_phenos.get i)))))) ∧
    ((save_pheno && !cphen_opened) = true →
      conditionPheno ldltSolve true covarX save_pheno cphen_opened remain_phenos =
        Except.error "failed to write .cphen") := by
  refine ⟨fun h => ?_, fun h => ?_⟩
  · simp only [conditionPheno, h, if_true, Bool.false_eq_true, if_false]
    rfl
  · simp only [conditionPheno, h, if_true]

/-! ## Haseman-Elston regression, Mode A -/

section HELemmas

variable {K : Type} [LinearOrderedField K]

theorem sum_map_take (l : List K) (f : K → K) (i : Nat) (hi : i ≤ l.length) :
    ((l.take i).map f).sum = ∑ r in Finset.range i, f (l.getD r 0) := by
  induction i with
  | zero => simp
  | succ i ih =>
    have hlt : i < l.length := by omega
    rw [List.take_succ, List.map_append, List.sum_append, ih (by omega), Finset.sum_range_succ]
    simp [List.getElem?_eq_getElem hlt]

theorem dot_map_self (l : List K) (f : K → K) :
    dot (l.map f) (l.map f) = (l.map (fun v => f v * f v)).sum := by
  induction l with
  | nil => simp [dot]
  | cons a l ih =>
    simp only [List.map_cons, List.sum_cons]
    rw [← ih]
    simp [dot]

theorem getD_map_take (l : List K) (f : K → K) (i r : Nat) (hr : r < i) (hi : i ≤ l.length) :
    ((l.take i).map f).getD r 0 = f (l.getD r 0) := by
  have h1 : r < l.length := by omega
  simp [List.getD_eq_getElem?_getD, List.getElem?_take_of_lt hr, List.getElem?_eq_getElem h1]

/-- The loop of Mode-A `HEreg` adds up the per-column increments. -/
theorem foldl_HEreg_step (fam : SpMat K) (pheno : List K) (init : HEacc K) (k : Nat) :
    (List.range' 1 k).foldl (HEreg_step fam pheno) init =
      { XtX00 := init.XtX00
        XtX10 := init.XtX10
        XtX01 := init.XtX01 + ∑ t in Finset.range k,
          ((fam.entries.filter (fun e => e.2.1 = 1 + t ∧ e.1 < 1 + t)).map (fun e => e.2.2)).sum
        XtX11 := init.XtX11 + ∑ t in Finset.range k,
          ((fam.entries.filter (fun e => e.2.1 = 1 + t ∧ e.1 < 1 + t)).map
            (fun e => e.2.2 * e.2.2)).sum
        XtY0 := init.XtY0 + ∑ t in Finset.range k,
          ((pheno.take (1 + t)).map (fun v => v * pheno.getD (1 + t) 0)).sum
        XtY1 := init.XtY1 + ∑ t in Finset.range k,
          ((fam.entries.filter (fun e => e.2.1 = 1 + t ∧ e.1 < 1 + t)).map
            (fun e => ((pheno.take (1 + t)).map (fun v => v * pheno.getD (1 + t) 0)).getD e.1 0
              * e.2.2)).sum
        SSy := init.SSy + ∑ t in Finset.range k,
          dot ((pheno.take (1 + t)).map (fun v => v * pheno.getD (1 + t) 0))
            ((pheno.take (1 + t)).map (fun v => v * pheno.getD (1 + t) 0)) } := by
  induction k with
  | zero => simp
  | succ k ih =>
    rw [List.range'_1_concat, List.foldl_append, ih]
    simp only [List.foldl_cons, List.foldl_nil, HEreg_step, Finset.sum_range_succ, add_assoc]


theorem sum_range_pred_shift (F : Nat → K) (n : Nat) (h0 : F 0 = 0) :
    ∑ t in Finset.range (n - 1), F (1 + t) = ∑ i in Finset.range n, F i := by
  cases n with
  | zero => simp
  | succ n =>
    rw [Finset.sum_range_succ', h0, add_zero]
    simp only [Nat.add_sub_cancel]
    exact Finset.sum_congr rfl (fun t _ => by rw [Nat.add_comm])

/-- Summing the stored entries of the blocks `fam.block(0, i, i, 1)` over the columns
`i = 1 .. n-1` is summing the stored entries of the strict upper triangle. -/
theorem sum_blocks_eq_sum_upper (ents : List (Nat × Nat × K)) (g : Nat × Nat × K → K) (n : Nat) :
    ∑ t in Finset.range (n - 1),
        ((ents.filter (fun e => e.2.1 = 1 + t ∧ e.1 < 1 + t)).map g).sum =
      ((ents.filter (fun e => e.1 < e.2.1 ∧ e.2.1 < n)).map g).sum := by
  induction ents with
  | nil => simp
  | cons e rest ih =>
    have hsplit : ∀ t, (((e :: rest).filter (fun e => e.2.1 = 1 + t ∧ e.1 < 1 + t)).map g).sum =
        (if e.2.1 = 1 + t ∧ e.1 < 1 + t then g e else 0) +
          ((rest.filter (fun e => e.2.1 = 1 + t ∧ e.1 < 1 + t)).map g).sum := by
      intro t
      by_cases h : e.2.1 = 1 + t ∧ e.1 < 1 + t
      · simp [List.filter_cons, h]
      · simp [List.filter_cons, h]
    simp only [hsplit, Finset.sum_add_distrib, ih]
    have hone : ∑ t in Finset.range (n - 1), (if e.2.1 = 1 + t ∧ e.1 < 1 + t then g e else 0) =
        if e.1 < e.2.1 ∧ e.2.1 < n then g e else 0 := by
      by_cases hq : e.1 < e.2.1 ∧ e.2.1 < n
      · rw [if_pos hq, Finset.sum_eq_single (e.2.1 - 1)]
        · rw [if_pos ⟨by omega, by omega⟩]
        · intro t _ ht
          rw [if_neg (by omega)]
        · intro hnot
          exact absurd (Finset.mem_range.mpr (by omega)) hnot
      · rw [if_neg hq]
        apply Finset.sum_eq_zero
        intro t ht
        have := Finset.mem_range.mp ht
        rw [if_neg (by omega)]
    rw [hone]
    by_cases hq : e.1 < e.2.1 ∧ e.2.1 < n
    · simp [List.filter_cons, hq]
    · simp [List.filter_cons, hq]

/-- Closed form of the accumulators of Mode-A `HEreg`: the entries of `fam` enter through the
stored entries of the strict upper triangle, the phenotype through all pairs `i < j`. -/
theorem HEreg_accumulate_eq (fam : SpMat K) (pheno : List K) (hlen : pheno.length = fam.cols) :
    HEreg_accumulate fam pheno =
      { XtX00 := (HEreg_size fam : K)
        XtX01 := ((fam.entries.filter (fun e => e.1 < e.2.1 ∧ e.2.1 < fam.cols)).map
          (fun e => e.2.2)).sum
        XtX10 := ((fam.entries.filter (fun e => e.1 < e.2.1 ∧ e.2.1 < fam.cols)).map
          (fun e => e.2.2)).sum
        XtX11 := ((fam.entries.filter (fun e => e.1 < e.2.1 ∧ e.2.1 < fam.cols)).map
          (fun e => e.2.2 * e.2.2)).sum
        XtY0 := ∑ j in Finset.range fam.cols, ∑ i in Finset.range j,
          pheno.getD i 0 * pheno.getD j 0
        XtY1 := ((fam.entries.filter (fun e => e.1 < e.2.1 ∧ e.2.1 < fam.cols)).map
          (fun e => pheno.getD e.1 0 * pheno.getD e.2.1 0 * e.2.2)).sum
        SSy := ∑ j in Finset.range fam.cols, ∑ i in Finset.range j,
          (pheno.getD i 0 * pheno.getD j 0) * (pheno.getD i 0 * pheno.getD j 0) } := by
  simp only [HEreg_accumulate, foldl_HEreg_step, zero_add]
  have hXtY1 : ∀ t, t ∈ Finset.range (fam.cols - 1) →
      ((fam.entries.filter (fun e => e.2.1 = 1 + t ∧ e.1 < 1 + t)).map
        (fun e => ((pheno.take (1 + t)).map (fun v => v * pheno.getD (1 + t) 0)).getD e.1 0
          * e.2.2)).sum =
      ((fam.entries.filter (fun e => e.2.1 = 1 + t ∧ e.1 < 1 + t)).map
        (fun e => pheno.getD e.1 0 * pheno.getD e.2.1 0 * e.2.2)).sum := by
    intro t ht
    have ht' := Finset.mem_range.mp ht
    congr 1
    apply List.map_congr_left
    intro e he
    have hp := (List.mem_filter.mp he).2
    simp only [decide_eq_true_eq] at hp
    rw [getD_map_take _ _ _ _ hp.2 (by omega), hp.1]
  have hXtY0 : ∀ t, t ∈ Finset.range (fam.cols - 1) →
      ((pheno.take (1 + t)).map (fun v => v * pheno.getD (1 + t) 0)).sum =
        ∑ i in Finset.range (1 + t), pheno.getD i 0 * pheno.getD (1 + t) 0 := by
    intro t ht
    have ht' := Finset.mem_range.mp ht
    exact sum_map_take _ _ _ (by omega)
  have hSSy : ∀ t, t ∈ Finset.range (fam.cols - 1) →
      dot ((pheno.take (1 + t)).map (fun v => v * pheno.getD (1 + t) 0))
        ((pheno.take (1 + t)).map (fun v => v * pheno.getD (1 + t) 0)) =
        ∑ i in Finset.range (1 + t), (pheno.getD i 0 * pheno.getD (1 + t) 0) *
          (pheno.getD i 0 * pheno.getD (1 + t) 0) := by
    intro t ht
    have ht' := Finset.mem_range.mp ht
    rw [dot_map_self]
    exact sum_map_take _ (fun v => v * pheno.getD (1 + t) 0 * (v * pheno.getD (1 + t) 0)) _
      (by omega)
  rw [Finset.sum_congr rfl hXtY1, Finset.sum_congr rfl hXtY0, Finset.sum_congr rfl hSSy,
    sum_blocks_eq_sum_upper, sum_blocks_eq_sum_upper, sum_blocks_eq_sum_upper,
    sum_range_pred_shift (fun j => ∑ i in Finset.range j, pheno.getD i 0 * pheno.getD j 0) _
      (by simp),
    sum_range_pred_shift (fun j => ∑ i in Finset.range j,
      (pheno.getD i 0 * pheno.getD j 0) * (pheno.getD i 0 * pheno.getD j 0)) _ (by simp)]

theorem coeff_cons (rows cols : Nat) (e : Nat × Nat × K) (rest : List (Nat × Nat × K))
    (i j : Nat) :
    SpMat.coeff { rows := rows, cols := cols, entries := e :: rest } i j =
      (if e.1 = i ∧ e.2.1 = j then e.2.2 else 0) +
        SpMat.coeff { rows := rows, cols := cols, entries := rest } i j := by
  by_cases h : e.1 = i ∧ e.2.1 = j
  · simp [SpMat.coeff, List.filter_cons, h]
  · simp [SpMat.coeff, List.filter_cons, h]

/-- A sum over the stored entries of the strict upper triangle that is linear in the stored
value is the sum over all pairs `i < j < n` of the same expression in the coefficient. -/
theorem sum_upper_eq_dense (rows cols : Nat) (ents : List (Nat × Nat × K)) (h : Nat → Nat → K)
    (n : Nat) :
    ((ents.filter (fun e => e.1 < e.2.1 ∧ e.2.1 < n)).map (fun e => h e.1 e.2.1 * e.2.2)).sum =
      ∑ j in Finset.range n, ∑ i in Finset.range j,
        h i j * SpMat.coeff { rows := rows, cols := cols, entries := ents } i j := by
  induction ents with
  | nil => simp [SpMat.coeff]
  | cons e rest ih =>
    simp only [coeff_cons, mul_add, Finset.sum_add_distrib, ← ih]
    have hone : ∑ j in Finset.range n, ∑ i in Finset.range j,
        h i j * (if e.1 = i ∧ e.2.1 = j then e.2.2 else 0) =
        if e.1 < e.2.1 ∧ e.2.1 < n then h e.1 e.2.1 * e.2.2 else 0 := by
      by_cases hq : e.1 < e.2.1 ∧ e.2.1 < n
      · rw [if_pos hq, Finset.sum_eq_single e.2.1, Finset.sum_eq_single e.1]
        · simp
        · intro i _ hi
          rw [if_neg (fun hh => hi hh.1.symm), mul_zero]
        · intro hnot
          exact absurd (Finset.mem_range.mpr hq.1) hnot
        · intro j _ hj
          apply Finset.sum_eq_zero
          intro i _
          rw [if_neg (fun hh => hj hh.2.symm), mul_zero]
        · intro hnot
          exact absurd (Finset.mem_range.mpr hq.2) hnot
      · rw [if_neg hq]
        apply Finset.sum_eq_zero
        intro j hj
        apply Finset.sum_eq_zero
        intro i hi
        have hj' := Finset.mem_range.mp hj
        have hi' := Finset.mem_range.mp hi
        rw [if_neg (by intro hh; apply hq; omega), mul_zero]
    rw [hone]
    by_cases hq : e.1 < e.2.1 ∧ e.2.1 < n
    · simp [List.filter_cons, hq]
    · simp [List.filter_cons, hq]

/-- With one stored entry per position, the coefficient at the position of a stored entry is
its value. -/
theorem coeff_of_mem (rows cols : Nat) (ents : List (Nat × Nat × K))
    (hnd : (ents.map (fun e => (e.1, e.2.1))).Nodup) (e : Nat × Nat × K) (he : e ∈ ents) :
    SpMat.coeff { rows := rows, cols := cols, entries := ents } e.1 e.2.1 = e.2.2 := by
  induction ents with
  | nil => cases he
  | cons a rest ih =>
    rw [List.map_cons, List.nodup_cons] at hnd
    rw [coeff_cons]
    rcases List.mem_cons.mp he with hea | her
    · subst hea
      have hz : SpMat.coeff { rows := rows, cols := cols, entries := rest } e.1 e.2.1 = 0 := by
        simp only [SpMat.coeff]
        have : rest.filter (fun x => x.1 = e.1 ∧ x.2.1 = e.2.1) = [] := by
          rw [List.filter_eq_nil_iff]
          intro x hx hp
          simp only [decide_eq_true_eq] at hp
          apply hnd.1
          rw [List.mem_map]
          exact ⟨x, hx, by rw [hp.1, hp.2]⟩
        rw [this]
        simp
      simp [hz]
    · have hne : ¬ (a.1 = e.1 ∧ a.2.1 = e.2.1) := by
        intro hh
        apply hnd.1
        rw [List.mem_map]
        exact ⟨e, her, by rw [hh.1, hh.2]⟩
      rw [if_neg hne, zero_add]
      exact ih hnd.2 her

/-- With one stored entry per position, the sum of the squared stored entries of the strict
upper triangle is the sum of the squared coefficients over all pairs `i < j < n`. -/
theorem sum_upper_sq_eq_dense (A : SpMat K) (hA : A.UniqueEntries) (n : Nat) :
    ((A.entries.filter (fun e => e.1 < e.2.1 ∧ e.2.1 < n)).map (fun e => e.2.2 * e.2.2)).sum =
      ∑ j in Finset.range n, ∑ i in Finset.range j, A.coeff i j * A.coeff i j := by
  have h := sum_upper_eq_dense A.rows A.cols A.entries (fun i j => A.coeff i j) n
  rw [← h]
  congr 1
  apply List.map_congr_left
  intro e he
  have hmem := (List.mem_filter.mp he).1
  have := coeff_of_mem A.rows A.cols A.entries hA e hmem
  show e.2.2 * e.2.2 = A.coeff e.1 e.2.1 * e.2.2
  rw [show A.coeff e.1 e.2.1 = e.2.2 from this]

omit [LinearOrderedField K] in
theorem HEreg_size_eq (fam : SpMat K) (n : Nat) (hrows : fam.rows = n) (hcols : fam.cols = n)
    (hn : n < 2 ^ 32) : HEreg_size fam = n * n := by
  simp only [HEreg_size, hrows, hcols]
  apply Nat.mod_eq_of_lt
  calc n * n < 2 ^ 32 * 2 ^ 32 := Nat.mul_lt_mul'' hn hn
    _ = 2 ^ 64 := by norm_num


omit [LinearOrderedField K] in
theorem upper_eq_nil_of_le_one (ents : List (Nat × Nat × K)) (n : Nat) (hn : n ≤ 1) :
    ents.filter (fun e => e.1 < e.2.1 ∧ e.2.1 < n) = [] := by
  rw [List.filter_eq_nil_iff]
  intro e _ hp
  simp only [decide_eq_true_eq] at hp
  omega

theorem HEreg_size_sub_two (fam : SpMat K) (n : Nat) (hrows : fam.rows = n)
    (hcols : fam.cols = n) (hn : n < 2 ^ 32) (hn2 : 2 ≤ n) :
    (((HEreg_size fam + 2 ^ 64 - 2) % 2 ^ 64 : Nat) : K) = (n : K) * n - 2 := by
  rw [HEreg_size_eq fam n hrows hcols hn]
  have h4 : 4 ≤ n * n := Nat.mul_le_mul hn2 hn2
  have hlt : n * n < 2 ^ 64 := by
    calc n * n < 2 ^ 32 * 2 ^ 32 := Nat.mul_lt_mul'' hn hn
      _ = 2 ^ 64 := by norm_num
  have : (n * n + 2 ^ 64 - 2) % 2 ^ 64 = n * n - 2 := by omega
  rw [this, Nat.cast_sub (by omega)]
  push_cast
  rfl


/-- The accumulators of Mode-A `HEreg` on the sample GRM and phenotype. -/
theorem HEreg_accumulate_sample :
    HEreg_accumulate (sampleGRM ℚ) (samplePheno ℚ) =
      { XtX00 := 9, XtX01 := 1 / 2, XtX10 := 1 / 2, XtX11 := 1 / 4, XtY0 := -7, XtY1 := 1,
        SSy := 49 } := by
  simp [HEreg_accumulate, HEreg_step, HEreg_size, sampleGRM, samplePheno, dot, List.range']
  norm_num

end HELemmas

/-- C7: for an `n x n` GRM `fam` and a phenotype of length `n`, Mode-A `HEreg` accumulates
`XtX(0,0) = n * n`, `XtX(0,1) = XtX(1,0)` = the sum of the stored entries of the strict upper
triangle (`row < col`), `XtX(1,1)` = the sum of their squares and `XtY[1]` = the sum of
`A_ij * y_i * y_j` over them, so that no diagonal and no lower-triangle entry contributes; as
sums over all pairs `i < j` of the coefficients `A_ij` (zero where nothing is stored) these
are `sum A_ij`, `sum A_ij * y_i * y_j` and, with one stored entry per position,
`sum A_ij^2`. -/
theorem HEreg_accumulate_normal_equations {K : Type} [LinearOrderedField K] (fam : SpMat K) (pheno : List K) (n : Nat)
    (hrows : fam.rows = n) (hcols : fam.cols = n) (hlen : pheno.length = n)
    (hn : n < 2 ^ 32) :
    let acc := HEreg_accumulate fam pheno
    let upper := fam.entries.filter (fun e => e.1 < e.2.1 ∧ e.2.1 < n)
    acc.XtX00 = (n : K) * n ∧
    acc.XtX01 = (upper.map (fun e => e.2.2)).sum ∧
    acc.XtX10 = acc.XtX01 ∧
    acc.XtX11 = (upper.map (fun e => e.2.2 * e.2.2)).sum ∧
    acc.XtY1 = (upper.map (fun e => e.2.2 * (pheno.getD e.1 0 * pheno.getD e.2.1 0))).sum ∧
    acc.XtX01 = ∑ j in Finset.range n, ∑ i in Finset.range j, fam.coeff i j ∧
    acc.XtY1 = ∑ j in Finset.range n, ∑ i in Finset.range j,
      fam.coeff i j * (pheno.getD i 0 * pheno.getD j 0) ∧
    (fam.UniqueEntries →
      acc.XtX11 = ∑ j in Finset.range n, ∑ i in Finset.range j, fam.coeff i j * fam.coeff i j) := by
  intro acc upper
  have h := HEreg_accumulate_eq fam pheno (hlen.trans hcols.symm)
  rw [hcols] at h
  have h01 : acc.XtX01 = (upper.map (fun e => e.2.2)).sum := by
    show (HEreg_accumulate fam pheno).XtX01 = _
    rw [h]
  have hY1 : acc.XtY1 =
      (upper.map (fun e => pheno.getD e.1 0 * pheno.getD e.2.1 0 * e.2.2)).sum := by
    show (HEreg_accumulate fam pheno).XtY1 = _
    rw [h]
  have h11 : acc.XtX11 = (upper.map (fun e => e.2.2 * e.2.2)).sum := by
    show (HEreg_accumulate fam pheno).XtX11 = _
    rw [h]
  refine ⟨?_, h01, ?_, h11, ?_, ?_, ?_, ?_⟩
  · show (HEreg_accumulate fam pheno).XtX00 = _
    rw [h, HEreg_size_eq fam n hrows hcols hn]
    push_cast
    rfl
  · show (HEreg_accumulate fam pheno).XtX10 = (HEreg_accumulate fam pheno).XtX01
    rw [h]
  · rw [hY1]
    congr 1
    apply List.map_congr_left
    intro e _
    ring
  · rw [h01]
    have := sum_upper_eq_dense fam.rows fam.cols fam.entries (fun _ _ => 1) n
    simp only [one_mul] at this
    exact this
  · rw [hY1]
    have := sum_upper_eq_dense fam.rows fam.cols fam.entries
      (fun i j => pheno.getD i 0 * pheno.getD j 0) n
    rw [this]
    refine Finset.sum_congr rfl (fun j _ => Finset.sum_congr rfl (fun i _ => ?_))
    rw [mul_comm]
  · intro hu
    rw [h11]
    exact sum_upper_sq_eq_dense fam hu n



/-- Witness of C7: the sample `3 x 3` GRM, whose strict upper triangle stores the single
entry `A_01 = 1/2`. -/
theorem HEreg_accumulate_normal_equations_witness :
    (HEreg_accumulate (sampleGRM ℚ) (samplePheno ℚ)).XtX00 = 9 ∧
    (HEreg_accumulate (sampleGRM ℚ) (samplePheno ℚ)).XtX01 = 1 / 2 := by
  have h := HEreg_accumulate_normal_equations (sampleGRM ℚ) (samplePheno ℚ) 3 rfl rfl rfl
    (by norm_num)
  refine ⟨?_, ?_⟩
  · rw [h.1]
    norm_num
  · rw [h.2.1]
    simp [sampleGRM]

/-- C9: whenever the accumulated `2 x 2` matrix `XtX` is nonsingular, Mode-A `HEreg` returns
`Vg = (size * XtY1 - XtX01 * XtY0) / (size * XtX11 - XtX01^2)`, the second component of the
solution `(b0, Vg)` of `XtX * b = XtY`, and sets `isSig` from the p-value of the statistic
`Vg^2 / (s2 * size / (size * XtX11 - XtX01^2))` with `s2 = (SSy - b^T XtY) / (size - 2)` and
`size = n * n`. -/
theorem HEreg_nonsingular_solution {K : Type} [LinearOrderedField K]
    (pchisqd1 : Dbl K → Dbl K) (fam : SpMat K) (pheno : List K)
    (n : Nat) (hrows : fam.rows = n) (hcols : fam.cols = n) (hlen : pheno.length = n)
    (hn : n < 2 ^ 32)
    (hdet : (HEreg_accumulate fam pheno).XtX00 * (HEreg_accumulate fam pheno).XtX11 -
      (HEreg_accumulate fam pheno).XtX01 * (HEreg_accumulate fam pheno).XtX10 ≠ 0) :
    let acc := HEreg_accumulate fam pheno
    let size : K := (n : K) * n
    let det := size * acc.XtX11 - acc.XtX01 ^ 2
    let b0 := (acc.XtX11 * acc.XtY0 - acc.XtX01 * acc.XtY1) / det
    let Vg := (size * acc.XtY1 - acc.XtX01 * acc.XtY0) / det
    let s2 := (acc.SSy - (b0 * acc.XtY0 + Vg * acc.XtY1)) / (size - 2)
    (acc.XtX00 * b0 + acc.XtX01 * Vg = acc.XtY0 ∧ acc.XtX10 * b0 + acc.XtX11 * Vg = acc.XtY1) ∧
    HEreg pchisqd1 fam pheno =
      (Dbl.fin Vg,
        !(Dbl.gt (pchisqd1 (Dbl.div (Dbl.fin (Vg ^ 2)) (Dbl.fin (s2 * size / det))))
          (Dbl.fin (5 / 100)))) := by
  intro acc size det b0 Vg s2
  have h := HEreg_accumulate_eq fam pheno (hlen.trans hcols.symm)
  have h00 : acc.XtX00 = size := by
    show (HEreg_accumulate fam pheno).XtX00 = _
    rw [h, HEreg_size_eq fam n hrows hcols hn]
    push_cast
    rfl
  have h10 : acc.XtX10 = acc.XtX01 := by
    show (HEreg_accumulate fam pheno).XtX10 = (HEreg_accumulate fam pheno).XtX01
    rw [h]
  have hn2 : 2 ≤ n := by
    by_contra hlt
    apply hdet
    have e := upper_eq_nil_of_le_one fam.entries n (by omega)
    rw [h, hcols, e]
    simp
  have hdet' : det ≠ 0 := by
    have : det = acc.XtX00 * acc.XtX11 - acc.XtX01 * acc.XtX10 := by
      simp only [det, h00, h10]
      ring
    rw [this]
    exact hdet
  have hdet2 : acc.XtX00 * acc.XtX11 - acc.XtX01 * acc.XtX10 = det := by
    simp only [det, h00, h10]
    ring
  refine ⟨⟨?_, ?_⟩, ?_⟩
  · rw [h00]
    simp only [b0, Vg]
    field_simp
    ring
  · rw [h10]
    simp only [b0, Vg]
    field_simp
    ring
  · have hsolve : HEreg_solve fam acc =
        (Vg, Dbl.div (Dbl.fin (Vg ^ 2)) (Dbl.fin (s2 * size / det))) := by
      simp only [HEreg_solve, HEreg_size_sub_two fam n hrows hcols hn hn2, hdet2]
      have e1 : -acc.XtX10 / det * acc.XtY0 + acc.XtX00 / det * acc.XtY1 = Vg := by
        simp only [Vg, h00, h10]
        field_simp
        ring
      have e0 : acc.XtX11 / det * acc.XtY0 + -acc.XtX01 / det * acc.XtY1 = b0 := by
        simp only [b0]
        field_simp
        ring
      rw [e1, e0, h00]
      have e2 : (acc.SSy - (b0 * acc.XtY0 + Vg * acc.XtY1)) / (size - 2) * (size / det) =
          s2 * size / det := by
        simp only [s2]
        ring
      rw [e2, pow_two]
    show HEreg pchisqd1 fam pheno = _
    simp only [HEreg]
    rw [if_neg hdet]
    show (if Dbl.gt (pchisqd1 (HEreg_solve fam acc).2) (Dbl.fin (5 / 100)) = true then
      (Dbl.fin (HEreg_solve fam acc).1, false) else (Dbl.fin (HEreg_solve fam acc).1, true)) = _
    rw [hsolve]
    cases Dbl.gt (pchisqd1 (Dbl.div (Dbl.fin (Vg ^ 2)) (Dbl.fin (s2 * size / det))))
      (Dbl.fin (5 / 100)) <;> simp


/-- Witness of C9: on the sample GRM and phenotype `XtX` has determinant `2` and
`Vg = 25/4`. -/
theorem HEreg_nonsingular_solution_witness :
    (HEreg (fun z => z) (sampleGRM ℚ) (samplePheno ℚ)).1 = Dbl.fin (25 / 4) := by
  have h := (HEreg_nonsingular_solution (fun z => z) (sampleGRM ℚ) (samplePheno ℚ) 3 rfl rfl rfl
    (by norm_num) (by rw [HEreg_accumulate_sample]; norm_num)).2
  rw [h, HEreg_accumulate_sample]
  norm_num


/-- C8 (counterexample): the `2 x 2` identity GRM stores no entry with `row < col`, yet for
`y = (1, 2)` Mode-A `HEreg` accumulates `XtY[0] = y_0 * y_1 = 2` and `SSy = 4`: the pair
`(0, 1)`, which is not stored, contributes to both. -/
theorem HEreg_accumulate_counts_unstored_pairs :
    (SpMat.identity 2 : SpMat ℚ).entries.filter (fun e => e.1 < e.2.1) = [] ∧
    (HEreg_accumulate (SpMat.identity 2) [(1 : ℚ), 2]).XtY0 = 2 ∧
    (HEreg_accumulate (SpMat.identity 2) [(1 : ℚ), 2]).SSy = 4 := by
  refine ⟨?_, ?_, ?_⟩
  · simp [SpMat.identity, List.range_succ]
  · simp [HEreg_accumulate, HEreg_step, HEreg_size, SpMat.identity, dot, List.range',
      List.range_succ]
  · simp [HEreg_accumulate, HEreg_step, HEreg_size, SpMat.identity, dot, List.range',
      List.range_succ]
    norm_num

/-- C8 (amended): in Mode-A `HEreg` the phenotype cross-product sums range over all pairs
`(i, j)` with `i < j < n`, stored in the sparse GRM or not: `XtY[0] = sum of y_i * y_j` and
`SSy = sum of (y_i * y_j)^2` over all `i < j`; they are the same for every GRM with the same
number of columns. -/
theorem HEreg_accumulate_pheno_sums_all_pairs {K : Type} [LinearOrderedField K] (fam : SpMat K)
    (pheno : List K) (hlen : pheno.length = fam.cols) :
    (HEreg_accumulate fam pheno).XtY0 =
      ∑ j in Finset.range fam.cols, ∑ i in Finset.range j, pheno.getD i 0 * pheno.getD j 0 ∧
    (HEreg_accumulate fam pheno).SSy =
      ∑ j in Finset.range fam.cols, ∑ i in Finset.range j,
        (pheno.getD i 0 * pheno.getD j 0) ^ 2 ∧
    ∀ fam2 : SpMat K, fam2.cols = fam.cols →
      (HEreg_accumulate fam2 pheno).XtY0 = (HEreg_accumulate fam pheno).XtY0 ∧
      (HEreg_accumulate fam2 pheno).SSy = (HEreg_accumulate fam pheno).SSy := by
  have h := HEreg_accumulate_eq fam pheno hlen
  refine ⟨by rw [h], ?_, ?_⟩
  · rw [h]
    simp only [pow_two]
  · intro fam2 hc
    have h2 := HEreg_accumulate_eq fam2 pheno (hlen.trans hc.symm)
    rw [h, h2, hc]
    exact ⟨rfl, rfl⟩

/-- Witness of C8 (amended): the sample GRM and phenotype, where all three pairs count:
`XtY[0] = 2 - 3 - 6` and `SSy = 4 + 9 + 36`. -/
theorem HEreg_accumulate_pheno_sums_all_pairs_witness :
    (HEreg_accumulate (sampleGRM ℚ) (samplePheno ℚ)).XtY0 = -7 ∧
    (HEreg_accumulate (sampleGRM ℚ) (samplePheno ℚ)).SSy = 49 := by
  have h := HEreg_accumulate_pheno_sums_all_pairs (sampleGRM ℚ) (samplePheno ℚ) rfl
  refine ⟨?_, ?_⟩
  · rw [h.1]
    simp [sampleGRM, samplePheno, Finset.sum_range_succ, getElem_cons_cons_one]
    norm_num
  · rw [h.2.1]
    simp [sampleGRM, samplePheno, Finset.sum_range_succ, getElem_cons_cons_one]
    norm_num

/-! ## Relabelling the samples -/

section PermutationLemmas

variable {K : Type} [LinearOrderedField K]

/-- Twice the sum of a symmetric function over the pairs `i < j < n` is its sum over all pairs
minus its sum over the diagonal. -/
theorem two_sum_upper (G : Nat → Nat → K) (hG : ∀ i j, G i j = G j i) (n : Nat) :
    (∑ j in Finset.range n, ∑ i in Finset.range j, G i j) +
      (∑ j in Finset.range n, ∑ i in Finset.range j, G i j) =
    (∑ j in Finset.range n, ∑ i in Finset.range n, G i j) - ∑ i in Finset.range n, G i i := by
  induction n with
  | zero => simp
  | succ n ih =>
    have hfull : ∑ j in Finset.range (n + 1), ∑ i in Finset.range (n + 1), G i j =
        (∑ j in Finset.range n, ∑ i in Finset.range n, G i j) +
          (∑ j in Finset.range n, G n j) + (∑ i in Finset.range n, G i n) + G n n := by
      rw [Finset.sum_range_succ]
      simp only [Finset.sum_range_succ, Finset.sum_add_distrib]
      ring
    have hsym : ∑ j in Finset.range n, G n j = ∑ i in Finset.range n, G i n :=
      Finset.sum_congr rfl (fun j _ => hG n j)
    rw [hfull, Finset.sum_range_succ (fun j => ∑ i in Finset.range j, G i j),
      Finset.sum_range_succ (fun i => G i i), hsym]
    linear_combination ih

/-- The sum of a symmetric function over the pairs `i < j < n` does not change when both
indices are relabelled by a permutation of `0 .. n-1`. -/
theorem sum_upper_perm (G : Nat → Nat → K) (hG : ∀ i j, G i j = G j i) (n : Nat)
    (tau : Equiv.Perm Nat) (htau : ∀ i, i < n ↔ tau i < n) :
    ∑ j in Finset.range n, ∑ i in Finset.range j, G (tau i) (tau j) =
      ∑ j in Finset.range n, ∑ i in Finset.range j, G i j := by
  have h1 := two_sum_upper (fun i j => G (tau i) (tau j)) (fun i j => hG _ _) n
  have h2 := two_sum_upper G hG n
  have hmem : ∀ i, i ∈ Finset.range n ↔ tau i ∈ Finset.range n := by
    intro i
    simp only [Finset.mem_range]
    exact htau i
  have hfull : ∑ j in Finset.range n, ∑ i in Finset.range n, G (tau i) (tau j) =
      ∑ j in Finset.range n, ∑ i in Finset.range n, G i j := by
    rw [Finset.sum_equiv tau hmem (fun j _ => rfl)
      (g := fun j => ∑ i in Finset.range n, G (tau i) j)]
    refine Finset.sum_congr rfl (fun j _ => ?_)
    exact Finset.sum_equiv tau hmem (fun i _ => rfl)
  have hdiag : ∑ i in Finset.range n, G (tau i) (tau i) = ∑ i in Finset.range n, G i i :=
    Finset.sum_equiv tau hmem (fun i _ => rfl)
  rw [hfull, hdiag, ← h2] at h1
  have h3 : (2 : K) * ∑ j in Finset.range n, ∑ i in Finset.range j, G (tau i) (tau j) =
      2 * ∑ j in Finset.range n, ∑ i in Finset.range j, G i j := by
    linear_combination h1
  exact mul_left_cancel₀ (two_ne_zero) h3

theorem coeff_permute (A : SpMat K) (sigma : Equiv.Perm Nat) (i j : Nat) :
    (A.permute sigma).coeff i j = A.coeff (sigma.symm i) (sigma.symm j) := by
  simp only [SpMat.coeff, SpMat.permute, List.filter_map, List.map_map]
  have hp : (fun e : Nat × Nat × K => decide (e.1 = i ∧ e.2.1 = j)) ∘
      (fun e : Nat × Nat × K => (sigma e.1, sigma e.2.1, e.2.2)) =
      (fun e : Nat × Nat × K => decide (e.1 = sigma.symm i ∧ e.2.1 = sigma.symm j)) := by
    funext e
    simp only [Function.comp, Equiv.eq_symm_apply]
  rw [hp]
  rfl

omit [LinearOrderedField K] in
theorem uniqueEntries_permute (A : SpMat K) (hA : A.UniqueEntries) (sigma : Equiv.Perm Nat) :
    (A.permute sigma).UniqueEntries := by
  simp only [SpMat.UniqueEntries, SpMat.permute, List.map_map] at *
  have : ((fun e : Nat × Nat × K => (e.1, e.2.1)) ∘
      fun e : Nat × Nat × K => (sigma e.1, sigma e.2.1, e.2.2)) =
      (Prod.map sigma sigma) ∘ (fun e : Nat × Nat × K => (e.1, e.2.1)) := by
    funext e
    rfl
  rw [this, ← List.map_map]
  exact List.Nodup.map (Function.Injective.prodMap sigma.injective sigma.injective) hA

theorem getD_permuteVec (tau : Nat → Nat) (y : List K) (k : Nat) (hk : k < y.length) :
    (permuteVec tau y).getD k 0 = y.getD (tau k) 0 := by
  simp [permuteVec, List.getD_eq_getElem?_getD, List.getElem?_range hk]

theorem length_permuteVec (tau : Nat → Nat) (y : List K) :
    (permuteVec tau y).length = y.length := by
  simp [permuteVec]

/-- Accumulators of Mode-A `HEreg` as sums over all pairs `i < j < n` of expressions in the
coefficients of `fam`, for a matrix with one stored entry per position. -/
theorem HEreg_accumulate_dense (fam : SpMat K) (pheno : List K) (hlen : pheno.length = fam.cols)
    (hu : fam.UniqueEntries) :
    HEreg_accumulate fam pheno =
      { XtX00 := (HEreg_size fam : K)
        XtX01 := ∑ j in Finset.range fam.cols, ∑ i in Finset.range j, fam.coeff i j
        XtX10 := ∑ j in Finset.range fam.cols, ∑ i in Finset.range j, fam.coeff i j
        XtX11 := ∑ j in Finset.range fam.cols, ∑ i in Finset.range j,
          fam.coeff i j * fam.coeff i j
        XtY0 := ∑ j in Finset.range fam.cols, ∑ i in Finset.range j,
          pheno.getD i 0 * pheno.getD j 0
        XtY1 := ∑ j in Finset.range fam.cols, ∑ i in Finset.range j,
          pheno.getD i 0 * pheno.getD j 0 * fam.coeff i j
        SSy := ∑ j in Finset.range fam.cols, ∑ i in Finset.range j,
          (pheno.getD i 0 * pheno.getD j 0) * (pheno.getD i 0 * pheno.getD j 0) } := by
  rw [HEreg_accumulate_eq fam pheno hlen, sum_upper_sq_eq_dense fam hu,
    sum_upper_eq_dense fam.rows fam.cols fam.entries
      (fun i j => pheno.getD i 0 * pheno.getD j 0)]
  have h1 := sum_upper_eq_dense fam.rows fam.cols fam.entries (fun _ _ => (1 : K)) fam.cols
  simp only [one_mul] at h1
  rw [h1]


end PermutationLemmas

/-- C10: for a symmetric GRM `fam` with `n` columns (one stored entry per position), a
phenotype of length `n` and a permutation `sigma` of the samples `0 .. n-1`, Mode-A `HEreg` on
the permuted pair `(P A P^T, P y)` accumulates the same `XtX`, `XtY` and `SSy` as on `(A, y)`,
and therefore returns the same `Vg` and the same `isSig`. -/
theorem HEreg_permutation_invariant {K : Type} [LinearOrderedField K]
    (pchisqd1 : Dbl K → Dbl K) (fam : SpMat K)
    (pheno : List K) (n : Nat) (hcols : fam.cols = n)
    (hlen : pheno.length = n) (hu : fam.UniqueEntries) (hsym : fam.Symmetric)
    (sigma : Equiv.Perm Nat) (hsigma : ∀ i, i < n ↔ sigma i < n) :
    HEreg_accumulate (fam.permute sigma) (permuteVec sigma.symm pheno) =
      HEreg_accumulate fam pheno ∧
    HEreg pchisqd1 (fam.permute sigma) (permuteVec sigma.symm pheno) =
      HEreg pchisqd1 fam pheno := by
  have htau : ∀ i, i < n ↔ sigma.symm i < n := by
    intro i
    have := hsigma (sigma.symm i)
    rw [Equiv.apply_symm_apply] at this
    exact this.symm
  have hacc : HEreg_accumulate (fam.permute sigma) (permuteVec sigma.symm pheno) =
      HEreg_accumulate fam pheno := by
    rw [HEreg_accumulate_dense fam pheno (hlen.trans hcols.symm) hu,
      HEreg_accumulate_dense (fam.permute sigma) (permuteVec sigma.symm pheno)
        (by rw [length_permuteVec]; exact hlen.trans hcols.symm)
        (uniqueEntries_permute fam hu sigma)]
    have hc : (fam.permute sigma).cols = n := hcols
    have hsz : HEreg_size (fam.permute sigma) = HEreg_size fam := rfl
    rw [hc, hcols, hsz]
    have hy : ∀ j, j ∈ Finset.range n → ∀ i, i ∈ Finset.range j →
        (permuteVec sigma.symm pheno).getD i 0 * (permuteVec sigma.symm pheno).getD j 0 =
          pheno.getD (sigma.symm i) 0 * pheno.getD (sigma.symm j) 0 := by
      intro j hj i hi
      have hj' := Finset.mem_range.mp hj
      have hi' := Finset.mem_range.mp hi
      rw [getD_permuteVec _ _ _ (by omega), getD_permuteVec _ _ _ (by omega)]
    have e01 : ∑ j in Finset.range n, ∑ i in Finset.range j, (fam.permute sigma).coeff i j =
        ∑ j in Finset.range n, ∑ i in Finset.range j, fam.coeff i j := by
      simp only [coeff_permute]
      exact sum_upper_perm (fun i j => fam.coeff i j) hsym n sigma.symm htau
    have e11 : ∑ j in Finset.range n, ∑ i in Finset.range j,
          (fam.permute sigma).coeff i j * (fam.permute sigma).coeff i j =
        ∑ j in Finset.range n, ∑ i in Finset.range j, fam.coeff i j * fam.coeff i j := by
      simp only [coeff_permute]
      exact sum_upper_perm (fun i j => fam.coeff i j * fam.coeff i j)
        (fun i j => by beta_reduce; rw [hsym i j]) n sigma.symm htau
    have eY0 : ∑ j in Finset.range n, ∑ i in Finset.range j,
          (permuteVec sigma.symm pheno).getD i 0 * (permuteVec sigma.symm pheno).getD j 0 =
        ∑ j in Finset.range n, ∑ i in Finset.range j, pheno.getD i 0 * pheno.getD j 0 := by
      rw [Finset.sum_congr rfl (fun j hj => Finset.sum_congr rfl (fun i hi => hy j hj i hi))]
      exact sum_upper_perm (fun i j => pheno.getD i 0 * pheno.getD j 0)
        (fun i j => mul_comm _ _) n sigma.symm htau
    have eY1 : ∑ j in Finset.range n, ∑ i in Finset.range j,
          (permuteVec sigma.symm pheno).getD i 0 * (permuteVec sigma.symm pheno).getD j 0 *
            (fam.permute sigma).coeff i j =
        ∑ j in Finset.range n, ∑ i in Finset.range j,
          pheno.getD i 0 * pheno.getD j 0 * fam.coeff i j := by
      rw [Finset.sum_congr rfl (fun j hj => Finset.sum_congr rfl (fun i hi => by
        rw [hy j hj i hi, coeff_permute]))]
      exact sum_upper_perm (fun i j => pheno.getD i 0 * pheno.getD j 0 * fam.coeff i j)
        (fun i j => by beta_reduce; rw [hsym i j, mul_comm (pheno.getD i 0)]) n sigma.symm htau
    have eSS : ∑ j in Finset.range n, ∑ i in Finset.range j,
          (permuteVec sigma.symm pheno).getD i 0 * (permuteVec sigma.symm pheno).getD j 0 *
            ((permuteVec sigma.symm pheno).getD i 0 * (permuteVec sigma.symm pheno).getD j 0) =
        ∑ j in Finset.range n, ∑ i in Finset.range j,
          pheno.getD i 0 * pheno.getD j 0 * (pheno.getD i 0 * pheno.getD j 0) := by
      rw [Finset.sum_congr rfl (fun j hj => Finset.sum_congr rfl (fun i hi => by
        rw [hy j hj i hi]))]
      exact sum_upper_perm
        (fun i j => pheno.getD i 0 * pheno.getD j 0 * (pheno.getD i 0 * pheno.getD j 0))
        (fun i j => by beta_reduce; rw [mul_comm (pheno.getD i 0)]) n sigma.symm htau
    rw [e01, e11, eY0, eY1, eSS]
  refine ⟨hacc, ?_⟩
  simp only [HEreg, hacc]
  rfl

/-- Witness of C10: the sample GRM and phenotype with samples `0` and `2` exchanged. -/
theorem HEreg_permutation_invariant_witness :
    HEreg_accumulate ((sampleGRM ℚ).permute (Equiv.swap 0 2))
        (permuteVec (Equiv.swap 0 2).symm (samplePheno ℚ)) =
      { XtX00 := 9, XtX01 := 1 / 2, XtX10 := 1 / 2, XtX11 := 1 / 4, XtY0 := -7, XtY1 := 1,
        SSy := 49 } := by
  have hu : (sampleGRM ℚ).UniqueEntries := by
    simp only [SpMat.UniqueEntries, sampleGRM, List.map_cons, List.map_nil]
    decide
  have hsym : (sampleGRM ℚ).Symmetric := by
    intro i j
    rcases i with _ | _ | _ | i <;> rcases j with _ | _ | _ | j <;>
      simp [SpMat.coeff, sampleGRM, List.filter_cons]
  have hsigma : ∀ i, i < 3 ↔ (Equiv.swap 0 2 : Equiv.Perm Nat) i < 3 := by
    intro i
    rcases i with _ | _ | _ | i <;> simp [Equiv.swap_apply_def]
  rw [(HEreg_permutation_invariant (fun z => z) (sampleGRM ℚ) (samplePheno ℚ) 3 rfl rfl hu hsym
    (Equiv.swap 0 2) hsigma).1]
  exact HEreg_accumulate_sample

/-! ## Mode-A HE regression on a GRM without off-diagonal entries -/

/-- The sparse identity stores no entry above the diagonal. -/
theorem identity_upper_nil {K : Type} [LinearOrderedField K] (n m : Nat) :
    (SpMat.identity n : SpMat K).entries.filter (fun e => e.1 < e.2.1 ∧ e.2.1 < m) = [] := by
  rw [List.filter_eq_nil_iff]
  intro e he hp
  simp only [SpMat.identity, List.mem_map] at he
  obtain ⟨i, _, rfl⟩ := he
  simp at hp

/-- C11 (counterexample): for `A = I` (`2 x 2`) and `y = (1, 2)` Mode-A `HEreg` returns `NaN`,
not `0`, whatever `pchisqd1` is: `XtX` is singular and the function returns before any
estimate or standard error is computed. -/
theorem HEreg_identity_returns_nan :
    (HEreg (fun z => z) (SpMat.identity 2) [(1 : ℚ), 2]).1 = Dbl.nan ∧
    Dbl.isNaN (HEreg (fun z => z) (SpMat.identity 2) [(1 : ℚ), 2]).1 = true ∧
    (∀ pchisqd1 : Dbl ℚ → Dbl ℚ,
      HEreg pchisqd1 (SpMat.identity 2) [(1 : ℚ), 2] = (Dbl.nan, false)) := by
  have h : ∀ pchisqd1 : Dbl ℚ → Dbl ℚ,
      HEreg pchisqd1 (SpMat.identity 2) [(1 : ℚ), 2] = (Dbl.nan, false) := by
    intro pchisqd1
    simp [HEreg, HEreg_accumulate, HEreg_step, HEreg_size, SpMat.identity, dot, List.range',
      List.range_succ]
  refine ⟨?_, ?_, h⟩
  · rw [h]
  · rw [h]
    rfl

/-- C11 (amended): when `A` stores no entry above the diagonal (`A = I` in particular), for
every phenotype `y` Mode-A `HEreg` accumulates `XtX(0,1) = XtX(1,1) = 0`, finds `XtX`
singular, returns `NaN` as `Vg` without computing a standard error or a p-value, and sets
`isSig` to false. -/
theorem HEreg_no_offdiagonal_is_singular {K : Type} [LinearOrderedField K]
    (pchisqd1 : Dbl K → Dbl K) (fam : SpMat K) (pheno : List K)
    (hlen : pheno.length = fam.cols)
    (hupper : fam.entries.filter (fun e => e.1 < e.2.1 ∧ e.2.1 < fam.cols) = []) :
    (HEreg_accumulate fam pheno).XtX01 = 0 ∧ (HEreg_accumulate fam pheno).XtX11 = 0 ∧
    (HEreg_accumulate fam pheno).XtX00 * (HEreg_accumulate fam pheno).XtX11 -
      (HEreg_accumulate fam pheno).XtX01 * (HEreg_accumulate fam pheno).XtX10 = 0 ∧
    HEreg pchisqd1 fam pheno = (Dbl.nan, false) := by
  have h := HEreg_accumulate_eq fam pheno hlen
  rw [hupper] at h
  have h01 : (HEreg_accumulate fam pheno).XtX01 = 0 := by rw [h]; rfl
  have h10 : (HEreg_accumulate fam pheno).XtX10 = 0 := by rw [h]; rfl
  have h11 : (HEreg_accumulate fam pheno).XtX11 = 0 := by rw [h]; rfl
  have hres : HEreg pchisqd1 fam pheno = (Dbl.nan, false) := by
    simp only [HEreg, h01, h10, h11, mul_zero, sub_zero, if_true]
  refine ⟨h01, h11, ?_, hres⟩
  rw [h01, h11]
  ring

/-- Witness of C11 (amended): the `3 x 3` identity with the sample phenotype. -/
theorem HEreg_no_offdiagonal_is_singular_witness :
    HEreg (fun z => z) (SpMat.identity 3) (samplePheno ℚ) = (Dbl.nan, false) :=
  (HEreg_no_offdiagonal_is_singular (fun z => z) (SpMat.identity 3) (samplePheno ℚ) rfl
    (identity_upper_nil 3 3)).2.2.2

/-! ## Haseman-Elston regression, Mode B -/

section HEpairsLemmas

variable {K : Type} [LinearOrderedField K]

theorem foldl_collect_pair (phenoVec : List K) (l : List (Nat × Nat × K)) (acc : List K × List K) :
    l.foldl (collect_pair phenoVec) acc =
      (acc.1 ++ (l.filter (fun e => e.1 < e.2.1)).map (fun e => e.2.2),
       acc.2 ++ (l.filter (fun e => e.1 < e.2.1)).map
        (fun e => phenoVec.getD e.1 0 * phenoVec.getD e.2.1 0)) := by
  induction l generalizing acc with
  | nil => simp
  | cons e l ih =>
    rw [List.foldl_cons, ih]
    by_cases h : e.1 < e.2.1
    · simp [collect_pair, h, List.filter_cons]
    · simp [collect_pair, h, List.filter_cons]

/-- The Mode-B collection loop keeps exactly the stored entries with `row < col`, in storage
order. -/
theorem collect_pairs_eq (fam : SpMat K) (phenoVec : List K) :
    collect_pairs fam phenoVec =
      ((fam.entries.filter (fun e => e.1 < e.2.1)).map (fun e => e.2.2),
       (fam.entries.filter (fun e => e.1 < e.2.1)).map
        (fun e => phenoVec.getD e.1 0 * phenoVec.getD e.2.1 0)) := by
  simp [collect_pairs, foldl_collect_pair]

theorem HEreg_pairs_eq (sqrtK : K → K) (pchisqd1 : Dbl K → Dbl K) (Zij Aij : List K)
    (hlen : Zij.length = Aij.length) :
    let m : K := (Aij.length : K)
    let abar := Aij.sum / m
    let zbar := Zij.sum / m
    let Saa := (Aij.map (fun a => (a - abar) ^ 2)).sum
    let Saz := (List.zipWith (fun a z => (a - abar) * (z - zbar)) Aij Zij).sum
    let Vg := Saz / Saa
    let rss := (List.zipWith (fun a z => ((z - zbar) - (a - abar) * Vg) ^ 2) Aij Zij).sum
    let delta := Dbl.div (Dbl.fin rss) (Dbl.fin (m - 2))
    let SE := Dbl.sqrt sqrtK (Dbl.div delta (Dbl.fin Saa))
    let z := Dbl.div (Dbl.fin Vg) SE
    HEreg_pairs sqrtK pchisqd1 Zij Aij =
      if Saa < 1 / 1000000 then Except.error (Failure.error "cannot solve the regression")
      else Except.ok (Dbl.fin Vg, !(Dbl.gt (pchisqd1 (Dbl.mul z z)) (Dbl.fin (5 / 100)))) := by
  intro m abar zbar Saa Saz Vg rss delta SE z
  have hA2v : dot (Aij.map (fun v => v - Aij.sum / (Aij.length : K)))
      (Aij.map (fun v => v - Aij.sum / (Aij.length : K))) = Saa := by
    rw [dot_map_self]
    simp only [Saa, abar, m, pow_two]
  have hAZ : dot (Aij.map (fun v => v - Aij.sum / (Aij.length : K)))
      (Zij.map (fun v => v - Zij.sum / (Zij.length : K))) = Saz := by
    simp only [dot, List.zipWith_map, Saz, abar, zbar, m, hlen]
  have hhsq : 1 / Saa * Saz = Vg := by
    simp only [Vg]
    ring
  have hrz : ((List.zipWith (fun z a => z - a * Vg)
      (Zij.map (fun v => v - Zij.sum / (Zij.length : K)))
      (Aij.map (fun v => v - Aij.sum / (Aij.length : K)))).map (fun v => v * v)).sum = rss := by
    simp only [List.zipWith_map, List.map_zipWith, rss, abar, zbar, m, hlen, pow_two]
    rw [List.zipWith_comm]
  have hlenrz : ((((List.zipWith (fun z a => z - a * Vg)
      (Zij.map (fun v => v - Zij.sum / (Zij.length : K)))
      (Aij.map (fun v => v - Aij.sum / (Aij.length : K)))).length : Int) - 2 : Int) : K)
      = m - 2 := by
    simp only [List.length_zipWith, List.length_map, hlen, min_self, m]
    push_cast
    rfl
  simp only [HEreg_pairs, hA2v, hAZ, hhsq, hrz, hlenrz]
  by_cases hs : Saa < 1 / 1000000
  · simp only [if_pos hs]
  · simp only [if_neg hs]
    cases Dbl.gt (pchisqd1 (Dbl.mul z z)) (Dbl.fin (5 / 100)) <;> rfl

end HEpairsLemmas

/-- C13: in Mode B the constructor collects `(A_ij, y_i * y_j)` for exactly the stored
entries of `A` with `row < col`, in storage order, and `HEreg(Zij, Aij)` on those `m` pairs
fails with `LOGGER.e` exactly when `sum (a_k - mean a)^2 < 1e-6`; otherwise it returns
`Vg = sum (a_k - mean a)(z_k - mean z) / sum (a_k - mean a)^2`, and sets `isSig` from the
p-value of `(Vg / SE)^2` with `SE = sqrt(delta / sum (a_k - mean a)^2)` and
`delta = (sum of squared residuals of the centered fit) / (m - 2)`. -/
theorem HEreg_pairs_related_only {K : Type} [LinearOrderedField K] (sqrtK : K → K)
    (pchisqd1 : Dbl K → Dbl K) (opts : Options K) (fam : SpMat K) (phenoVec : List K)
    (hrel : opts.rel_only = true) :
    let related := fam.entries.filter (fun e => e.1 < e.2.1)
    let Aij := related.map (fun e => e.2.2)
    let Zij := related.map (fun e => phenoVec.getD e.1 0 * phenoVec.getD e.2.1 0)
    let m : K := (related.length : K)
    let abar := Aij.sum / m
    let zbar := Zij.sum / m
    let Saa := (Aij.map (fun a => (a - abar) ^ 2)).sum
    let Saz := (List.zipWith (fun a z => (a - abar) * (z - zbar)) Aij Zij).sum
    let Vg := Saz / Saa
    let rss := (List.zipWith (fun a z => ((z - zbar) - (a - abar) * Vg) ^ 2) Aij Zij).sum
    let delta := Dbl.div (Dbl.fin rss) (Dbl.fin (m - 2))
    let SE := Dbl.sqrt sqrtK (Dbl.div delta (Dbl.fin Saa))
    let z := Dbl.div (Dbl.fin Vg) SE
    collect_pairs fam phenoVec = (Aij, Zij) ∧
    estimate_VG sqrtK pchisqd1 opts fam phenoVec = HEreg_pairs sqrtK pchisqd1 Zij Aij ∧
    ((∃ f, HEreg_pairs sqrtK pchisqd1 Zij Aij = Except.error f) ↔ Saa < 1 / 1000000) ∧
    (¬ Saa < 1 / 1000000 →
      HEreg_pairs sqrtK pchisqd1 Zij Aij =
        Except.ok (Dbl.fin Vg, !(Dbl.gt (pchisqd1 (Dbl.mul z z)) (Dbl.fin (5 / 100))))) := by
  intro related Aij Zij m abar zbar Saa Saz Vg rss delta SE z
  have hc := collect_pairs_eq fam phenoVec
  have hA : Aij.length = related.length := by simp [Aij]
  have h := HEreg_pairs_eq sqrtK pchisqd1 Zij Aij (by simp [Aij, Zij])
  simp only [hA] at h
  refine ⟨hc, ?_, ?_, ?_⟩
  · simp only [estimate_VG, hrel, if_true, hc]
  · rw [h]
    by_cases hs : Saa < 1 / 1000000
    · simp only [if_pos hs, hs, iff_true]
      exact ⟨_, rfl⟩
    · simp only [if_neg hs, hs, iff_false]
      rintro ⟨f, hf⟩
      cases hf
  · intro hs
    rw [h, if_neg hs]

/-- Witness of C13: the sample GRM with three related pairs under `--rel-only`, where
`Vg = 148/7`. -/
theorem HEreg_pairs_related_only_witness :
    collect_pairs (relatedGRM ℝ) (samplePheno ℝ) = ([1 / 2, 1 / 4, 1 / 8], [2, -3, -6]) ∧
    ∃ b, estimate_VG Real.sqrt (fun z => z) (relOnlyOptions ℝ) (relatedGRM ℝ)
      (samplePheno ℝ) = Except.ok (Dbl.fin (148 / 7), b) := by
  have h := HEreg_pairs_related_only Real.sqrt (fun z => z) (relOnlyOptions ℝ) (relatedGRM ℝ)
    (samplePheno ℝ) rfl
  have hc : collect_pairs (relatedGRM ℝ) (samplePheno ℝ) =
      ([1 / 2, 1 / 4, 1 / 8], [2, -3, -6]) := by
    rw [h.1]
    simp [relatedGRM, samplePheno, List.filter_cons, getElem_cons_cons_one]
    norm_num
  refine ⟨hc, ?_⟩
  have e := Prod.ext_iff.mp (h.1.symm.trans hc)
  simp only at e
  rw [h.2.1, e.1, e.2]
  simp only [HEreg_pairs]
  norm_num [dot]

section SignificanceLemmas
variable {K : Type} [LinearOrderedField K]

theorem not_gt_iff_le (p : Dbl K) (c : K) (hp : Dbl.isNaN p = false) :
    (!(Dbl.gt p (Dbl.fin c))) = true ↔ Dbl.le p (Dbl.fin c) = true := by
  cases p with
  | fin a => simp [Dbl.gt, Dbl.lt, Dbl.le]
  | pinf => simp [Dbl.gt, Dbl.lt, Dbl.le]
  | ninf => simp [Dbl.gt, Dbl.lt, Dbl.le]
  | nan => simp [Dbl.isNaN] at hp

theorem HEreg_isSig (pchisqd1 : Dbl K → Dbl K) (fam : SpMat K) (pheno : List K) :
    (HEreg pchisqd1 fam pheno).2 =
      (decide ((HEreg_accumulate fam pheno).XtX00 * (HEreg_accumulate fam pheno).XtX11 -
        (HEreg_accumulate fam pheno).XtX01 * (HEreg_accumulate fam pheno).XtX10 ≠ 0) &&
      !(Dbl.gt (pchisqd1 (HEreg_solve fam (HEreg_accumulate fam pheno)).2)
        (Dbl.fin (5 / 100)))) := by
  simp only [HEreg]
  split_ifs <;> simp_all

theorem HEreg_pairs_isSig (sqrtK : K → K) (pchisqd1 : Dbl K → Dbl K) (Zij Aij : List K)
    (r : Dbl K × Bool) (h : HEreg_pairs sqrtK pchisqd1 Zij Aij = Except.ok r) :
    r.2 = !(Dbl.gt (HEreg_pairs_p sqrtK pchisqd1 Zij Aij) (Dbl.fin (5 / 100))) := by
  simp only [HEreg_pairs] at h
  simp only [HEreg_pairs_p]
  split_ifs at h with h1 h2
  · cases h
    rw [h2]
    rfl
  · cases h
    rw [Bool.not_eq_true] at h2
    rw [h2]
    rfl

omit [LinearOrderedField K] in
theorem fallback_to_gwa_ok (opts : Options K) (files : Files K)
    (hio : opts.save_inv = true → files.grm_id_out_opened = true) :
    ∃ R, fallback_to_gwa opts files = Except.ok R ∧ R.fam_flag = false ∧
      R.V_inverse = SpMat.empty ∧ R.fam = SpMat.empty := by
  simp only [fallback_to_gwa]
  by_cases hs : opts.save_inv = true
  · simp [hs, hio hs]
  · simp [hs]

omit [LinearOrderedField K] in
theorem save_inverse_ok (opts : Options K) (files : Files K) (fam V : SpMat K)
    (ids : List String)
    (hio : opts.save_inv = true →
      files.grm_id_out_opened = true ∧ files.grm_inv_out_written = true) :
    ∃ R, save_inverse opts files fam V ids = Except.ok R ∧ R.fam_flag = true ∧
      R.V_inverse = V := by
  simp only [save_inverse]
  by_cases hs : opts.save_inv = true
  · simp [hs, (hio hs).1, (hio hs).2]
  · simp [hs]

theorem constructor_variance_not_sig (sqrtK : K → K) (pchisqd1 : Dbl K → Dbl K)
    (inverseFAM : SpMat K → Dbl K → Dbl K → Except Failure (SpMat K × SpMat K))
    (opts : Options K) (files : Files K) (fam : SpMat K) (phenoVec : List K)
    (ids : List String) (VG : Dbl K)
    (hgrm : opts.grmsparse_file = true) (hinv : opts.inv_file = false) (hge : opts.ge = none)
    (h : estimate_VG sqrtK pchisqd1 opts fam phenoVec = Except.ok (VG, false)) :
    constructor_variance sqrtK pchisqd1 inverseFAM opts files fam phenoVec ids =
      fallback_to_gwa opts files := by
  simp [constructor_variance, hgrm, hinv, hge, h]

theorem constructor_variance_sig (sqrtK : K → K) (pchisqd1 : Dbl K → Dbl K)
    (inverseFAM : SpMat K → Dbl K → Dbl K → Except Failure (SpMat K × SpMat K))
    (opts : Options K) (files : Files K) (fam : SpMat K) (phenoVec : List K)
    (ids : List String) (VG : Dbl K)
    (hgrm : opts.grmsparse_file = true) (hinv : opts.inv_file = false) (hge : opts.ge = none)
    (h : estimate_VG sqrtK pchisqd1 opts fam phenoVec = Except.ok (VG, true)) :
    constructor_variance sqrtK pchisqd1 inverseFAM opts files fam phenoVec ids =
      match inverseFAM fam VG (Dbl.sub (Vpheno phenoVec) VG) with
      | Except.error f => Except.error f
      | Except.ok (V, V_inverse) => save_inverse opts files V V_inverse ids := by
  simp only [constructor_variance, hgrm, hinv, hge, h, Vpheno]
  generalize inverseFAM fam VG _ = r
  cases r with
  | error f => rfl
  | ok v => rfl

end SignificanceLemmas

theorem HEreg_identity_sample (pchisqd1 : Dbl ℚ → Dbl ℚ) :
    HEreg pchisqd1 (SpMat.identity 2) [(1 : ℚ), 2] = (Dbl.nan, false) := by
  simp [HEreg, HEreg_accumulate, HEreg_step, HEreg_size, SpMat.identity, dot, List.range',
    List.range_succ]


/-- Claim C12 (counter-example).  With `--save-inv`, a run whose HE estimate is not significant
(here `A = I`, two samples) ends the constructor with `fam_flag = false`, both matrices
emptied and the id file `--fastGWA`, for every `inverseFAM`; but `processMain` then returns
before registering an engine, so `calculate_gwa` is not dispatched, and with a significant
estimate `calculate_fam` is not dispatched either. -/
theorem processMain_save_inv_dispatches_nothing :
    (∀ inverseFAM, constructor_variance (fun x => x) (fun z => z) inverseFAM (saveInvOptions ℚ)
      (writableFiles ℚ) (SpMat.identity 2) [1, 2] ["a", "b"] =
      Except.ok { fam_flag := false, fam := SpMat.empty, V_inverse := SpMat.empty,
                  grm_id_out := some ["--fastGWA"], grm_inv_out := none }) ∧
    processMain_dispatch (saveInvOptions ℚ) false = none ∧
    processMain_dispatch (saveInvOptions ℚ) false ≠ some Engine.calculate_gwa ∧
    processMain_dispatch (saveInvOptions ℚ) true = none ∧
    processMain_dispatch (saveInvOptions ℚ) true ≠ some Engine.calculate_fam := by
  refine ⟨?_, ?_, ?_, ?_, ?_⟩
  · intro inverseFAM
    rw [constructor_variance_not_sig (fun x => x) (fun z => z) inverseFAM (saveInvOptions ℚ)
      (writableFiles ℚ) (SpMat.identity 2) [1, 2] ["a", "b"] Dbl.nan rfl rfl rfl]
    · simp [fallback_to_gwa, saveInvOptions, writableFiles]
    · simp only [estimate_VG, saveInvOptions]
      simp [HEreg_identity_sample]
  all_goals simp [processMain_dispatch, saveInvOptions]
section SignificanceClaim
variable {K : Type} [LinearOrderedField K]

/-- Claim C12 (amended).  For a run with a sparse GRM, no loaded inverse and no preset
variances, whose output files can be written: the significance flag is `false` exactly when the
HE p-value is above 0.05 (Mode A: or `XtX` is singular), so for a p-value that is a number it
is `true` exactly when `p <= 0.05`; when the flag is `false` the constructor ends, for every
`inverseFAM`, with `fam_flag = false` and `V_inverse` emptied to `0 x 0`; when it is `true`
the value of `inverseFAM` is kept as `V_inverse` with `fam_flag = true` (its error ends the
run); `processMain` registers nothing under `save_inv` and otherwise `calculate_gwa` in the
first case and `calculate_fam` in the second. -/
theorem constructor_significance_dispatch (sqrtK : K → K) (pchisqd1 : Dbl K → Dbl K)
    (inverseFAM : SpMat K → Dbl K → Dbl K → Except Failure (SpMat K × SpMat K))
    (opts : Options K) (files : Files K) (fam : SpMat K) (phenoVec : List K)
    (remain_ids_fam : List String)
    (hgrm : opts.grmsparse_file = true) (hinv : opts.inv_file = false) (hge : opts.ge = none)
    (hio : opts.save_inv = true →
      files.grm_id_out_opened = true ∧ files.grm_inv_out_written = true) :
    (opts.rel_only = false → ∃ VG, estimate_VG sqrtK pchisqd1 opts fam phenoVec =
      Except.ok (VG,
        decide ((HEreg_accumulate fam phenoVec).XtX00 * (HEreg_accumulate fam phenoVec).XtX11 -
          (HEreg_accumulate fam phenoVec).XtX01 * (HEreg_accumulate fam phenoVec).XtX10 ≠ 0) &&
        !(Dbl.gt (pchisqd1 (HEreg_solve fam (HEreg_accumulate fam phenoVec)).2)
          (Dbl.fin (5 / 100))))) ∧
    (opts.rel_only = true → ∀ r, estimate_VG sqrtK pchisqd1 opts fam phenoVec = Except.ok r →
      r.2 = !(Dbl.gt (HEreg_pairs_p sqrtK pchisqd1 (collect_pairs fam phenoVec).2
        (collect_pairs fam phenoVec).1) (Dbl.fin (5 / 100)))) ∧
    (∀ p : Dbl K, Dbl.isNaN p = false →
      ((!(Dbl.gt p (Dbl.fin (5 / 100)))) = true ↔ Dbl.le p (Dbl.fin (5 / 100)) = true)) ∧
    (∀ VG, estimate_VG sqrtK pchisqd1 opts fam phenoVec = Except.ok (VG, false) →
      ∃ R, (∀ inverseFAM2, constructor_variance sqrtK pchisqd1 inverseFAM2 opts files fam
          phenoVec remain_ids_fam = Except.ok R) ∧
        R.fam_flag = false ∧ R.V_inverse = SpMat.empty ∧
        processMain_dispatch opts R.fam_flag =
          if opts.save_inv then none else some Engine.calculate_gwa) ∧
    (∀ VG, estimate_VG sqrtK pchisqd1 opts fam phenoVec = Except.ok (VG, true) →
      (∀ f, inverseFAM fam VG (Dbl.sub (Vpheno phenoVec) VG) = Except.error f →
        constructor_variance sqrtK pchisqd1 inverseFAM opts files fam phenoVec
          remain_ids_fam = Except.error f) ∧
      (∀ V V_inverse, inverseFAM fam VG (Dbl.sub (Vpheno phenoVec) VG) =
          Except.ok (V, V_inverse) →
        ∃ R, constructor_variance sqrtK pchisqd1 inverseFAM opts files fam phenoVec
            remain_ids_fam = Except.ok R ∧
          R.fam_flag = true ∧ R.V_inverse = V_inverse ∧
          processMain_dispatch opts R.fam_flag =
            if opts.save_inv then none else some Engine.calculate_fam)) := by
  refine ⟨?_, ?_, ?_, ?_, ?_⟩
  · intro hrel
    refine ⟨(HEreg pchisqd1 fam phenoVec).1, ?_⟩
    simp only [estimate_VG, hrel, Bool.false_eq_true, if_false]
    rw [← HEreg_isSig]
  · intro hrel r h
    simp only [estimate_VG, hrel, if_true] at h
    exact HEreg_pairs_isSig sqrtK pchisqd1 _ _ r h
  · intro p hp
    exact not_gt_iff_le p _ hp
  · intro VG h
    obtain ⟨R, hR, hflag, hV, _⟩ := fallback_to_gwa_ok opts files (fun hs => (hio hs).1)
    refine ⟨R, ?_, hflag, hV, ?_⟩
    · intro inverseFAM2
      rw [constructor_variance_not_sig sqrtK pchisqd1 inverseFAM2 opts files fam phenoVec
        remain_ids_fam VG hgrm hinv hge h, hR]
    · simp [processMain_dispatch, hflag]
  · intro VG h
    have hc := constructor_variance_sig sqrtK pchisqd1 inverseFAM opts files fam phenoVec
      remain_ids_fam VG hgrm hinv hge h
    refine ⟨?_, ?_⟩
    · intro f hf
      rw [hc, hf]
    · intro V V_inverse hV
      obtain ⟨R, hR, hflag, hVi⟩ := save_inverse_ok opts files V V_inverse remain_ids_fam hio
      refine ⟨R, ?_, hflag, hVi, ?_⟩
      · rw [hc, hV]
        exact hR
      · simp [processMain_dispatch, hflag, hgrm]

end SignificanceClaim

/-- Claim C12 (witness): the run with the identity GRM of two samples and phenotype `(1, 2)`. -/
theorem constructor_significance_dispatch_witness :
    ∃ R, (∀ inverseFAM2, constructor_variance (fun x => x) (fun z => z) inverseFAM2
        (grmOptions ℚ) (writableFiles ℚ) (SpMat.identity 2) [1, 2] ["a", "b"] = Except.ok R) ∧
      R.fam_flag = false ∧ R.V_inverse = SpMat.empty ∧
      processMain_dispatch (grmOptions ℚ) R.fam_flag = some Engine.calculate_gwa := by
  have h := (constructor_significance_dispatch (fun x => x) (fun z => z)
    (fun _ _ _ => Except.error (Failure.error "not called")) (grmOptions ℚ) (writableFiles ℚ)
    (SpMat.identity 2) [1, 2] ["a", "b"] rfl rfl rfl (by simp [grmOptions])).2.2.2.1 Dbl.nan
    (by
      simp only [estimate_VG, grmOptions]
      simp [HEreg_identity_sample])
  simpa [grmOptions] using h

section LoadLemmas

/-- The id loop passes over lines that repeat the canonical ids. -/
theorem check_ids_take_append (ids rest : List String) (j k : Nat)
    (h : k + j ≤ ids.length) :
    check_ids ids ((ids.drop k).take j ++ rest) k = check_ids ids rest (k + j) := by
  induction j generalizing k with
  | zero => simp
  | succ j ih =>
    have hk : k < ids.length := by omega
    rw [List.drop_eq_getElem_cons hk, List.take_succ_cons, List.cons_append, check_ids]
    simp only [hk, dite_true, ne_eq, not_true_eq_false, if_false]
    rw [ih (k + 1) (by omega)]
    congr 1
    omega

/-- A list of lines the id loop accepts is a slice of the canonical ids. -/
theorem check_ids_ok (ids : List String) (lines : List String) (k m : Nat)
    (h : check_ids ids lines k = Except.ok m) :
    m = k + lines.length ∧ (lines ≠ [] → k + lines.length ≤ ids.length) ∧
      lines = (ids.drop k).take lines.length := by
  induction lines generalizing k with
  | nil =>
    simp only [check_ids, Except.ok.injEq] at h
    simp [h]
  | cons line rest ih =>
    rw [check_ids] at h
    split_ifs at h with hk hne
    obtain ⟨h1, h2, h3⟩ := ih (k + 1) h
    have hline : line = ids[k] := by
      by_contra hc
      exact hne hc
    refine ⟨?_, ?_, ?_⟩
    · simp only [List.length_cons]
      omega
    · intro _
      simp only [List.length_cons]
      by_cases hr : rest = []
      · subst hr
        simp only [List.length_nil]
        omega
      · have := h2 hr
        omega
    · rw [List.drop_eq_getElem_cons hk, List.length_cons, List.take_succ_cons, ← h3, hline]

/-- The id loop ends with `cur_index` equal to the number of canonical ids exactly when the
lines are the canonical ids. -/
theorem check_ids_eq_length_iff (ids lines : List String) :
    check_ids ids lines 0 = Except.ok ids.length ↔ lines = ids := by
  constructor
  · intro h
    obtain ⟨h1, _, h3⟩ := check_ids_ok ids lines 0 ids.length h
    rw [h3, List.drop_zero, ← show ids.length = lines.length by omega, List.take_length]
  · intro h
    subst h
    have := check_ids_take_append lines [] lines.length 0 (by omega)
    simpa [check_ids] using this

/-- The load branch, once the first line is not the sentinel, is the id loop followed by the
length test and the load of the records. -/
theorem load_inverse_of_lines {K : Type} (files : Files K) (fam : SpMat K) (phenoVec : List K)
    (ids lines : List String) (hl : files.grm_id_in = some lines)
    (hfirst : lines.headD "" ≠ "--fastGWA") :
    load_inverse files fam phenoVec ids =
      match check_ids ids lines 0 with
      | Except.error f => Except.error f
      | Except.ok cur_index =>
        if cur_index = ids.length then load_records files fam phenoVec
        else Except.error (Failure.error "Empty file or lines not consistent in inverse V") := by
  simp only [load_inverse, hl, hfirst, if_false]

end LoadLemmas

/-- Claim C16 (code bug).  With the canonical id list `a` and an id file with the lines `a`,
`b`, the id loop of the load branch reads `remain_ids_fam[1]` past the end of the vector
before any length test; in general an id file that repeats the canonical list and goes on
reads past its end.  The other cases are as claimed: the loop and the length test pass exactly
when the lines are the canonical ids, and then the records are loaded; a differing line ends
the run with `samples are not same`; a shorter file ends it with the message of the length
test. -/
theorem load_inverse_longer_id_file_reads_past_end :
    load_inverse (longerIdFile ℚ) SpMat.empty [1] ["a"] =
      Except.error (Failure.outOfBounds "remain_ids_fam[cur_index]") ∧
    (∀ (files : Files ℚ) (fam : SpMat ℚ) (phenoVec : List ℚ) (ids : List String)
        (line : String) (extra : List String),
      files.grm_id_in = some (ids ++ line :: extra) →
      (ids ++ line :: extra).headD "" ≠ "--fastGWA" →
      load_inverse files fam phenoVec ids =
        Except.error (Failure.outOfBounds "remain_ids_fam[cur_index]")) ∧
    (∀ ids lines : List String, check_ids ids lines 0 = Except.ok ids.length ↔ lines = ids) ∧
    (∀ (files : Files ℚ) (fam : SpMat ℚ) (phenoVec : List ℚ) (ids : List String),
      files.grm_id_in = some ids → ids.headD "" ≠ "--fastGWA" →
      load_inverse files fam phenoVec ids = load_records files fam phenoVec) ∧
    (∀ (files : Files ℚ) (fam : SpMat ℚ) (phenoVec : List ℚ) (ids : List String) (j : Nat)
        (line : String) (extra : List String),
      j < ids.length → ids[j]? ≠ some line →
      files.grm_id_in = some (ids.take j ++ line :: extra) →
      (ids.take j ++ line :: extra).headD "" ≠ "--fastGWA" →
      load_inverse files fam phenoVec ids =
        Except.error (Failure.error "samples are not same")) ∧
    (∀ (files : Files ℚ) (fam : SpMat ℚ) (phenoVec : List ℚ) (ids : List String) (j : Nat),
      j < ids.length → files.grm_id_in = some (ids.take j) →
      (ids.take j).headD "" ≠ "--fastGWA" →
      load_inverse files fam phenoVec ids =
        Except.error (Failure.error "Empty file or lines not consistent in inverse V")) := by
  refine ⟨?_, ?_, check_ids_eq_length_iff, ?_, ?_, ?_⟩
  · simp [load_inverse, longerIdFile, check_ids]
  · intro files fam phenoVec ids line extra hl hfirst
    rw [load_inverse_of_lines files fam phenoVec ids _ hl hfirst]
    have h := check_ids_take_append ids (line :: extra) ids.length 0 (by omega)
    simp only [List.drop_zero, List.take_length, Nat.zero_add] at h
    rw [h, check_ids]
    simp
  · intro files fam phenoVec ids hl hfirst
    rw [load_inverse_of_lines files fam phenoVec ids _ hl hfirst,
      (check_ids_eq_length_iff ids ids).2 rfl]
    simp
  · intro files fam phenoVec ids j line extra hj hne hl hfirst
    rw [load_inverse_of_lines files fam phenoVec ids _ hl hfirst]
    have h := check_ids_take_append ids (line :: extra) j 0 (by omega)
    simp only [List.drop_zero, Nat.zero_add] at h
    rw [h, check_ids]
    have hne2 : line ≠ ids[j] := by
      intro hc
      apply hne
      rw [List.getElem?_eq_getElem hj, hc]
    simp [hj, hne2]
  · intro files fam phenoVec ids j hj hl hfirst
    rw [load_inverse_of_lines files fam phenoVec ids _ hl hfirst]
    have h := check_ids_take_append ids [] j 0 (by omega)
    simp only [List.drop_zero, Nat.zero_add, List.append_nil] at h
    rw [h, check_ids]
    have : j ≠ ids.length := by omega
    simp [this]

section RoundTripLemmas
variable {K : Type}

/-- An element that no stored entry has to follow is inserted at the end. -/
theorem insertSorted_append (e : Nat × Nat × K) (l : List (Nat × Nat × K))
    (h : ∀ b ∈ l, ¬ (e.2.1 < b.2.1 ∨ (e.2.1 = b.2.1 ∧ e.1 < b.1))) :
    insertSorted e l = l ++ [e] := by
  induction l with
  | nil => rfl
  | cons b l ih =>
    rw [insertSorted, if_neg (h b (List.mem_cons_self _ _)),
      ih (fun c hc => h c (List.mem_cons_of_mem _ hc))]
    rfl

/-- Inserting the records of a sorted in-range entry list one by one rebuilds the list. -/
theorem foldlM_insert_item (n : Nat) (entries acc : List (Nat × Nat × K))
    (hrange : ∀ e ∈ entries, e.1 < n ∧ e.2.1 < n)
    (hsorted : (acc ++ entries).Pairwise
      (fun a b => ¬ (b.2.1 < a.2.1 ∨ (b.2.1 = a.2.1 ∧ b.1 < a.1)))) :
    (entries.map (fun it => ({ row := it.1, col := it.2.1, val := it.2.2 } : InvItem K))).foldlM
        insert_item ({ rows := n, cols := n, entries := acc } : SpMat K) =
      Except.ok { rows := n, cols := n, entries := acc ++ entries } := by
  induction entries generalizing acc with
  | nil => simp [pure, Except.pure]
  | cons e rest ih =>
    have he := hrange e (List.mem_cons_self _ _)
    have hins : insertSorted (e.1, e.2.1, e.2.2) acc = acc ++ [e] := by
      apply insertSorted_append
      intro b hb
      have := (List.pairwise_append.mp hsorted).2.2 b hb e (List.mem_cons_self _ _)
      exact this
    rw [List.map_cons, List.foldlM_cons]
    simp only [insert_item, he.1, he.2, and_self, if_true, bind, Except.bind, hins]
    rw [ih (acc ++ [e]) (fun c hc => hrange c (List.mem_cons_of_mem _ hc))
      (by simpa using hsorted)]
    simp

/-- Loading the records written from a sorted in-range `n x n` matrix rebuilds it. -/
theorem load_records_written [LinearOrderedField K] (files : Files K) (fam V : SpMat K)
    (phenoVec : List K)
    (hin : files.grm_inv_in = some (V.entries.map
      (fun it => ({ row := it.1, col := it.2.1, val := it.2.2 } : InvItem K))))
    (hrows : V.rows = phenoVec.length) (hcols : V.cols = phenoVec.length)
    (hrange : V.InRange) (hsorted : V.StorageSorted) :
    load_records files fam phenoVec =
      Except.ok { fam_flag := true, fam := fam, V_inverse := V, grm_id_out := none,
                  grm_inv_out := none } := by
  obtain ⟨r, c, entries⟩ := V
  simp only at hrows hcols hin
  subst hrows hcols
  simp only [load_records, hin]
  rw [foldlM_insert_item phenoVec.length entries [] hrange (by simpa [SpMat.StorageSorted] using hsorted)]
  simp

end RoundTripLemmas

/-- Claim C17 (counter-example).  When the first canonical id is the line `--fastGWA`, the files
written under `save_inv` for a `1 x 1` inverse with the entry `2` are read back as the mark of
a degraded run: the loading run ends with `fam_flag = false` and an empty `V_inverse`, not
with the saved entries. -/
theorem round_trip_sentinel_id_degrades :
    save_inverse (saveInvOptions ℚ) (writableFiles ℚ) (sampleInverse ℚ) (sampleInverse ℚ)
        ["--fastGWA"] =
      Except.ok { fam_flag := true, fam := sampleInverse ℚ, V_inverse := sampleInverse ℚ,
                  grm_id_out := some ["--fastGWA"],
                  grm_inv_out := some [{ row := 0, col := 0, val := 2 }] } ∧
    load_inverse
        (writtenFiles { fam_flag := true, fam := sampleInverse ℚ, V_inverse := sampleInverse ℚ,
                        grm_id_out := some ["--fastGWA"],
                        grm_inv_out := some [{ row := 0, col := 0, val := 2 }] })
        (sampleInverse ℚ) [1] ["--fastGWA"] =
      Except.ok { fam_flag := false, fam := SpMat.empty, V_inverse := SpMat.empty,
                  grm_id_out := none, grm_inv_out := none } ∧
    (SpMat.empty : SpMat ℚ).entries ≠ (sampleInverse ℚ).entries := by
  refine ⟨?_, ?_, ?_⟩
  · simp [save_inverse, saveInvOptions, writableFiles, sampleInverse]
  · simp [load_inverse, writtenFiles]
  · simp [SpMat.empty, sampleInverse]

section RoundTripClaim
variable {K : Type} [LinearOrderedField K]

/-- Claim C17 (amended).  Persistence round-trips when the first canonical id is not the line
`--fastGWA`: for every `n x n` `V_inverse` in compressed column-major storage and every such
id list, the id lines and the records written under `save_inv`, read back by the load branch
for the same id list, pass the id check and rebuild the matrix with exactly the same stored
entries, so `calculate_fam` stores the same results; and a run that degraded to OLS writes
the id file `--fastGWA`, which makes every loading run end with `fam_flag = false` and
dispatch `calculate_gwa`. -/
theorem save_load_round_trip (opts : Options K) (files : Files K) (fam V_inverse : SpMat K)
    (phenoVec : List K) (remain_ids_fam : List String)
    (hsave : opts.save_inv = true) (hopen : files.grm_id_out_opened = true)
    (hwritten : files.grm_inv_out_written = true)
    (hfirst : remain_ids_fam.headD "" ≠ "--fastGWA")
    (hrows : V_inverse.rows = phenoVec.length) (hcols : V_inverse.cols = phenoVec.length)
    (hrange : V_inverse.InRange) (hsorted : V_inverse.StorageSorted) :
    (∃ R, save_inverse opts files fam V_inverse remain_ids_fam = Except.ok R ∧
      R.grm_id_out = some remain_ids_fam ∧
      R.grm_inv_out = some (V_inverse.entries.map
        (fun it => { row := it.1, col := it.2.1, val := it.2.2 })) ∧
      (∀ fam2, load_inverse (writtenFiles R) fam2 phenoVec remain_ids_fam =
        Except.ok { fam_flag := true, fam := fam2, V_inverse := V_inverse,
                    grm_id_out := none, grm_inv_out := none }) ∧
      (∀ fam2 R2, load_inverse (writtenFiles R) fam2 phenoVec remain_ids_fam = Except.ok R2 →
        R2.V_inverse.rows = phenoVec.length ∧ R2.V_inverse.cols = phenoVec.length ∧
        R2.V_inverse.entries = V_inverse.entries ∧
        ∀ (sqrtK : K → K) (pchisqd1 : Dbl K → Dbl K) (st : State K) (buf : Nat → List K)
          (num_marker : Nat),
          calculate_fam sqrtK pchisqd1 { st with V_inverse := R2.V_inverse } buf num_marker =
            calculate_fam sqrtK pchisqd1 { st with V_inverse := V_inverse } buf num_marker)) ∧
    (∃ R0, fallback_to_gwa opts files = Except.ok R0 ∧
      R0.grm_id_out = some ["--fastGWA"] ∧
      (∀ fam2 phenoVec2 ids2, load_inverse (writtenFiles R0) fam2 phenoVec2 ids2 =
        Except.ok { fam_flag := false, fam := SpMat.empty, V_inverse := SpMat.empty,
                    grm_id_out := none, grm_inv_out := none }) ∧
      (∀ opts2 : Options K, opts2.save_inv = false →
        processMain_dispatch opts2 false = some Engine.calculate_gwa)) := by
  have hload : ∀ fam2, load_inverse
      (writtenFiles { fam_flag := true, fam := fam, V_inverse := V_inverse,
                      grm_id_out := some remain_ids_fam,
                      grm_inv_out := some (V_inverse.entries.map
                        (fun it => { row := it.1, col := it.2.1, val := it.2.2 })) })
      fam2 phenoVec remain_ids_fam =
      Except.ok { fam_flag := true, fam := fam2, V_inverse := V_inverse,
                  grm_id_out := none, grm_inv_out := none } := by
    intro fam2
    rw [load_inverse_of_lines _ fam2 phenoVec remain_ids_fam remain_ids_fam rfl hfirst,
      (check_ids_eq_length_iff remain_ids_fam remain_ids_fam).2 rfl]
    simp only [if_true]
    exact load_records_written _ fam2 V_inverse phenoVec rfl hrows hcols hrange hsorted
  refine ⟨⟨_, ?_, rfl, rfl, hload, ?_⟩,
    ⟨{ fam_flag := false, fam := SpMat.empty, V_inverse := SpMat.empty,
       grm_id_out := some ["--fastGWA"], grm_inv_out := none }, ?_, rfl, ?_, ?_⟩⟩
  · simp [save_inverse, hsave, hopen, hwritten]
  · intro fam2 R2 h2
    rw [hload fam2] at h2
    cases h2
    exact ⟨hrows, hcols, rfl, fun _ _ _ _ _ => rfl⟩
  · simp [fallback_to_gwa, hsave, hopen]
  · intro fam2 phenoVec2 ids2
    simp [load_inverse, writtenFiles]
  · intro opts2 h2
    simp [processMain_dispatch, h2]

end RoundTripClaim

/-- Claim C17 (witness): the `1 x 1` inverse with the entry `2` and the id list `a`. -/
theorem save_load_round_trip_witness :
    ∃ R, save_inverse (saveInvOptions ℚ) (writableFiles ℚ) (sampleInverse ℚ) (sampleInverse ℚ)
        ["a"] = Except.ok R ∧
      load_inverse (writtenFiles R) (sampleInverse ℚ) [1] ["a"] =
        Except.ok { fam_flag := true, fam := sampleInverse ℚ, V_inverse := sampleInverse ℚ,
                    grm_id_out := none, grm_inv_out := none } := by
  obtain ⟨R, h1, _, _, h4, _⟩ := (save_load_round_trip (saveInvOptions ℚ) (writableFiles ℚ)
    (sampleInverse ℚ) (sampleInverse ℚ) [1] ["a"] rfl rfl rfl (by decide) rfl rfl
    (by simp [SpMat.InRange, sampleInverse]) (by simp [SpMat.StorageSorted, sampleInverse])).1
  exact ⟨R, h1, h4 _⟩

section BatchLemmas
variable {K : Type} [LinearOrderedField K]

/-- A loop of stores keeps the length of the array. -/
theorem length_foldl_set {α : Type} (idx : Nat → Nat) (f : Nat → α) (l : List Nat)
    (init : List α) :
    (l.foldl (fun a j => a.set (idx j) (f j)) init).length = init.length := by
  induction l generalizing init with
  | nil => rfl
  | cons a l ih => simp [ih]

/-- Stores at pairwise different indices can be carried out in any order. -/
theorem foldl_set_perm {α : Type} (idx : Nat → Nat) (f : Nat → α) (l1 l2 : List Nat)
    (hp : l1.Perm l2) (hinj : ∀ x ∈ l1, ∀ y ∈ l1, idx x = idx y → x = y) (init : List α) :
    l1.foldl (fun a j => a.set (idx j) (f j)) init =
      l2.foldl (fun a j => a.set (idx j) (f j)) init := by
  apply List.Perm.foldl_eq' hp
  intro x hx y hy z
  by_cases h : idx x = idx y
  · have := hinj x hx y hy h
    subst this
    rfl
  · exact List.set_comm _ _ _ h

omit [LinearOrderedField K] in
/-- A loop of stores over a batch gives the same state in every order of its iterations. -/
theorem foldl_storeStats_perm (g : State K → Nat → Dbl K × Dbl K × Dbl K)
    (hg : ∀ s j x k, g (storeStats s j x) k = g s k) (st : State K) (m : Nat)
    (order : List Nat) (hp : order.Perm (List.range m))
    (h32 : st.num_finished_marker + m ≤ 2 ^ 32) :
    order.foldl (fun s j => storeStats s j (g s j)) st =
      (List.range m).foldl (fun s j => storeStats s j (g s j)) st := by
  have hinj : ∀ x ∈ order, ∀ y ∈ order,
      (st.num_finished_marker + x) % 2 ^ 32 = (st.num_finished_marker + y) % 2 ^ 32 →
        x = y := by
    intro x hx y hy h
    have hx2 := List.mem_range.mp (hp.mem_iff.mp hx)
    have hy2 := List.mem_range.mp (hp.mem_iff.mp hy)
    by_cases hlt : st.num_finished_marker + m = 2 ^ 32
    · rw [Nat.mod_eq_of_lt (by omega), Nat.mod_eq_of_lt (by omega)] at h
      omega
    · rw [Nat.mod_eq_of_lt (by omega), Nat.mod_eq_of_lt (by omega)] at h
      omega
  rw [foldl_storeStats g hg order st, foldl_storeStats g hg (List.range m) st,
    foldl_set_perm _ _ order (List.range m) hp hinj,
    foldl_set_perm _ _ order (List.range m) hp hinj,
    foldl_set_perm _ _ order (List.range m) hp hinj]

/-- One batch in any order of its iterations is the batch in the order of the loop counter. -/
theorem run_batch_sequential (sqrtK : K → K) (pchisqd1 : Dbl K → Dbl K) (st : State K)
    (b : Batch K) (hp : b.order.Perm (List.range b.num_marker))
    (h32 : st.num_finished_marker + b.num_marker ≤ 2 ^ 32) :
    run_batch sqrtK pchisqd1 st b = run_batch sqrtK pchisqd1 st b.sequential := by
  simp only [run_batch, Batch.sequential]
  cases b.engine with
  | calculate_fam =>
    simp only [calculate_fam_scheduled]
    rw [show (b.order.foldl (calculate_fam_marker sqrtK pchisqd1 b.buf) st) =
      (List.range b.num_marker).foldl (calculate_fam_marker sqrtK pchisqd1 b.buf) st from
      foldl_storeStats_perm
        (fun s j => markerStats sqrtK pchisqd1 (vecMulSp (b.buf j) s.V_inverse) (b.buf j)
          s.phenoVec) (fun _ _ _ _ => rfl) st b.num_marker b.order hp h32]
  | calculate_gwa =>
    simp only [calculate_gwa_scheduled]
    rw [show (b.order.foldl (calculate_gwa_marker sqrtK pchisqd1 b.buf) st) =
      (List.range b.num_marker).foldl (calculate_gwa_marker sqrtK pchisqd1 b.buf) st from
      foldl_storeStats_perm
        (fun s j => markerStats sqrtK pchisqd1 (b.buf j) (b.buf j) s.phenoVec)
        (fun _ _ _ _ => rfl) st b.num_marker b.order hp h32]

/-- What one batch in the order of the loop counter leaves: the counter advanced, the inputs
unchanged, and in each array the stored values at the indices of the batch. -/
theorem run_batch_sequential_spec (sqrtK : K → K) (pchisqd1 : Dbl K → Dbl K) (st : State K)
    (b : Batch K) (h32 : st.num_finished_marker + b.num_marker ≤ 2 ^ 32) :
    (run_batch sqrtK pchisqd1 st b.sequential).num_finished_marker =
      st.num_finished_marker + b.num_marker ∧
    (run_batch sqrtK pchisqd1 st b.sequential).V_inverse = st.V_inverse ∧
    (run_batch sqrtK pchisqd1 st b.sequential).phenoVec = st.phenoVec ∧
    (run_batch sqrtK pchisqd1 st b.sequential).beta.length = st.beta.length ∧
    (run_batch sqrtK pchisqd1 st b.sequential).se.length = st.se.length ∧
    (run_batch sqrtK pchisqd1 st b.sequential).p.length = st.p.length ∧
    ∀ i,
      ((run_batch sqrtK pchisqd1 st b.sequential).beta[i]? =
        if st.num_finished_marker ≤ i ∧ i < st.num_finished_marker + b.num_marker ∧
          i < st.beta.length
        then some (batch_stats sqrtK pchisqd1 st b (i - st.num_finished_marker)).1
        else st.beta[i]?) ∧
      ((run_batch sqrtK pchisqd1 st b.sequential).se[i]? =
        if st.num_finished_marker ≤ i ∧ i < st.num_finished_marker + b.num_marker ∧
          i < st.se.length
        then some (batch_stats sqrtK pchisqd1 st b (i - st.num_finished_marker)).2.1
        else st.se[i]?) ∧
      ((run_batch sqrtK pchisqd1 st b.sequential).p[i]? =
        if st.num_finished_marker ≤ i ∧ i < st.num_finished_marker + b.num_marker ∧
          i < st.p.length
        then some (batch_stats sqrtK pchisqd1 st b (i - st.num_finished_marker)).2.2
        else st.p[i]?) := by
  cases hb : b.engine with
  | calculate_fam =>
    have hf := foldl_storeStats
      (fun s j => markerStats sqrtK pchisqd1 (vecMulSp (b.buf j) s.V_inverse) (b.buf j)
        s.phenoVec) (fun _ _ _ _ => rfl) (List.range b.num_marker) st
    have hg := getElem?_storeLoop
      (fun s j => markerStats sqrtK pchisqd1 (vecMulSp (b.buf j) s.V_inverse) (b.buf j)
        s.phenoVec) (fun _ _ _ _ => rfl) st b.num_marker h32
    have he : run_batch sqrtK pchisqd1 st b.sequential =
        { (List.range b.num_marker).foldl (fun s j => storeStats s j
            (markerStats sqrtK pchisqd1 (vecMulSp (b.buf j) s.V_inverse) (b.buf j)
              s.phenoVec)) st with
          num_finished_marker := st.num_finished_marker + b.num_marker } := by
      simp only [run_batch, Batch.sequential, hb, calculate_fam_scheduled]
      rw [show (List.range b.num_marker).foldl (calculate_fam_marker sqrtK pchisqd1 b.buf) st
        = _ from hf]
      rw [hf]
    rw [he]
    refine ⟨rfl, ?_, ?_, ?_, ?_, ?_, ?_⟩
    · rw [hf]
    · rw [hf]
    · rw [hf]
      exact length_foldl_set _ _ _ _
    · rw [hf]
      exact length_foldl_set _ _ _ _
    · rw [hf]
      exact length_foldl_set _ _ _ _
    · intro i
      have := hg i
      simp only [batch_stats, hb]
      exact this
  | calculate_gwa =>
    have hf := foldl_storeStats
      (fun s j => markerStats sqrtK pchisqd1 (b.buf j) (b.buf j) s.phenoVec)
      (fun _ _ _ _ => rfl) (List.range b.num_marker) st
    have hg := getElem?_storeLoop
      (fun s j => markerStats sqrtK pchisqd1 (b.buf j) (b.buf j) s.phenoVec)
      (fun _ _ _ _ => rfl) st b.num_marker h32
    have he : run_batch sqrtK pchisqd1 st b.sequential =
        { (List.range b.num_marker).foldl (fun s j => storeStats s j
            (markerStats sqrtK pchisqd1 (b.buf j) (b.buf j) s.phenoVec)) st with
          num_finished_marker := st.num_finished_marker + b.num_marker } := by
      simp only [run_batch, Batch.sequential, hb, calculate_gwa_scheduled]
      rw [show (List.range b.num_marker).foldl (calculate_gwa_marker sqrtK pchisqd1 b.buf) st
        = _ from hf]
      rw [hf]
    rw [he]
    refine ⟨rfl, ?_, ?_, ?_, ?_, ?_, ?_⟩
    · rw [hf]
    · rw [hf]
    · rw [hf]
      exact length_foldl_set _ _ _ _
    · rw [hf]
      exact length_foldl_set _ _ _ _
    · rw [hf]
      exact length_foldl_set _ _ _ _
    · intro i
      have := hg i
      simp only [batch_stats, hb]
      exact this

/-- What one batch leaves, in any order of its iterations. -/
theorem run_batch_spec (sqrtK : K → K) (pchisqd1 : Dbl K → Dbl K) (st : State K)
    (b : Batch K) (hp : b.order.Perm (List.range b.num_marker))
    (h32 : st.num_finished_marker + b.num_marker ≤ 2 ^ 32) :
    (run_batch sqrtK pchisqd1 st b).num_finished_marker =
      st.num_finished_marker + b.num_marker ∧
    (run_batch sqrtK pchisqd1 st b).V_inverse = st.V_inverse ∧
    (run_batch sqrtK pchisqd1 st b).phenoVec = st.phenoVec ∧
    (run_batch sqrtK pchisqd1 st b).beta.length = st.beta.length ∧
    (run_batch sqrtK pchisqd1 st b).se.length = st.se.length ∧
    (run_batch sqrtK pchisqd1 st b).p.length = st.p.length ∧
    ∀ i,
      ((run_batch sqrtK pchisqd1 st b).beta[i]? =
        if st.num_finished_marker ≤ i ∧ i < st.num_finished_marker + b.num_marker ∧
          i < st.beta.length
        then some (batch_stats sqrtK pchisqd1 st b (i - st.num_finished_marker)).1
        else st.beta[i]?) ∧
      ((run_batch sqrtK pchisqd1 st b).se[i]? =
        if st.num_finished_marker ≤ i ∧ i < st.num_finished_marker + b.num_marker ∧
          i < st.se.length
        then some (batch_stats sqrtK pchisqd1 st b (i - st.num_finished_marker)).2.1
        else st.se[i]?) ∧
      ((run_batch sqrtK pchisqd1 st b).p[i]? =
        if st.num_finished_marker ≤ i ∧ i < st.num_finished_marker + b.num_marker ∧
          i < st.p.length
        then some (batch_stats sqrtK pchisqd1 st b (i - st.num_finished_marker)).2.2
        else st.p[i]?) := by
  rw [run_batch_sequential sqrtK pchisqd1 st b hp h32]
  exact run_batch_sequential_spec sqrtK pchisqd1 st b h32

omit [LinearOrderedField K] in
theorem total_markers_cons (b : Batch K) (bs : List (Batch K)) :
    total_markers (b :: bs) = b.num_marker + total_markers bs := by
  simp [total_markers]

omit [LinearOrderedField K] in
theorem total_markers_append (as bs : List (Batch K)) :
    total_markers (as ++ bs) = total_markers as + total_markers bs := by
  simp [total_markers]

/-- The statistics an iteration stores depend on the state through `V_inverse` and `phenoVec`
only. -/
theorem batch_stats_congr (sqrtK : K → K) (pchisqd1 : Dbl K → Dbl K) (s t : State K)
    (b : Batch K) (j : Nat) (hV : s.V_inverse = t.V_inverse) (hy : s.phenoVec = t.phenoVec) :
    batch_stats sqrtK pchisqd1 s b j = batch_stats sqrtK pchisqd1 t b j := by
  simp only [batch_stats, hV, hy]

/-- What a run of batches leaves: the counter advanced by the number of markers, the inputs
and the lengths of the arrays unchanged, and every index outside the range of the run
untouched. -/
theorem run_batches_spec (sqrtK : K → K) (pchisqd1 : Dbl K → Dbl K) (bs : List (Batch K))
    (st : State K) (hp : ∀ b ∈ bs, b.order.Perm (List.range b.num_marker))
    (h32 : st.num_finished_marker + total_markers bs ≤ 2 ^ 32) :
    (run_batches sqrtK pchisqd1 st bs).num_finished_marker =
      st.num_finished_marker + total_markers bs ∧
    (run_batches sqrtK pchisqd1 st bs).V_inverse = st.V_inverse ∧
    (run_batches sqrtK pchisqd1 st bs).phenoVec = st.phenoVec ∧
    (run_batches sqrtK pchisqd1 st bs).beta.length = st.beta.length ∧
    (run_batches sqrtK pchisqd1 st bs).se.length = st.se.length ∧
    (run_batches sqrtK pchisqd1 st bs).p.length = st.p.length ∧
    ∀ i, ¬ (st.num_finished_marker ≤ i ∧ i < st.num_finished_marker + total_markers bs) →
      (run_batches sqrtK pchisqd1 st bs).beta[i]? = st.beta[i]? ∧
      (run_batches sqrtK pchisqd1 st bs).se[i]? = st.se[i]? ∧
      (run_batches sqrtK pchisqd1 st bs).p[i]? = st.p[i]? := by
  induction bs generalizing st with
  | nil => simp [run_batches, total_markers]
  | cons b bs ih =>
    rw [total_markers_cons] at h32
    obtain ⟨h1, h2, h3, h4, h5, h6, h7⟩ := run_batch_spec sqrtK pchisqd1 st b
      (hp b (List.mem_cons_self _ _)) (by omega)
    obtain ⟨k1, k2, k3, k4, k5, k6, k7⟩ := ih (run_batch sqrtK pchisqd1 st b)
      (fun c hc => hp c (List.mem_cons_of_mem _ hc)) (by rw [h1]; omega)
    have e : run_batches sqrtK pchisqd1 st (b :: bs) =
        run_batches sqrtK pchisqd1 (run_batch sqrtK pchisqd1 st b) bs := rfl
    rw [e, total_markers_cons]
    refine ⟨by rw [k1, h1]; omega, k2.trans h2, k3.trans h3, k4.trans h4, k5.trans h5,
      k6.trans h6, ?_⟩
    intro i hi
    obtain ⟨a1, a2, a3⟩ := k7 i (by rw [h1]; omega)
    obtain ⟨b1, b2, b3⟩ := h7 i
    rw [a1, a2, a3, b1, b2, b3, if_neg (by omega), if_neg (by omega), if_neg (by omega)]
    exact ⟨rfl, rfl, rfl⟩

/-- A run of batches does not depend on the order of the iterations inside the batches. -/
theorem run_batches_sequential (sqrtK : K → K) (pchisqd1 : Dbl K → Dbl K)
    (bs : List (Batch K)) (st : State K)
    (hp : ∀ b ∈ bs, b.order.Perm (List.range b.num_marker))
    (h32 : st.num_finished_marker + total_markers bs ≤ 2 ^ 32) :
    run_batches sqrtK pchisqd1 st bs =
      run_batches sqrtK pchisqd1 st (bs.map Batch.sequential) := by
  induction bs generalizing st with
  | nil => rfl
  | cons b bs ih =>
    rw [total_markers_cons] at h32
    have h1 := (run_batch_spec sqrtK pchisqd1 st b (hp b (List.mem_cons_self _ _))
      (by omega)).1
    have e : run_batches sqrtK pchisqd1 st (b :: bs) =
        run_batches sqrtK pchisqd1 (run_batch sqrtK pchisqd1 st b) bs := rfl
    rw [e, ih _ (fun c hc => hp c (List.mem_cons_of_mem _ hc)) (by rw [h1]; omega),
      run_batch_sequential sqrtK pchisqd1 st b (hp b (List.mem_cons_self _ _)) (by omega)]
    rfl

omit [LinearOrderedField K] in
/-- The indices one batch stores at are the next `num_marker` indices, each once. -/
theorem batch_writes_perm (st : State K) (b : Batch K)
    (hp : b.order.Perm (List.range b.num_marker))
    (h32 : st.num_finished_marker + b.num_marker ≤ 2 ^ 32) :
    (batch_writes st b).Perm (List.range' st.num_finished_marker b.num_marker) := by
  have h1 : (batch_writes st b).Perm ((List.range b.num_marker).map
      (fun cur_marker => (st.num_finished_marker + cur_marker) % 2 ^ 32)) := hp.map _
  have h2 : (List.range b.num_marker).map
      (fun cur_marker => (st.num_finished_marker + cur_marker) % 2 ^ 32) =
      List.range' st.num_finished_marker b.num_marker := by
    rw [List.range'_eq_map_range]
    apply List.map_congr_left
    intro j hj
    have := List.mem_range.mp hj
    by_cases hz : b.num_marker = 0
    · omega
    · exact Nat.mod_eq_of_lt (by omega)
  rw [← h2]
  exact h1

/-- The indices a run of batches stores at are the next `total_markers` indices, each once. -/
theorem all_writes_perm (sqrtK : K → K) (pchisqd1 : Dbl K → Dbl K) (bs : List (Batch K))
    (st : State K) (hp : ∀ b ∈ bs, b.order.Perm (List.range b.num_marker))
    (h32 : st.num_finished_marker + total_markers bs ≤ 2 ^ 32) :
    (all_writes sqrtK pchisqd1 st bs).Perm
      (List.range' st.num_finished_marker (total_markers bs)) := by
  induction bs generalizing st with
  | nil => simp [all_writes, total_markers]
  | cons b bs ih =>
    rw [total_markers_cons] at h32
    have h1 := (run_batch_spec sqrtK pchisqd1 st b (hp b (List.mem_cons_self _ _))
      (by omega)).1
    have hw := batch_writes_perm st b (hp b (List.mem_cons_self _ _)) (by omega)
    have hr := ih (run_batch sqrtK pchisqd1 st b)
      (fun c hc => hp c (List.mem_cons_of_mem _ hc)) (by rw [h1]; omega)
    rw [h1] at hr
    have e : List.range' st.num_finished_marker (b.num_marker + total_markers bs) =
        List.range' st.num_finished_marker b.num_marker ++
          List.range' (st.num_finished_marker + b.num_marker) (total_markers bs) := by
      rw [List.range'_append_1, Nat.add_comm]
    rw [all_writes, total_markers_cons, e]
    exact hw.append hr

theorem run_batches_append (sqrtK : K → K) (pchisqd1 : Dbl K → Dbl K) (st : State K)
    (pre post : List (Batch K)) (b : Batch K) :
    run_batches sqrtK pchisqd1 st (pre ++ b :: post) =
      run_batches sqrtK pchisqd1
        (run_batch sqrtK pchisqd1 (run_batches sqrtK pchisqd1 st pre) b) post := by
  simp [run_batches, List.foldl_append]

/-- Claim C18.  Starting from `num_finished_marker = 0`, after any run of batches handed to
`calculate_fam` or `calculate_gwa` (not more than `2^32` markers in all, the iterations of
each batch carried out in any order): `num_finished_marker` is the sum of the batch sizes;
a batch that follows the batches `pre` starts at the sum of their sizes, stores at exactly
the indices from that sum up to, not including, that sum plus its own size, once at each, and
what it stores there is still in the arrays at the end; all stores of the run together hit
every index below the total exactly once; no index at or above the total is changed; and the
final state does not depend on the order of the iterations inside the batches. -/
theorem run_batches_writes_each_index_once (sqrtK : K → K) (pchisqd1 : Dbl K → Dbl K)
    (st : State K) (bs : List (Batch K)) (h0 : st.num_finished_marker = 0)
    (horder : ∀ b ∈ bs, b.order.Perm (List.range b.num_marker))
    (h32 : total_markers bs ≤ 2 ^ 32) :
    (run_batches sqrtK pchisqd1 st bs).num_finished_marker = total_markers bs ∧
    (∀ pre b post, bs = pre ++ b :: post →
      (run_batches sqrtK pchisqd1 st pre).num_finished_marker = total_markers pre ∧
      (batch_writes (run_batches sqrtK pchisqd1 st pre) b).Perm
        (List.range' (total_markers pre) b.num_marker) ∧
      ∀ j, j < b.num_marker →
        (total_markers pre + j < st.beta.length →
          (run_batches sqrtK pchisqd1 st bs).beta[total_markers pre + j]? =
            some (batch_stats sqrtK pchisqd1 st b j).1) ∧
        (total_markers pre + j < st.se.length →
          (run_batches sqrtK pchisqd1 st bs).se[total_markers pre + j]? =
            some (batch_stats sqrtK pchisqd1 st b j).2.1) ∧
        (total_markers pre + j < st.p.length →
          (run_batches sqrtK pchisqd1 st bs).p[total_markers pre + j]? =
            some (batch_stats sqrtK pchisqd1 st b j).2.2)) ∧
    (all_writes sqrtK pchisqd1 st bs).Perm (List.range (total_markers bs)) ∧
    (all_writes sqrtK pchisqd1 st bs).Nodup ∧
    (∀ i, total_markers bs ≤ i →
      i ∉ all_writes sqrtK pchisqd1 st bs ∧
      (run_batches sqrtK pchisqd1 st bs).beta[i]? = st.beta[i]? ∧
      (run_batches sqrtK pchisqd1 st bs).se[i]? = st.se[i]? ∧
      (run_batches sqrtK pchisqd1 st bs).p[i]? = st.p[i]?) ∧
    (∀ bs2 : List (Batch K), bs2.map Batch.sequential = bs.map Batch.sequential →
      (∀ b ∈ bs2, b.order.Perm (List.range b.num_marker)) →
      run_batches sqrtK pchisqd1 st bs2 = run_batches sqrtK pchisqd1 st bs) := by
  have hspec := run_batches_spec sqrtK pchisqd1 bs st horder (by rw [h0]; omega)
  have hall := all_writes_perm sqrtK pchisqd1 bs st horder (by rw [h0]; omega)
  rw [h0, ← List.range_eq_range'] at hall
  refine ⟨by rw [hspec.1, h0]; omega, ?_, hall, hall.nodup_iff.mpr (List.nodup_range _), ?_, ?_⟩
  · intro pre b post hbs
    subst hbs
    rw [total_markers_append, total_markers_cons] at h32
    have hpre := run_batches_spec sqrtK pchisqd1 pre st
      (fun c hc => horder c (List.mem_append_left _ hc)) (by rw [h0]; omega)
    have hb : b.order.Perm (List.range b.num_marker) :=
      horder b (List.mem_append_right _ (List.mem_cons_self _ _))
    have hnf : (run_batches sqrtK pchisqd1 st pre).num_finished_marker = total_markers pre := by
      rw [hpre.1, h0]
      omega
    have hone := run_batch_spec sqrtK pchisqd1 (run_batches sqrtK pchisqd1 st pre) b hb
      (by rw [hnf]; omega)
    have hpost := run_batches_spec sqrtK pchisqd1 post
      (run_batch sqrtK pchisqd1 (run_batches sqrtK pchisqd1 st pre) b)
      (fun c hc => horder c (List.mem_append_right _ (List.mem_cons_of_mem _ hc)))
      (by rw [hone.1, hnf]; omega)
    have hw := batch_writes_perm (run_batches sqrtK pchisqd1 st pre) b hb (by rw [hnf]; omega)
    rw [hnf] at hw
    refine ⟨hnf, hw, ?_⟩
    intro j hj
    have hst := batch_stats_congr sqrtK pchisqd1 (run_batches sqrtK pchisqd1 st pre) st b j
      hpre.2.1 hpre.2.2.1
    obtain ⟨a1, a2, a3⟩ := hpost.2.2.2.2.2.2 (total_markers pre + j)
      (by rw [hone.1, hnf]; omega)
    obtain ⟨b1, b2, b3⟩ := hone.2.2.2.2.2.2 (total_markers pre + j)
    rw [run_batches_append, a1, a2, a3, b1, b2, b3, hnf, Nat.add_sub_cancel_left, hst,
      hpre.2.2.2.1, hpre.2.2.2.2.1, hpre.2.2.2.2.2.1]
    refine ⟨fun h => ?_, fun h => ?_, fun h => ?_⟩
    · rw [if_pos ⟨by omega, by omega, h⟩]
    · rw [if_pos ⟨by omega, by omega, h⟩]
    · rw [if_pos ⟨by omega, by omega, h⟩]
  · intro i hi
    refine ⟨?_, hspec.2.2.2.2.2.2 i (by rw [h0]; omega)⟩
    intro hmem
    have := List.mem_range.mp (hall.mem_iff.mp hmem)
    omega
  · intro bs2 hseq hp2
    have ht : total_markers bs2 = total_markers bs := by
      have e : ∀ l : List (Batch K), total_markers l =
          ((l.map Batch.sequential).map (fun b => b.num_marker)).sum := by
        intro l
        simp [total_markers, Batch.sequential, Function.comp_def]
      rw [e bs2, e bs, hseq]
    rw [run_batches_sequential sqrtK pchisqd1 bs2 st hp2 (by rw [h0, ht]; omega),
      run_batches_sequential sqrtK pchisqd1 bs st horder (by rw [h0]; omega), hseq]

end BatchLemmas

/-- Claim C18 (witness): three markers under `calculate_fam` in the order `2, 0, 1`, then two
markers under `calculate_gwa` in the order `1, 0`. -/
theorem run_batches_writes_each_index_once_witness :
    (run_batches (fun x => x) (fun z => z) (sampleBatchState : State ℚ)
      sampleBatches).num_finished_marker = 5 ∧
    (all_writes (fun x => x) (fun z => z) (sampleBatchState : State ℚ) sampleBatches).Perm
      (List.range 5) ∧
    run_batches (fun x => x) (fun z => z) (sampleBatchState : State ℚ)
      (sampleBatches.map Batch.sequential) =
      run_batches (fun x => x) (fun z => z) (sampleBatchState : State ℚ) sampleBatches := by
  have h := run_batches_writes_each_index_once (fun x => x) (fun z => z)
    (sampleBatchState : State ℚ) sampleBatches rfl
    (by
      intro b hb
      simp only [sampleBatches, List.mem_cons, List.mem_singleton, List.not_mem_nil,
        or_false] at hb
      rcases hb with rfl | rfl <;> decide)
    (by simp [total_markers, sampleBatches])
  have ht : total_markers (sampleBatches : List (Batch ℚ)) = 5 := by
    simp [total_markers, sampleBatches]
  rw [ht] at h
  refine ⟨h.1, h.2.2.1, ?_⟩
  apply h.2.2.2.2.2
  · simp [sampleBatches, Batch.sequential]
  · intro b hb
    simp only [sampleBatches, List.map_cons, List.map_nil, Batch.sequential, List.mem_cons,
      List.mem_singleton, List.not_mem_nil, or_false] at hb
    rcases hb with rfl | rfl <;> exact List.Perm.refl _

section ReaderLemmas
variable {K : Type} [LinearOrderedField K]

/-- The map after the first `m` assignments of the loop. -/
theorem map_index_fold_succ (l : List Nat) (m : Nat) (key : Nat) :
    (List.range (m + 1)).foldl
      (fun M index => fun key => if key = l.getD index 0 then some index else M key)
      (fun _ => none) key =
    if key = l.getD m 0 then some m else
      (List.range m).foldl
        (fun M index => fun key => if key = l.getD index 0 then some index else M key)
        (fun _ => none) key := by
  rw [List.range_succ, List.foldl_append]
  rfl

theorem map_index_fold_some (l : List Nat) (m : Nat) (key k : Nat)
    (h : (List.range m).foldl
      (fun M index => fun key => if key = l.getD index 0 then some index else M key)
      (fun _ => none) key = some k) : k < m ∧ l.getD k 0 = key := by
  induction m with
  | zero => simp at h
  | succ m ih =>
    rw [map_index_fold_succ] at h
    split_ifs at h with hk
    · cases h
      exact ⟨by omega, hk.symm⟩
    · have := ih h
      exact ⟨by omega, this.2⟩

theorem map_index_fold_none (l : List Nat) (m : Nat) (key : Nat) :
    (List.range m).foldl
      (fun M index => fun key => if key = l.getD index 0 then some index else M key)
      (fun _ => none) key = none ↔ ∀ k, k < m → l.getD k 0 ≠ key := by
  induction m with
  | zero => simp
  | succ m ih =>
    rw [map_index_fold_succ]
    split_ifs with hk
    · simp only [reduceCtorEq, false_iff, not_forall]
      exact ⟨m, by omega, fun h => h hk.symm⟩
    · rw [ih]
      constructor
      · intro h k hk2
        by_cases e : k = m
        · subst e
          exact fun h2 => hk h2.symm
        · exact h k (by omega)
      · intro h k hk2
        exact h k (by omega)

theorem map_index_fold_nodup (l : List Nat) (hn : l.Nodup) (m : Nat) (hm : m ≤ l.length)
    (k : Nat) (hk : k < m) :
    (List.range m).foldl
      (fun M index => fun key => if key = l.getD index 0 then some index else M key)
      (fun _ => none) (l.getD k 0) = some k := by
  induction m with
  | zero => omega
  | succ m ih =>
    rw [map_index_fold_succ]
    by_cases e : k = m
    · subst e
      simp
    · have hne : l.getD k 0 ≠ l.getD m 0 := by
        rw [List.getD_eq_getElem l 0 (by omega : k < l.length),
          List.getD_eq_getElem l 0 (by omega : m < l.length)]
        intro h
        exact e ((List.Nodup.getElem_inj_iff hn).mp h)
      rw [if_neg hne]
      exact ih (by omega) (by omega)

/-- A GRM row the map knows is a row of `ordered_fam_index`, mapped to a position of it. -/
theorem map_index_some (l : List Nat) (key k : Nat) (h : map_index l key = some k) :
    k < l.length ∧ l.getD k 0 = key :=
  map_index_fold_some l l.length key k h

/-- The map knows exactly the GRM rows of `ordered_fam_index`. -/
theorem map_index_ne_none_iff (l : List Nat) (key : Nat) :
    map_index l key ≠ none ↔ key ∈ l := by
  rw [Ne, map_index, map_index_fold_none]
  constructor
  · intro h
    simp only [not_forall, not_not] at h
    obtain ⟨k, hk, he⟩ := h
    rw [List.getD_eq_getElem l 0 hk] at he
    rw [← he]
    exact List.getElem_mem _
  · intro h hall
    obtain ⟨k, hk, he⟩ := List.getElem_of_mem h
    apply hall k hk
    rw [List.getD_eq_getElem l 0 hk]
    exact he

/-- When no GRM row occurs twice, the row at position `k` is mapped to `k`. -/
theorem map_index_nodup (l : List Nat) (hn : l.Nodup) (k : Nat) (hk : k < l.length) :
    map_index l (l.getD k 0) = some k :=
  map_index_fold_nodup l hn l.length (le_refl _) k hk

omit [LinearOrderedField K] in
/-- The loop over the lines appends what each line contributes on its own. -/
theorem foldl_readFAM_step (M : Nat → Option Nat) (lines acc : List (Nat × Nat × K)) :
    lines.foldl (readFAM_step M) acc = acc ++ lines.flatMap (fun t => readFAM_step M [] t) := by
  induction lines generalizing acc with
  | nil => simp
  | cons t lines ih =>
    rw [List.foldl_cons, ih, List.flatMap_cons, ← List.append_assoc]
    congr 1
    simp only [readFAM_step]
    split <;> (try split_ifs) <;> simp

/-- The dense coefficient is additive over the stored entries and does not depend on their
order. -/
theorem coeff_perm (A B : SpMat K) (h : A.entries.Perm B.entries) (i j : Nat) :
    A.coeff i j = B.coeff i j := by
  simp only [SpMat.coeff]
  exact ((h.filter _).map _).sum_eq

omit [LinearOrderedField K] in
/-- Column-wise insertion keeps the inserted elements whose column is inside the matrix. -/
theorem insertBackUncompressed_perm (n : Nat) (inserted : List (Nat × Nat × K))
    (h : ∀ e ∈ inserted, e.2.1 < n) :
    (insertBackUncompressed n inserted).Perm inserted := by
  have key : ∀ m, ((List.range m).flatMap
      (fun c => inserted.filter (fun e => e.2.1 = c))).Perm
      (inserted.filter (fun e => e.2.1 < m)) := by
    intro m
    induction m with
    | zero => simp
    | succ m ih =>
      rw [List.range_succ, List.flatMap_append]
      simp only [List.flatMap_cons, List.flatMap_nil, List.append_nil]
      have h1 := List.filter_append_perm (fun e : Nat × Nat × K => decide (e.2.1 < m))
        (inserted.filter (fun e => e.2.1 < m + 1))
      rw [List.filter_filter, List.filter_filter] at h1
      have e1 : inserted.filter (fun e => (decide (e.2.1 < m) && decide (e.2.1 < m + 1))) =
          inserted.filter (fun e => e.2.1 < m) := by
        apply List.filter_congr
        intro x _
        by_cases hx : x.2.1 < m
        · simp [hx]; omega
        · simp [hx]
      have e2 : inserted.filter (fun e => ((!decide (e.2.1 < m)) && decide (e.2.1 < m + 1))) =
          inserted.filter (fun e => e.2.1 = m) := by
        apply List.filter_congr
        intro x _
        by_cases hx : x.2.1 = m
        · simp [hx]
        · simp only [hx, decide_False, Bool.and_eq_false_imp, Bool.not_eq_true',
            decide_eq_false_iff_not, not_lt, decide_eq_true_eq]
          omega
      rw [e1, e2] at h1
      exact (ih.append (List.Perm.refl _)).trans h1
  have h2 : inserted.filter (fun e => e.2.1 < n) = inserted := by
    rw [List.filter_eq_self]
    intro e he
    simpa using h e he
  rw [← h2]
  simp only [insertBackUncompressed]
  rw [h2]
  have := key n
  rw [h2] at this
  exact this

omit [LinearOrderedField K] in
/-- Reading a vector at a permutation of its positions permutes it. -/
theorem map_getD_perm {α : Type} (l : List α) (d : α) (sorted_index : List Nat)
    (h : sorted_index.Perm (List.range l.length)) :
    (sorted_index.map (fun index => l.getD index d)).Perm l := by
  have e : (List.range l.length).map (fun index => l.getD index d) = l := by
    apply List.ext_getElem
    · simp
    · intro i h1 h2
      simp only [List.getElem_map, List.getElem_range]
      exact List.getD_eq_getElem l d h2
  have := h.map (fun index => l.getD index d)
  rw [e] at this
  exact this

omit [LinearOrderedField K] in
/-- Every element pushed by the loop has both indices inside the matrix. -/
theorem readFAM_pushes_lt (ofi : List Nat) (lines : List (Nat × Nat × K)) :
    ∀ e ∈ readFAM_pushes (map_index ofi) lines, e.1 < ofi.length ∧ e.2.1 < ofi.length := by
  intro e he
  rw [readFAM_pushes, foldl_readFAM_step, List.nil_append, List.mem_flatMap] at he
  obtain ⟨t, _, ht⟩ := he
  simp only [readFAM_step] at ht
  split at ht
  · rename_i a b ha hb
    have h1 := (map_index_some ofi _ a ha).1
    have h2 := (map_index_some ofi _ b hb).1
    split_ifs at ht
    · simp only [List.nil_append, List.mem_cons, List.mem_singleton, List.not_mem_nil,
        or_false] at ht
      rcases ht with rfl | rfl
      · exact ⟨h1, h2⟩
      · exact ⟨h2, h1⟩
    · simp only [List.nil_append, List.mem_singleton] at ht
      subst ht
      exact ⟨h1, h2⟩
  · simp at ht

/-- The dense coefficient of a concatenation is the sum of the coefficients. -/
theorem coeff_append (r c : Nat) (l1 l2 : List (Nat × Nat × K)) (i j : Nat) :
    ({ rows := r, cols := c, entries := l1 ++ l2 } : SpMat K).coeff i j =
      ({ rows := r, cols := c, entries := l1 } : SpMat K).coeff i j +
      ({ rows := r, cols := c, entries := l2 } : SpMat K).coeff i j := by
  simp [SpMat.coeff]

/-- What one line contributes is symmetric. -/
theorem coeff_readFAM_step_symm (M : Nat → Option Nat) (t : Nat × Nat × K) (r c i j : Nat) :
    ({ rows := r, cols := c, entries := readFAM_step M [] t } : SpMat K).coeff i j =
      ({ rows := r, cols := c, entries := readFAM_step M [] t } : SpMat K).coeff j i := by
  have hnil : ∀ i j, ({ rows := r, cols := c, entries := [] } : SpMat K).coeff i j = 0 := by
    intro i j
    simp [SpMat.coeff]
  simp only [readFAM_step]
  split
  · rename_i a b _ _
    split_ifs with hab
    · simp only [List.nil_append]
      rw [coeff_cons, coeff_cons, coeff_cons, coeff_cons, hnil, hnil]
      simp only [add_zero]
      rw [add_comm]
      congr 1
      · simp only [and_comm]
      · simp only [and_comm]
    · have hab2 : a = b := by
        by_contra h
        exact hab h
      subst hab2
      simp only [List.nil_append]
      rw [coeff_cons, coeff_cons, hnil, hnil]
      simp only [and_comm]
  · rfl

/-- The pushed elements form a symmetric matrix. -/
theorem coeff_flatMap_readFAM_step_symm (M : Nat → Option Nat) (lines : List (Nat × Nat × K))
    (r c i j : Nat) :
    ({ rows := r, cols := c, entries := lines.flatMap (fun t => readFAM_step M [] t) } :
        SpMat K).coeff i j =
      ({ rows := r, cols := c, entries := lines.flatMap (fun t => readFAM_step M [] t) } :
        SpMat K).coeff j i := by
  induction lines with
  | nil => rfl
  | cons t lines ih =>
    rw [List.flatMap_cons, coeff_append, coeff_append, ih, coeff_readFAM_step_symm]

/-- Claim C14.  For every list of lines `i j value` of `.grm.sp` (the two-key `sort_indexes`
returning a permutation of the positions): a line whose two GRM rows are both rows of
`ordered_fam_index` pushes `(i2, j2, value)` and, when `i2 != j2`, also `(j2, i2, value)`,
where `i2`, `j2` are the positions of the rows in `ordered_fam_index`; a line with a row
outside it pushes nothing; the stored entries of `fam` are these pushed elements, and
`fam` is a square symmetric matrix. -/
theorem readFAM_builds_symmetric_matrix (sort_indexes : List Nat → List Nat)
    (sort_indexes2 : List Nat → List Nat → List Nat)
    (vector_commonIndex : List String → List String → List Nat × List Nat)
    (sublist : List String) (lines : List (Nat × Nat × K)) (ids : List String)
    (ordered_fam_index : List Nat) (pushes : List (Nat × Nat × K))
    (hofi : ordered_fam_index = (readFAM_order sort_indexes (vector_commonIndex sublist ids).1
      (vector_commonIndex sublist ids).2).1)
    (hpushes : pushes = readFAM_pushes (map_index ordered_fam_index) lines)
    (hsorted : (sort_indexes2 (pushes.map (fun e => e.2.1)) (pushes.map (fun e => e.1))).Perm
      (List.range pushes.length)) :
    pushes = lines.flatMap (fun line =>
      match map_index ordered_fam_index line.1, map_index ordered_fam_index line.2.1 with
      | some i2, some j2 =>
        if i2 ≠ j2 then [(i2, j2, line.2.2), (j2, i2, line.2.2)] else [(i2, j2, line.2.2)]
      | _, _ => []) ∧
    (∀ key, map_index ordered_fam_index key ≠ none ↔ key ∈ ordered_fam_index) ∧
    (∀ key k, map_index ordered_fam_index key = some k →
      k < ordered_fam_index.length ∧ ordered_fam_index.getD k 0 = key) ∧
    (readFAM sort_indexes sort_indexes2 vector_commonIndex sublist lines ids).1.entries.Perm
      pushes ∧
    (readFAM sort_indexes sort_indexes2 vector_commonIndex sublist lines ids).1.rows =
      ordered_fam_index.length ∧
    (readFAM sort_indexes sort_indexes2 vector_commonIndex sublist lines ids).1.cols =
      ordered_fam_index.length ∧
    (readFAM sort_indexes sort_indexes2 vector_commonIndex sublist lines ids).1.Symmetric := by
  have hflat : pushes = lines.flatMap (fun t => readFAM_step (map_index ordered_fam_index) [] t) := by
    rw [hpushes, readFAM_pushes, foldl_readFAM_step, List.nil_append]
  have hfam : (readFAM sort_indexes sort_indexes2 vector_commonIndex sublist lines ids).1 =
      { rows := ordered_fam_index.length, cols := ordered_fam_index.length
        entries := insertBackUncompressed ordered_fam_index.length
          ((sort_indexes2 (pushes.map (fun e => e.2.1)) (pushes.map (fun e => e.1))).map
            (fun index => pushes.getD index (0, 0, 0))) } := by
    rw [hpushes, hofi]
    rfl
  have hperm1 := map_getD_perm pushes (0, 0, 0) _ hsorted
  have hlt : ∀ e ∈ pushes, e.1 < ordered_fam_index.length ∧ e.2.1 < ordered_fam_index.length := by
    rw [hpushes]
    exact readFAM_pushes_lt ordered_fam_index lines
  have hperm : (readFAM sort_indexes sort_indexes2 vector_commonIndex sublist lines
      ids).1.entries.Perm pushes := by
    rw [hfam]
    exact (insertBackUncompressed_perm _ _
      (fun e he => (hlt e (hperm1.mem_iff.mp he)).2)).trans hperm1
  refine ⟨?_, map_index_ne_none_iff ordered_fam_index, map_index_some ordered_fam_index,
    hperm, by rw [hfam], by rw [hfam], ?_⟩
  · exact hflat
  · intro i j
    have e1 := coeff_perm _ ({ rows := 0, cols := 0, entries := pushes } : SpMat K) hperm i j
    have e2 := coeff_perm _ ({ rows := 0, cols := 0, entries := pushes } : SpMat K) hperm j i
    rw [e1, e2, hflat]
    exact coeff_flatMap_readFAM_step_symm _ _ _ _ _ _

end ReaderLemmas

/-- Claim C14 (witness): four lines over the GRM rows `0..3`, of which row `1` is not a common
sample. -/
theorem readFAM_builds_symmetric_matrix_witness :
    (readFAM sampleSortIndexes sampleSortIndexes2 sampleCommonIndex ["g0", "g1", "g2", "g3"]
      (sampleLines : List (Nat × Nat × ℚ)) ["g2", "g0", "x", "g3"]).1.Symmetric ∧
    (readFAM sampleSortIndexes sampleSortIndexes2 sampleCommonIndex ["g0", "g1", "g2", "g3"]
      (sampleLines : List (Nat × Nat × ℚ)) ["g2", "g0", "x", "g3"]).1.entries.Perm
      [(1, 1, 1), (0, 1, 1 / 2), (1, 0, 1 / 2), (2, 2, 1)] := by
  have h := readFAM_builds_symmetric_matrix sampleSortIndexes sampleSortIndexes2
    sampleCommonIndex ["g0", "g1", "g2", "g3"] (sampleLines : List (Nat × Nat × ℚ))
    ["g2", "g0", "x", "g3"] _ _ rfl rfl
    (by
      simp only [sampleSortIndexes2, List.length_map]
      exact List.perm_insertionSort _ _)
  refine ⟨h.2.2.2.2.2.2, ?_⟩
  have hp := h.2.2.2.1
  have e : readFAM_pushes (map_index (readFAM_order sampleSortIndexes
      (sampleCommonIndex ["g0", "g1", "g2", "g3"] ["g2", "g0", "x", "g3"]).1
      (sampleCommonIndex ["g0", "g1", "g2", "g3"] ["g2", "g0", "x", "g3"]).2).1)
      (sampleLines : List (Nat × Nat × ℚ)) =
      [(1, 1, 1), (0, 1, 1 / 2), (1, 0, 1 / 2), (2, 2, 1)] := by
    have ho : (readFAM_order sampleSortIndexes
        (sampleCommonIndex ["g0", "g1", "g2", "g3"] ["g2", "g0", "x", "g3"]).1
        (sampleCommonIndex ["g0", "g1", "g2", "g3"] ["g2", "g0", "x", "g3"]).2).1 = [2, 0, 3] := by
      decide
    rw [ho]
    have hm : ∀ key, map_index [2, 0, 3] key =
        if key = 3 then some 2 else if key = 0 then some 1 else if key = 2 then some 0
        else none := by
      intro key
      simp [map_index, List.range_succ]
    simp [readFAM_pushes, readFAM_step, sampleLines, hm]
  rw [e] at hp
  exact hp

section OrderLemmas

/-- Reading a vector through a list of positions, at a position of that list. -/
theorem getD_map_getD {α : Type} (S : List Nat) (v : List α) (d : α) (k : Nat)
    (hk : k < S.length) :
    (S.map (fun pos => v.getD pos d)).getD k d = v.getD (S.getD k 0) d := by
  rw [List.getD_eq_getElem _ d (by simpa using hk), List.getElem_map,
    List.getD_eq_getElem S 0 hk]

end OrderLemmas

section OrderClaim
variable {K : Type} [LinearOrderedField K]

/-- Claim C15.  When `vector_commonIndex` returns paired positions of the common ids (each
GRM row once) and `sort_indexes` returns a sorting permutation: the `remain_index` that
`readFAM` returns is ascending; for every canonical position `k` the id on GRM row
`ordered_fam_index[k]` is the id `ids[remain_index[k]]` of the list handed to `readFAM`, and
`map_index` sends that row to `k`; `fam` is `n x n` for the number `n` of common samples; and
the constructor takes `remain_phenos[k]` from `phenos[remain_index_cov[remain_index[k]]]`
and `remain_ids_fam[k]` from `ids` at the same position, which is the id on GRM row
`ordered_fam_index[k]`. -/
theorem readFAM_aligns_sample_order (sort_indexes : List Nat → List Nat)
    (sort_indexes2 : List Nat → List Nat → List Nat)
    (vector_commonIndex : List String → List String → List Nat × List Nat)
    (sublist : List String) (lines : List (Nat × Nat × K)) (remain_index_cov : List Nat)
    (ids : List String) (phenos : List K) (fam_index remain_index_c : List Nat)
    (hcommon : vector_commonIndex sublist (remain_ids remain_index_cov ids) =
      (fam_index, remain_index_c))
    (hlen : fam_index.length = remain_index_c.length)
    (hin : ∀ t, t < remain_index_c.length →
      remain_index_c.getD t 0 < (remain_ids remain_index_cov ids).length)
    (hpair : ∀ t, t < remain_index_c.length →
      sublist.getD (fam_index.getD t 0) "" =
        (remain_ids remain_index_cov ids).getD (remain_index_c.getD t 0) "")
    (hnodup : fam_index.Nodup)
    (hperm : (sort_indexes remain_index_c).Perm (List.range remain_index_c.length))
    (hsorted : ((sort_indexes remain_index_c).map
      (fun pos => remain_index_c.getD pos 0)).Pairwise (fun a b => a ≤ b))
    (ordered_fam_index remain_index : List Nat)
    (hofi : ordered_fam_index = (readFAM_order sort_indexes fam_index remain_index_c).1)
    (hri : remain_index = (readFAM sort_indexes sort_indexes2 vector_commonIndex sublist lines
      (remain_ids remain_index_cov ids)).2) :
    remain_index.Pairwise (fun a b => a ≤ b) ∧
    remain_index.length = ordered_fam_index.length ∧
    remain_index.Perm remain_index_c ∧
    (readFAM sort_indexes sort_indexes2 vector_commonIndex sublist lines
      (remain_ids remain_index_cov ids)).1.rows = ordered_fam_index.length ∧
    (readFAM sort_indexes sort_indexes2 vector_commonIndex sublist lines
      (remain_ids remain_index_cov ids)).1.cols = ordered_fam_index.length ∧
    (constructor_align sort_indexes sort_indexes2 vector_commonIndex sublist lines
      remain_index_cov ids phenos).2.1.length = ordered_fam_index.length ∧
    (constructor_align sort_indexes sort_indexes2 vector_commonIndex sublist lines
      remain_index_cov ids phenos).2.2.1.length = ordered_fam_index.length ∧
    ∀ k, k < ordered_fam_index.length →
      sublist.getD (ordered_fam_index.getD k 0) "" =
        (remain_ids remain_index_cov ids).getD (remain_index.getD k 0) "" ∧
      map_index ordered_fam_index (ordered_fam_index.getD k 0) = some k ∧
      (constructor_align sort_indexes sort_indexes2 vector_commonIndex sublist lines
        remain_index_cov ids phenos).2.1.getD k 0 =
        phenos.getD (remain_index_cov.getD (remain_index.getD k 0) 0) 0 ∧
      (constructor_align sort_indexes sort_indexes2 vector_commonIndex sublist lines
        remain_index_cov ids phenos).2.2.1.getD k "" =
        ids.getD (remain_index_cov.getD (remain_index.getD k 0) 0) "" ∧
      (constructor_align sort_indexes sort_indexes2 vector_commonIndex sublist lines
        remain_index_cov ids phenos).2.2.1.getD k "" =
        sublist.getD (ordered_fam_index.getD k 0) "" := by
  have hri2 : remain_index =
      (sort_indexes remain_index_c).map (fun pos => remain_index_c.getD pos 0) := by
    rw [hri]
    simp only [readFAM, hcommon, readFAM_order]
  have hofi2 : ordered_fam_index =
      (sort_indexes remain_index_c).map (fun pos => fam_index.getD pos 0) := by
    rw [hofi]
    simp only [readFAM_order]
  have hfam : (readFAM sort_indexes sort_indexes2 vector_commonIndex sublist lines
      (remain_ids remain_index_cov ids)).1 =
      readFAM_fam sort_indexes2 ordered_fam_index lines := by
    rw [hofi]
    simp only [readFAM, hcommon]
  have halign : (constructor_align sort_indexes sort_indexes2 vector_commonIndex sublist lines
      remain_index_cov ids phenos).2 =
      reorder_phenotype remain_index_cov remain_index ids phenos := by
    rw [hri]
    rfl
  have hS : (sort_indexes remain_index_c).length = remain_index_c.length := by
    rw [hperm.length_eq, List.length_range]
  have hn : ordered_fam_index.length = remain_index_c.length := by
    rw [hofi2, List.length_map, hS]
  have hSk : ∀ k, k < remain_index_c.length →
      (sort_indexes remain_index_c).getD k 0 < remain_index_c.length := by
    intro k hk
    rw [List.getD_eq_getElem _ 0 (by omega)]
    exact List.mem_range.mp (hperm.mem_iff.mp (List.getElem_mem _))
  have hnd : ordered_fam_index.Nodup := by
    rw [hofi2]
    have hp := map_getD_perm fam_index 0 (sort_indexes remain_index_c) (by rw [hlen]; exact hperm)
    exact hp.nodup_iff.mpr hnodup
  refine ⟨by rw [hri2]; exact hsorted, by rw [hri2, List.length_map, hS, hn],
    by rw [hri2]; exact map_getD_perm remain_index_c 0 _ hperm,
    by rw [hfam]; rfl, by rw [hfam]; rfl,
    by rw [halign]; simp [reorder_phenotype, hri2, hS, hn],
    by rw [halign]; simp [reorder_phenotype, hri2, hS, hn], ?_⟩
  intro k hk
  rw [hn] at hk
  have hrk : remain_index.getD k 0 =
      remain_index_c.getD ((sort_indexes remain_index_c).getD k 0) 0 := by
    rw [hri2]
    exact getD_map_getD _ _ 0 k (by omega)
  have hok : ordered_fam_index.getD k 0 =
      fam_index.getD ((sort_indexes remain_index_c).getD k 0) 0 := by
    rw [hofi2]
    exact getD_map_getD _ _ 0 k (by omega)
  have hid : sublist.getD (ordered_fam_index.getD k 0) "" =
      (remain_ids remain_index_cov ids).getD (remain_index.getD k 0) "" := by
    rw [hrk, hok]
    exact hpair _ (hSk k hk)
  have hinr : remain_index.getD k 0 < remain_index_cov.length := by
    have := hin _ (hSk k hk)
    rw [remain_ids, List.length_map] at this
    rw [hrk]
    exact this
  have hrid : (remain_ids remain_index_cov ids).getD (remain_index.getD k 0) "" =
      ids.getD (remain_index_cov.getD (remain_index.getD k 0) 0) "" := by
    rw [remain_ids]
    exact getD_map_getD remain_index_cov ids "" _ hinr
  have hklen : k < remain_index.length := by
    rw [hri2, List.length_map, hS]
    exact hk
  have hph : (reorder_phenotype remain_index_cov remain_index ids phenos).1.getD k 0 =
      phenos.getD (remain_index_cov.getD (remain_index.getD k 0) 0) 0 := by
    simp only [reorder_phenotype, List.map_map]
    rw [List.getD_eq_getElem _ 0 (by simpa using hklen), List.getElem_map,
      List.getD_eq_getElem remain_index 0 hklen]
    rfl
  have hidf : (reorder_phenotype remain_index_cov remain_index ids phenos).2.1.getD k "" =
      ids.getD (remain_index_cov.getD (remain_index.getD k 0) 0) "" := by
    simp only [reorder_phenotype, List.map_map]
    rw [List.getD_eq_getElem _ "" (by simpa using hklen), List.getElem_map,
      List.getD_eq_getElem remain_index 0 hklen]
    rfl
  rw [halign]
  exact ⟨hid, map_index_nodup ordered_fam_index hnd k (by omega), hph, hidf,
    by rw [hidf, ← hrid, ← hid]⟩

end OrderClaim

/-- Claim C15 (witness): GRM ids `g0 g1 g2 g3`, ids `g2 g0 x g3` handed to `readFAM`; the
canonical order is `g2 g0 g3`, the GRM rows `2, 0, 3`. -/
theorem readFAM_aligns_sample_order_witness :
    (readFAM sampleSortIndexes sampleSortIndexes2 sampleCommonIndex ["g0", "g1", "g2", "g3"]
      (sampleLines : List (Nat × Nat × ℚ))
      (remain_ids sampleRemainIndexCov sampleIds)).2.Pairwise (fun a b => a ≤ b) ∧
    (constructor_align sampleSortIndexes sampleSortIndexes2 sampleCommonIndex
      ["g0", "g1", "g2", "g3"] (sampleLines : List (Nat × Nat × ℚ)) sampleRemainIndexCov
      sampleIds (samplePhenos ℚ)).2.2.1.getD 1 "" =
      (["g0", "g1", "g2", "g3"] : List String).getD
        ((readFAM_order sampleSortIndexes [0, 2, 3] [1, 0, 3]).1.getD 1 0) "" := by
  have hs : sampleSortIndexes [1, 0, 3] = [1, 0, 2] := by decide
  have h := readFAM_aligns_sample_order sampleSortIndexes sampleSortIndexes2
    sampleCommonIndex ["g0", "g1", "g2", "g3"] (sampleLines : List (Nat × Nat × ℚ))
    sampleRemainIndexCov sampleIds (samplePhenos ℚ) [0, 2, 3] [1, 0, 3] rfl rfl
    (by
      intro t ht
      simp only [List.length_cons, List.length_nil] at ht
      interval_cases t <;> simp [remain_ids, sampleRemainIndexCov])
    (by
      intro t ht
      simp only [List.length_cons, List.length_nil] at ht
      interval_cases t <;> simp [remain_ids, sampleRemainIndexCov, sampleIds])
    (by decide)
    (by
      simp only [sampleSortIndexes]
      exact List.perm_insertionSort _ _)
    (by
      rw [hs]
      decide)
    _ _ rfl rfl
  refine ⟨h.1, ?_⟩
  exact (h.2.2.2.2.2.2.2 1 (by rw [readFAM_order, hs]; decide)).2.2.2.2

section DenseLemmas
variable {K : Type} [LinearOrderedField K]

/-- The inner product as a sum over the positions of its first argument. -/
theorem dot_eq_sum_range (a b : List K) :
    dot a b = ∑ c in Finset.range a.length, a.getD c 0 * b.getD c 0 := by
  induction a generalizing b with
  | nil => simp [dot]
  | cons x a ih =>
    cases b with
    | nil => simp [dot]
    | cons y b =>
      rw [dot_cons, ih, List.length_cons, Finset.sum_range_succ']
      simp [add_comm]

/-- Entry `c` of `x^T V`. -/
theorem getD_vecMulSp (x : List K) (V : SpMat K) (c : Nat) (hc : c < V.cols) :
    (vecMulSp x V).getD c 0 =
      ((V.entries.filter (fun e => e.2.1 = c)).map (fun e => x.getD e.1 0 * e.2.2)).sum := by
  simp only [vecMulSp]
  rw [List.getD_eq_getElem _ 0 (by simpa using hc), List.getElem_map, List.getElem_range]

/-- The sum over the stored entries of a column is the dense sum over the rows. -/
theorem sum_col_eq_dense (x : List K) (rows cols : Nat) (ents : List (Nat × Nat × K))
    (c : Nat) :
    ((ents.filter (fun e => e.2.1 = c)).map (fun e => x.getD e.1 0 * e.2.2)).sum =
      ∑ r in Finset.range x.length,
        x.getD r 0 * SpMat.coeff { rows := rows, cols := cols, entries := ents } r c := by
  induction ents with
  | nil => simp [SpMat.coeff]
  | cons e rest ih =>
    simp only [coeff_cons, mul_add, Finset.sum_add_distrib, ← ih]
    have h1 : ∑ r in Finset.range x.length,
        x.getD r 0 * (if e.1 = r ∧ e.2.1 = c then e.2.2 else 0) =
        if e.2.1 = c then x.getD e.1 0 * e.2.2 else 0 := by
      by_cases hcol : e.2.1 = c
      · simp only [hcol, and_true, if_true, mul_ite, mul_zero]
        rw [Finset.sum_ite_eq]
        by_cases hr : e.1 < x.length
        · simp [hr]
        · have : x.getD e.1 0 = 0 := by
            rw [List.getD_eq_default]
            omega
          rw [this]
          simp [hr]
      · simp [hcol]
    rw [h1]
    by_cases hcol : e.2.1 = c
    · simp [List.filter_cons, hcol]
    · simp [List.filter_cons, hcol]

/-- The product `(x^T V) w` as the dense double sum. -/
theorem dot_vecMulSp_eq_dense (x w : List K) (V : SpMat K) :
    dot (vecMulSp x V) w =
      ∑ c in Finset.range V.cols, ∑ r in Finset.range x.length,
        x.getD r 0 * V.coeff r c * w.getD c 0 := by
  rw [dot_eq_sum_range]
  have hl : (vecMulSp x V).length = V.cols := by simp [vecMulSp]
  rw [hl]
  apply Finset.sum_congr rfl
  intro c hc
  rw [getD_vecMulSp x V c (Finset.mem_range.mp hc), sum_col_eq_dense x V.rows V.cols,
    Finset.sum_mul]

end DenseLemmas

/-- C2: for marker `j` of a batch with genotype vector `x`, write `d` for the dense double sum
`x^T V_inverse x = sum over c, r of x[r] * V_inverse(r, c) * x[c]` and `x^T V_inverse y` for
the same sum with `y[c]` in place of `x[c]`.  When `d > 0`, `calculate_fam` stores at index
`num_finished_marker + j` the values `beta = (x^T V_inverse y) / d` and `se = 1 / sqrt(d)`,
and the stored `p` is `pchisqd1` of `z^2 = (beta / se)^2`, which equals
`(x^T V_inverse y)^2 / d`. -/
theorem calculate_fam_stores_gls_estimate (pchisqd1 : Dbl ℝ → Dbl ℝ) (st : State ℝ)
    (buf : Nat → List ℝ) (m j : Nat) (hj : j < m)
    (h32 : st.num_finished_marker + m ≤ 2 ^ 32)
    (hbeta : st.num_finished_marker + m ≤ st.beta.length)
    (hse : st.num_finished_marker + m ≤ st.se.length)
    (hp : st.num_finished_marker + m ≤ st.p.length)
    (hd : 0 < ∑ c in Finset.range st.V_inverse.cols, ∑ r in Finset.range (buf j).length,
      (buf j).getD r 0 * st.V_inverse.coeff r c * (buf j).getD c 0) :
    let d := ∑ c in Finset.range st.V_inverse.cols, ∑ r in Finset.range (buf j).length,
      (buf j).getD r 0 * st.V_inverse.coeff r c * (buf j).getD c 0
    let xVy := ∑ c in Finset.range st.V_inverse.cols, ∑ r in Finset.range (buf j).length,
      (buf j).getD r 0 * st.V_inverse.coeff r c * st.phenoVec.getD c 0
    let st1 := calculate_fam Real.sqrt pchisqd1 st buf m
    st1.beta[st.num_finished_marker + j]? = some (Dbl.fin (xVy / d)) ∧
    st1.se[st.num_finished_marker + j]? = some (Dbl.fin (1 / Real.sqrt d)) ∧
    st1.p[st.num_finished_marker + j]? =
      some (pchisqd1 (Dbl.fin ((xVy / d / (1 / Real.sqrt d)) ^ 2))) ∧
    (xVy / d / (1 / Real.sqrt d)) ^ 2 = xVy ^ 2 / d := by
  intro d xVy st1
  have hdd : dot (vecMulSp (buf j) st.V_inverse) (buf j) = d :=
    dot_vecMulSp_eq_dense (buf j) (buf j) st.V_inverse
  have hxy : dot (vecMulSp (buf j) st.V_inverse) st.phenoVec = xVy :=
    dot_vecMulSp_eq_dense (buf j) st.phenoVec st.V_inverse
  have hd2 : 0 < dot (vecMulSp (buf j) st.V_inverse) (buf j) := by
    rw [hdd]
    exact hd
  have h := calculate_fam_getElem? Real.sqrt pchisqd1 st buf m h32 j hj
  simp only [markerStats_of_pos pchisqd1 _ _ st.phenoVec hd2, hdd, hxy] at h
  exact ⟨h.1 (by omega), h.2.1 (by omega), h.2.2 (by omega), sq_ratio xVy d hd⟩

/-- Witness of C2: `V_inverse` with rows `(2, -1)` and `(-1, 2)`, genotype `(1, 2)`,
phenotype `(3, 4)`: `x^T V_inverse = (0, 3)`, `d = 6`, `x^T V_inverse y = 12`, so `beta = 2`
(the OLS value would be `11 / 5`). -/
theorem calculate_fam_stores_gls_estimate_witness :
    (calculate_fam Real.sqrt (fun z => z) (glsSampleState ℝ) (twoSampleBatch ℝ) 1).beta[0]? =
      some (Dbl.fin 2) ∧
    (calculate_fam Real.sqrt (fun z => z) (glsSampleState ℝ) (twoSampleBatch ℝ) 1).se[0]? =
      some (Dbl.fin (1 / Real.sqrt 6)) := by
  have hdv : (∑ c in Finset.range (glsSampleState ℝ).V_inverse.cols,
      ∑ r in Finset.range (twoSampleBatch ℝ 0).length,
        (twoSampleBatch ℝ 0).getD r 0 * (glsSampleState ℝ).V_inverse.coeff r c *
          (twoSampleBatch ℝ 0).getD c 0) = 6 := by
    simp [Finset.sum_range_succ, SpMat.coeff, glsSampleState, twoSampleBatch, List.filter_cons]
    norm_num
  have hxv : (∑ c in Finset.range (glsSampleState ℝ).V_inverse.cols,
      ∑ r in Finset.range (twoSampleBatch ℝ 0).length,
        (twoSampleBatch ℝ 0).getD r 0 * (glsSampleState ℝ).V_inverse.coeff r c *
          (glsSampleState ℝ).phenoVec.getD c 0) = 12 := by
    simp [Finset.sum_range_succ, SpMat.coeff, glsSampleState, twoSampleBatch, List.filter_cons]
    norm_num
  have h := calculate_fam_stores_gls_estimate (fun z => z) (glsSampleState ℝ)
    (twoSampleBatch ℝ) 1 0 (by decide) (by simp [glsSampleState]) (by simp [glsSampleState])
    (by simp [glsSampleState]) (by simp [glsSampleState]) (by rw [hdv]; norm_num)
  have e : (glsSampleState ℝ).num_finished_marker + 0 = 0 := rfl
  simp only [hdv, hxv, e] at h
  refine ⟨?_, h.2.1⟩
  rw [h.1]
  norm_num

end FastFAM
